import Mathlib

namespace TrackMyCoin

/-! ## Go values used by the row codec

`float64` is modelled by its IEEE-754 binary64 bit fields, a spreadsheet cell
(`interface{}`) by the dynamic types that occur in a row. -/

/-- An IEEE-754 binary64 datum (Go `float64`): sign bit, 11-bit biased exponent field and
52-bit fraction field. -/
structure Float64 where
  sign : Bool
  expo : Fin 2048
  frac : Fin 4503599627370496
deriving DecidableEq, Repr

namespace Float64

/-- Assemble a datum from its fields (fields are masked to their widths, as in
`math.Float64frombits`). -/
def mk3 (s : Bool) (e f : Nat) : Float64 :=
  ⟨s, ⟨e % 2048, Nat.mod_lt _ (by decide)⟩, ⟨f % 4503599627370496, Nat.mod_lt _ (by decide)⟩⟩

/-- The float64 constant `0`. -/
def zero : Float64 := mk3 false 0 0

/-- Go `math.IsNaN`. -/
def isNaN (x : Float64) : Bool := x.expo.val == 2047 && x.frac.val != 0

/-- Go `x == 0` on float64: true for `+0` and `-0`. -/
def isZero (x : Float64) : Bool := x.expo.val == 0 && x.frac.val == 0

/-- Go `x == y` on float64: NaN equals nothing, `-0 == +0`, otherwise equality of the data. -/
def eqGo (x y : Float64) : Bool :=
  !x.isNaN && !y.isNaN && (decide (x = y) || (x.isZero && y.isZero))

end Float64

/-! ## Model of `strconv.ParseFloat(s, 64)` (Go standard library) -/

namespace strconv

/-- Number of binary digits of `n` (`0` for `0`). -/
def bitLenAux : Nat → Nat → Nat
  | 0, _ => 0
  | fuel + 1, n => if n = 0 then 0 else bitLenAux fuel (n / 2) + 1

/-- Number of binary digits of `n`. -/
def bitLen (n : Nat) : Nat := bitLenAux n n

/-- Quotient `num / den` rounded to the nearest integer, ties to even. -/
def roundHalfEven (num den : Nat) : Nat :=
  let q := num / den
  let r := num % den
  if 2 * r < den then q else if den < 2 * r then q + 1 else q + q % 2

/-- The integer `l` with `2 ^ l ≤ num / den < 2 ^ (l + 1)`, for positive `num`, `den`. -/
def floorLog2 (num den : Nat) : Int :=
  let l0 : Int := (bitLen num : Int) - (bitLen den : Int)
  if den * 2 ^ l0.toNat ≤ num * 2 ^ (-l0).toNat then l0 else l0 - 1

/-- The quotient `num / den / 2 ^ e` rounded to the nearest integer, ties to even. -/
def roundScaled (num den : Nat) (e : Int) : Nat :=
  roundHalfEven (num * 2 ^ (-e).toNat) (den * 2 ^ e.toNat)

/-- The binary64 of value `m * 2 ^ e` for `m < 2 ^ 53` and `-1074 ≤ e` (`m < 2 ^ 52` only
for `e = -1074`, a subnormal); `none` when the exponent is out of range (overflow). -/
def assemble (neg : Bool) (m : Nat) (e : Int) : Option Float64 :=
  if m < 2 ^ 52 then some (Float64.mk3 neg 0 m)
  else if 2047 ≤ e + 1075 then none
  else some (Float64.mk3 neg (e + 1075).toNat (m - 2 ^ 52))

/-- The binary64 nearest to the non-negative rational `num / den` (IEEE round to nearest,
ties to even) with the given sign; `none` when the result overflows (Go returns `±Inf`
together with `ErrRange`). -/
def floatBits (neg : Bool) (num den : Nat) : Option Float64 :=
  if num = 0 then some (Float64.mk3 neg 0 0) else
  let e : Int := max (floorLog2 num den - 52) (-1074)
  let m := roundScaled num den e
  if m = 2 ^ 53 then assemble neg (2 ^ 52) (e + 1) else assemble neg m e

/-- Go `commonPrefixLenIgnoreCase(s, prefix)`: `prefix` is lower case. -/
def commonPrefixLenIgnoreCase : List Char → List Char → Nat
  | c :: s, p :: ps =>
    let c1 := if 'A' ≤ c ∧ c ≤ 'Z' then Char.ofNat (c.toNat + 32) else c
    if c1 = p then commonPrefixLenIgnoreCase s ps + 1 else 0
  | _, _ => 0

/-- Go `special`: the strings `inf`, `infinity` (optionally signed) and `nan`, any case.
Returns the value and the number of characters consumed. -/
def special (s : List Char) : Option (Float64 × Nat) :=
  let inf (neg : Bool) (nsign : Nat) (t : List Char) : Option (Float64 × Nat) :=
    let n := commonPrefixLenIgnoreCase t "infinity".toList
    let n1 := if 3 < n ∧ n < 8 then 3 else n
    if n1 = 3 ∨ n1 = 8 then some (Float64.mk3 neg 2047 0, nsign + n1) else none
  match s with
  | [] => none
  | '+' :: t => inf false 1 t
  | '-' :: t => inf true 1 t
  | 'i' :: _ => inf false 0 s
  | 'I' :: _ => inf false 0 s
  | 'n' :: _ => if commonPrefixLenIgnoreCase s "nan".toList = 3
      then some (Float64.mk3 false 2047 2251799813685249, 3) else none
  | 'N' :: _ => if commonPrefixLenIgnoreCase s "nan".toList = 3
      then some (Float64.mk3 false 2047 2251799813685249, 3) else none
  | _ => none

/-- Value of a decimal digit character. -/
def decVal (c : Char) : Option Nat :=
  if '0' ≤ c ∧ c ≤ '9' then some (c.toNat - 48) else none

/-- Value of a hexadecimal letter `a..f` / `A..F`. -/
def hexLetterVal (c : Char) : Option Nat :=
  if 'a' ≤ c ∧ c ≤ 'f' then some (c.toNat - 87)
  else if 'A' ≤ c ∧ c ≤ 'F' then some (c.toNat - 55) else none

/-- State of the mantissa loop of Go `readFloat`. The mantissa is kept exactly (Go keeps
19 digits and a `trunc` flag and falls back to exact arithmetic when they do not decide
the rounding). -/
structure MantState where
  mantissa : Nat := 0
  nd : Nat := 0
  dp : Int := 0
  sawdot : Bool := false
  sawdigits : Bool := false
  underscores : Bool := false

/-- The mantissa loop of Go `readFloat`: consumes digits, `_` and one `.`; returns the
final state and the unread input. -/
def readMantissa (hex : Bool) : List Char → MantState → MantState × List Char
  | [], st => (st, [])
  | c :: s, st =>
    if c = '_' then readMantissa hex s { st with underscores := true }
    else if c = '.' then
      if st.sawdot then (st, c :: s)
      else readMantissa hex s { st with sawdot := true, dp := st.nd }
    else match decVal c with
      | some v =>
        if c = '0' ∧ st.nd = 0 then
          readMantissa hex s { st with sawdigits := true, dp := st.dp - 1 }
        else
          readMantissa hex s { st with sawdigits := true, nd := st.nd + 1,
                                       mantissa := st.mantissa * (if hex then 16 else 10) + v }
      | none =>
        match (if hex then hexLetterVal c else none) with
        | some v =>
          readMantissa hex s { st with sawdigits := true, nd := st.nd + 1,
                                       mantissa := st.mantissa * 16 + v }
        | none => (st, c :: s)

/-- The exponent digit loop of Go `readFloat` (`e` stops growing at 10000); returns `e`,
whether an underscore was seen, and the unread input. -/
def readExpDigits : List Char → Nat → Bool → Nat × Bool × List Char
  | [], e, u => (e, u, [])
  | c :: s, e, u =>
    if c = '_' then readExpDigits s e true
    else match decVal c with
      | some v => readExpDigits s (if e < 10000 then e * 10 + v else e) u
      | none => (e, u, c :: s)

/-- Go `underscoreOK`, state `saw`: `0` start, `1` digit, `2` underscore, `3` other. -/
def underscoreLoop (hex : Bool) : List Char → Nat → Bool
  | [], saw => saw != 2
  | c :: s, saw =>
    if (decVal c).isSome || (hex && (hexLetterVal c).isSome) then underscoreLoop hex s 1
    else if c = '_' then (if saw != 1 then false else underscoreLoop hex s 2)
    else if saw = 2 then false
    else underscoreLoop hex s 3

/-- Go `underscoreOK`: underscores only between digits or after a base prefix. -/
def underscoreOK (s : List Char) : Bool :=
  let s1 := match s with
    | '-' :: t => t
    | '+' :: t => t
    | _ => s
  match s1 with
  | '0' :: c :: t =>
    if c = 'x' ∨ c = 'X' then underscoreLoop true t 1
    else if c = 'b' ∨ c = 'B' ∨ c = 'o' ∨ c = 'O' then underscoreLoop false t 1
    else underscoreLoop false s1 0
  | _ => underscoreLoop false s1 0

/-- Result of Go `readFloat` on a whole string: sign, base-16 flag, exact mantissa and the
exponent of the base (10, or 2 for hexadecimal). -/
structure ReadResult where
  neg : Bool
  hex : Bool
  mantissa : Nat
  exp : Int

/-- The base prefix test of Go `readFloat`: `0x` or `0X` followed by at least one more
character. -/
def isHexLiteral : List Char → Bool
  | '0' :: x :: _ :: _ => x = 'x' ∨ x = 'X'
  | _ => false

/-- The exponent part of Go `readFloat` (`e`/`E` for decimal, `p`/`P`, which is mandatory,
for hexadecimal): the signed exponent, whether an underscore was seen, and the unread
input; `none` when the part is malformed. -/
def readExponent (hex : Bool) (rest : List Char) (underscores : Bool) :
    Option (Int × Bool × List Char) :=
  match rest with
  | [] => if hex then none else some (0, underscores, [])
  | c :: r =>
    if (hex ∧ (c = 'p' ∨ c = 'P')) ∨ (¬ hex ∧ (c = 'e' ∨ c = 'E')) then
      match r with
      | [] => none
      | c2 :: r2 =>
        let esign : Int := if c2 = '-' then -1 else 1
        let r3 := if c2 = '+' ∨ c2 = '-' then r2 else r
        match r3 with
        | [] => none
        | c3 :: _ =>
          if (decVal c3).isNone then none
          else
            let x := readExpDigits r3 0 underscores
            some (x.1 * esign, x.2.1, x.2.2)
    else if hex then none
    else some (0, underscores, rest)

/-- Go `readFloat` after the sign: `s1` is the input after the sign, `whole` the whole
input. The number must end the input (`ParseFloat` rejects unread characters). -/
def readNumber (s1 whole : List Char) (neg : Bool) : Option ReadResult :=
  let hex := isHexLiteral s1
  let s2 := if hex then s1.drop 2 else s1
  let st := (readMantissa hex s2 {}).1
  let rest := (readMantissa hex s2 {}).2
  if !st.sawdigits then none else
  let dp0 : Int := if st.sawdot then st.dp else st.nd
  let dp1 : Int := if hex then dp0 * 4 else dp0
  let ndMant : Int := if hex then st.nd * 4 else st.nd
  match readExponent hex rest st.underscores with
  | none => none
  | some (de, u, rest2) =>
    if u && !underscoreOK whole then none
    else if rest2 ≠ [] then none
    else some ⟨neg, hex, st.mantissa, if st.mantissa ≠ 0 then dp1 + de - ndMant else 0⟩

/-- Go `readFloat`, required to consume the whole string. -/
def readFloat (s : List Char) : Option ReadResult :=
  match s with
  | [] => none
  | c0 :: t =>
    if c0 = '+' then readNumber t s false
    else if c0 = '-' then readNumber t s true
    else readNumber s s false

/-- Model of Go `strconv.ParseFloat(s, 64)`: `some f` when Go returns `(f, nil)`, `none`
when it returns an error (syntax error, or a range error on overflow). The accepted
strings are `inf`/`infinity`/`nan` and Go's decimal and hexadecimal floating-point
literals; the result is the literal's exact value rounded to the nearest binary64, ties
to even. -/
def ParseFloat (str : String) : Option Float64 :=
  let s := str.toList
  match special s with
  | some (f, n) => if n = s.length then some f else none
  | none =>
    match readFloat s with
    | none => none
    | some r =>
      if r.hex then floatBits r.neg (r.mantissa * 2 ^ r.exp.toNat) (2 ^ (-r.exp).toNat)
      else floatBits r.neg (r.mantissa * 10 ^ r.exp.toNat) (10 ^ (-r.exp).toNat)


/-! ## Model of `fmt.Sprintf("%v", x)` for a float64 `x` (Go standard library) -/

/-- Decimal digits of `n`, most significant first, prepended to `acc` (`acc` for `0`). -/
def decDigitsAux : Nat → Nat → List Nat → List Nat
  | 0, _, acc => acc
  | fuel + 1, n, acc => if n = 0 then acc else decDigitsAux fuel (n / 10) (n % 10 :: acc)

/-- Decimal digits of `n`, most significant first (`[]` for `0`). -/
def decDigits (n : Nat) : List Nat := decDigitsAux n n []

/-- Remove trailing zero digits. -/
def trimZeros (ds : List Nat) : List Nat :=
  (ds.reverse.dropWhile (fun d => d == 0)).reverse

/-- The search of Go `roundShortest` for the shortest decimal in the rounding interval of
`x`, over integers: `x`, `lo` and `hi` are the value and the two half-way bounds on a
common scale, position `p` stands for the digit of weight `10 ^ p`. At each position, from
the top one down, the value is truncated (`down`) or rounded up (`up`) there when the
result stays inside the interval (bounds included when `incl`); when both do, it is
rounded to nearest, ties to even. -/
def shortestAux (x lo hi : Nat) (incl : Bool) : Nat → Nat
  | 0 => x
  | p + 1 =>
    let w := 10 ^ (p + 1)
    let down := x / w * w
    let up := down + w
    let okdown := lo < down ∨ (incl ∧ down = lo)
    let okup := up < hi ∨ (incl ∧ up = hi)
    if okdown ∧ okup then
      (if w < 2 * (x % w) ∨ (2 * (x % w) = w ∧ x / w % 2 = 1) then up else down)
    else if okdown then down
    else if okup then up
    else shortestAux x lo hi incl p

/-- Go's `decimalSlice`: digits `d` (no trailing zero) and the position `dp` of the decimal
point, the value being `0.d[0]d[1]... * 10 ^ dp`. -/
structure Decimal where
  d : List Nat
  dp : Int
deriving DecidableEq, Repr

/-- Shortest decimal that rounds back to the finite binary64 with mantissa `mant` (implicit
bit included) and biased exponent field `expo` (Go `roundShortest`; the value is
`mant * 2 ^ e` with `e = max expo 1 - 1075`). -/
def shortestDecimal (mant expo : Nat) : Decimal :=
  if mant = 0 then ⟨[], 0⟩ else
  let t : Int := (max expo 1 : Nat) - 1077
  let k := (-t).toNat
  let s := 2 ^ t.toNat * 5 ^ k
  let x := 4 * mant * s
  let hi := (4 * mant + 2) * s
  let lo := (if 4503599627370496 < mant ∨ expo ≤ 1 then 4 * mant - 2 else 4 * mant - 1) * s
  let n := shortestAux x lo hi (mant % 2 = 0) (decDigits hi).length
  let ds := decDigits n
  ⟨trimZeros ds, (ds.length : Int) - k⟩

/-- The character of a decimal digit. -/
def digitChar (d : Nat) : Char := Char.ofNat (48 + d)

/-- Go `fmtE` with `prec = nd - 1`: `d.ddddde±dd`. -/
def fmtE (neg : Bool) (d : Decimal) : List Char :=
  let exp : Int := if d.d = [] then 0 else d.dp - 1
  let a := exp.natAbs
  (if neg then ['-'] else []) ++
  [digitChar (d.d.headD 0)] ++
  (if d.d.length > 1 then '.' :: d.d.tail.map digitChar else []) ++
  ['e', if exp < 0 then '-' else '+'] ++
  (if a < 10 then [digitChar 0, digitChar a]
   else if a < 100 then [digitChar (a / 10), digitChar (a % 10)]
   else [digitChar (a / 100), digitChar (a / 10 % 10), digitChar (a % 10)])

/-- Go `fmtF` with `prec = max (nd - dp) 0`: integer part padded with zeros, then the
fraction digits. -/
def fmtF (neg : Bool) (d : Decimal) : List Char :=
  let nd := d.d.length
  let prec := ((nd : Int) - d.dp).toNat
  (if neg then ['-'] else []) ++
  (if 0 < d.dp then
     (d.d.take d.dp.toNat).map digitChar ++ List.replicate (d.dp.toNat - nd) '0'
   else ['0']) ++
  (if 0 < prec then
     '.' :: (List.range prec).map (fun (i : Nat) =>
       let j : Int := d.dp + (i : Int)
       if 0 ≤ j ∧ j < (nd : Int) then digitChar (d.d.getD j.toNat 0) else '0')
   else [])

/-- Model of Go `fmt.Sprintf("%v", x)` for a float64 `x`, i.e. `%g` with the shortest
precision: `NaN`, `+Inf`, `-Inf`, or the shortest decimal that parses back to `x`, in
exponent form when the decimal exponent is below `-4` or at least `6` (Go's `eprec` for the
shortest precision). -/
def FormatFloat (x : Float64) : String :=
  if x.expo.val = 2047 then
    (if x.frac.val ≠ 0 then "NaN" else if x.sign then "-Inf" else "+Inf")
  else
    let mant := if x.expo.val = 0 then x.frac.val else x.frac.val + 4503599627370496
    let d := shortestDecimal mant x.expo.val
    let exp := d.dp - 1
    String.mk (if exp < -4 ∨ 6 ≤ exp then fmtE x.sign d else fmtF x.sign d)


/-- Value of a digit list read most significant digit first. -/
def digitsValue (ds : List Nat) : Nat := ds.foldl (fun a d => a * 10 + d) 0

end strconv

/-! ## Row cells -/

deriving instance DecidableEq for Except

/-- A cell of a spreadsheet row (`interface{}`): `nil`, or a string, float64 or bool (the
dynamic types the Sheets API decodes and `ToRow` produces). -/
inductive Cell where
  | null
  | str (s : String)
  | num (f : Float64)
  | bool (b : Bool)
deriving DecidableEq, Repr

/-- Go `fmt.Sprintf("%v", c)` for a cell. -/
def sprintV : Cell → String
  | .null => "<nil>"
  | .str s => s
  | .num f => strconv.FormatFloat f
  | .bool b => if b then "true" else "false"

/-! ## `coin_price_record.go` -/

/-- The record of one spreadsheet row (`CoinPriceRecord`). -/
structure CoinPriceRecord where
  Date : String
  Time : String
  Source : String
  Coin : String
  Direction : String
  SourcePrice : Float64
  BybitPrice : Float64
  Price10Min : Float64
  Price30Min : Float64
  Price1Hour : Float64
  Price2Hours : Float64
  Price6Hours : Float64
  Price12Hours : Float64
  Price24Hours : Float64
  Price3Days : Float64
  Price5Days : Float64
  Price7Days : Float64
  Price1Month : Float64
deriving DecidableEq, Repr

/-- The helper `getStringValue(row, index)`. -/
def getStringValue (row : List Cell) (index : Nat) : String :=
  match row[index]? with
  | none => ""
  | some .null => ""
  | some c => sprintV c

/-- The helper `getFloatValue(row, index)`. -/
def getFloatValue (row : List Cell) (index : Nat) : Float64 :=
  match row[index]? with
  | none => Float64.zero
  | some .null => Float64.zero
  | some c =>
    let str := sprintV c
    if str = "" then Float64.zero
    else match strconv.ParseFloat str with
      | none => Float64.zero
      | some val => val

/-- The function `ParseFromRow(row)`: the record, or the error message. -/
def ParseFromRow (row : List Cell) : Except String CoinPriceRecord :=
  if row.length < 5 then
    .error ("invalid row: expected at least 5 columns, got " ++ toString row.length)
  else
    .ok {
      Date := getStringValue row 0
      Time := getStringValue row 1
      Source := getStringValue row 2
      Coin := getStringValue row 3
      Direction := getStringValue row 4
      SourcePrice := getFloatValue row 5
      BybitPrice := getFloatValue row 6
      Price10Min := getFloatValue row 7
      Price30Min := getFloatValue row 8
      Price1Hour := getFloatValue row 9
      Price2Hours := getFloatValue row 10
      Price6Hours := getFloatValue row 11
      Price12Hours := getFloatValue row 12
      Price24Hours := getFloatValue row 13
      Price3Days := getFloatValue row 14
      Price5Days := getFloatValue row 15
      Price7Days := getFloatValue row 16
      Price1Month := getFloatValue row 17 }

/-- The helper `floatToInterface(val)`: the empty string for `0`, the value itself
otherwise. -/
def floatToInterface (val : Float64) : Cell :=
  if val.isZero then .str "" else .num val

/-- The method `(r *CoinPriceRecord) ToRow()`. -/
def CoinPriceRecord.ToRow (r : CoinPriceRecord) : List Cell :=
  [ .str r.Date,
    .str r.Time,
    .str r.Source,
    .str r.Coin,
    .str r.Direction,
    floatToInterface r.SourcePrice,
    floatToInterface r.BybitPrice,
    floatToInterface r.Price10Min,
    floatToInterface r.Price30Min,
    floatToInterface r.Price1Hour,
    floatToInterface r.Price2Hours,
    floatToInterface r.Price6Hours,
    floatToInterface r.Price12Hours,
    floatToInterface r.Price24Hours,
    floatToInterface r.Price3Days,
    floatToInterface r.Price5Days,
    floatToInterface r.Price7Days,
    floatToInterface r.Price1Month ]

/-- The method `(r *CoinPriceRecord) GetDateTime()`. -/
def CoinPriceRecord.GetDateTime (r : CoinPriceRecord) : String :=
  r.Date ++ " " ++ r.Time

/-! ## Model of Go's `time` package: instants and `time.ParseInLocation` -/

namespace time

/-- Go `time.Duration`: a number of nanoseconds. -/
abbrev Duration := Int

/-- Go `time.Second`. -/
def Second : Duration := 1000000000

/-- Go `time.Minute`. -/
def Minute : Duration := 60 * Second

/-- Go `time.Hour`. -/
def Hour : Duration := 60 * Minute

/-- An instant (Go `time.Time` without monotonic clock reading, up to its location):
nanoseconds since the Unix epoch. -/
structure Time where
  unixNano : Int
deriving DecidableEq, Repr

/-- Go `t.Add(d)` (no overflow for the instants and durations that occur). -/
def Time.Add (t : Time) (d : Duration) : Time := ⟨t.unixNano + d⟩

/-- Go `t.After(u)`. -/
def Time.After (t u : Time) : Bool := decide (u.unixNano < t.unixNano)

/-- Go `t.Equal(u)`. -/
def Time.Equal (t u : Time) : Bool := decide (t.unixNano = u.unixNano)

/-- The layout elements that occur in the layouts of this program. -/
inductive Std where
  | stdZeroDay
  | stdZeroMonth
  | stdLongYear
  | stdHour
  | stdZeroMinute
  | stdZeroSecond
deriving DecidableEq, Repr

/-- One step of a layout: literal text, then a layout element. -/
structure Chunk where
  lit : List Char
  std : Std
deriving DecidableEq, Repr

/-- The layout element starting a layout text, with its length (Go `nextStdChunk`, for
layouts built from `02`, `01`, `2006`, `15`, `04`, `05` and literal text). -/
def stdAt : List Char → Option (Std × Nat)
  | '2' :: '0' :: '0' :: '6' :: _ => some (.stdLongYear, 4)
  | '1' :: '5' :: _ => some (.stdHour, 2)
  | '0' :: '1' :: _ => some (.stdZeroMonth, 2)
  | '0' :: '2' :: _ => some (.stdZeroDay, 2)
  | '0' :: '4' :: _ => some (.stdZeroMinute, 2)
  | '0' :: '5' :: _ => some (.stdZeroSecond, 2)
  | _ => none

/-- Go `nextStdChunk` iterated over a layout: the chunks, and the literal text after the
last one. `inside` counts the characters of the current element still to pass, `acc` is
the literal text read so far, reversed. -/
def layoutChunks : List Char → Nat → List Char → List Chunk × List Char
  | [], _, acc => ([], acc.reverse)
  | _ :: rest, inside + 1, acc => layoutChunks rest inside acc
  | c :: rest, 0, acc =>
    match stdAt (c :: rest) with
    | some (std, len) =>
      let r := layoutChunks rest (len - 1) []
      (⟨acc.reverse, std⟩ :: r.1, r.2)
    | none => layoutChunks rest 0 (c :: acc)

/-- Go `isDigit`. -/
def isDigit (c : Char) : Bool := decide ('0' ≤ c) && decide (c ≤ '9')

/-- Go `getnum(s, fixed)`: one or two digits (exactly two when `fixed`). -/
def getnum (s : List Char) (fixed : Bool) : Option (Nat × List Char) :=
  match s with
  | [] => none
  | [c0] =>
    if !isDigit c0 then none
    else if fixed then none
    else some (c0.toNat - 48, [])
  | c0 :: c1 :: rest =>
    if !isDigit c0 then none
    else if !isDigit c1 then (if fixed then none else some (c0.toNat - 48, c1 :: rest))
    else some ((c0.toNat - 48) * 10 + (c1.toNat - 48), rest)

/-- Go `cutspace`: drop the leading spaces. -/
def cutspace : List Char → List Char
  | [] => []
  | c :: s => if c = ' ' then cutspace s else c :: s

/-- Go `skip(value, prefix)`: match literal layout text against the value; a run of spaces
of the layout matches the empty value or a non-empty run of spaces. `inSpaces` holds while
the layout characters just passed were spaces (Go cuts the run at once). -/
def skip : List Char → List Char → Bool → Option (List Char)
  | value, [], _ => some value
  | value, p :: ps, inSpaces =>
    if p = ' ' then
      if inSpaces then skip value ps true
      else match value with
        | [] => skip [] ps true
        | v :: vs => if v ≠ ' ' then none else skip (cutspace (v :: vs)) ps true
    else match value with
      | [] => none
      | v :: vs => if v = p then skip vs ps false else none

/-- Value of a string of decimal digits. -/
def digitsVal (ds : List Char) : Nat :=
  ds.foldl (fun n c => n * 10 + (c.toNat - 48)) 0

/-- The date and time fields collected by Go `Parse`. -/
structure Fields where
  year : Nat := 0
  month : Nat := 1
  day : Nat := 1
  hour : Nat := 0
  min : Nat := 0
  sec : Nat := 0
  nsec : Nat := 0
deriving DecidableEq, Repr

/-- One layout element of Go `Parse`: read it from the value into the fields; `none` on a
syntax or range error. -/
def parseStd (std : Std) (value : List Char) (f : Fields) : Option (Fields × List Char) :=
  match std with
  | .stdLongYear =>
    match value with
    | c0 :: c1 :: c2 :: c3 :: rest =>
      if isDigit c0 && isDigit c1 && isDigit c2 && isDigit c3 then
        some ({ f with year := digitsVal [c0, c1, c2, c3] }, rest)
      else none
    | _ => none
  | .stdZeroMonth =>
    match getnum value true with
    | some (month, rest) =>
      if month = 0 ∨ 12 < month then none else some ({ f with month := month }, rest)
    | none => none
  | .stdZeroDay =>
    match getnum value true with
    | some (day, rest) => some ({ f with day := day }, rest)
    | none => none
  | .stdHour =>
    match getnum value false with
    | some (hour, rest) => if 24 ≤ hour then none else some ({ f with hour := hour }, rest)
    | none => none
  | .stdZeroMinute =>
    match getnum value true with
    | some (min, rest) => if 60 ≤ min then none else some ({ f with min := min }, rest)
    | none => none
  | .stdZeroSecond =>
    match getnum value true with
    | some (sec, rest) =>
      if 60 ≤ sec then none else
      -- a fractional second in the value although the layout has none
      match rest with
      | c :: d :: more =>
        if (c = '.' ∨ c = ',') ∧ isDigit d then
          let ds := (d :: more).takeWhile isDigit
          let used := ds.take 9
          some ({ f with sec := sec, nsec := digitsVal used * 10 ^ (9 - used.length) },
                (d :: more).dropWhile isDigit)
        else some ({ f with sec := sec }, rest)
      | _ => some ({ f with sec := sec }, rest)
    | none => none

/-- The element loop of Go `Parse`. -/
def parseChunks : List Chunk → List Char → Fields → Option (Fields × List Char)
  | [], value, f => some (f, value)
  | ch :: chs, value, f =>
    match skip value ch.lit false with
    | none => none
    | some v1 =>
      match parseStd ch.std v1 f with
      | none => none
      | some (f1, v2) => parseChunks chs v2 f1

/-- Go `isLeap`. -/
def isLeap (year : Nat) : Bool := year % 4 = 0 ∧ (year % 100 ≠ 0 ∨ year % 400 = 0)

/-- Go `daysIn(month, year)`. -/
def daysIn (month year : Nat) : Nat :=
  if month = 2 then (if isLeap year then 29 else 28)
  else if month = 4 ∨ month = 6 ∨ month = 9 ∨ month = 11 then 30
  else 31

/-- Days from 1 January of year 0 to 1 January of `year` (proleptic Gregorian calendar). -/
def daysBeforeYear (year : Nat) : Nat :=
  365 * year + (year + 3) / 4 - (year + 99) / 100 + (year + 399) / 400

/-- Days from 1 January to the first day of `month` in `year`. -/
def daysBeforeMonth (month year : Nat) : Nat :=
  ((List.range (month - 1)).map (fun i => daysIn (i + 1) year)).sum

/-- Seconds from the Unix epoch to the civil date-time read as UTC (Go `Date` in UTC). -/
def unixOfCivil (f : Fields) : Int :=
  (((daysBeforeYear f.year + daysBeforeMonth f.month f.year + (f.day - 1) : Nat) : Int)
      - 719528) * 86400
    + ((f.hour * 3600 + f.min * 60 + f.sec : Nat) : Int)

/-- Model of Go `time.ParseInLocation(layout, value, time.FixedZone(_, offset))` for
layouts built from `02`, `01`, `2006`, `15`, `04`, `05` and literal text: `some t` when Go
returns `(t, nil)`, `none` when it returns an error. -/
def ParseInLocation (layout value : String) (offset : Int) : Option Time :=
  let l := layoutChunks layout.toList 0 []
  match parseChunks l.1 value.toList {} with
  | none => none
  | some (f, v1) =>
    match skip v1 l.2 false with
    | none => none
    | some v2 =>
      if v2 ≠ [] then none
      else if f.day < 1 ∨ daysIn f.month f.year < f.day then none
      else some ⟨(unixOfCivil f - offset) * 1000000000 + f.nsec⟩

end time

/-! ## `coin_price_record.go`: the temporal policy -/

/-- The layouts tried by `TryParseDateTime`, in order. -/
def formats : List String :=
  [ "02.01.2006 15:04:05",
    "02.01.2006 15:04",
    "2006-01-02 15:04:05",
    "2006-01-02 15:04" ]

/-- The loop of `TryParseDateTime` over the layouts: the first one that parses wins. -/
def tryFormats (dateTimeStr : String) : List String → Option time.Time
  | [] => none
  | format :: rest =>
    match time.ParseInLocation format dateTimeStr (7 * 60 * 60) with
    | some t => some t
    | none => tryFormats dateTimeStr rest

/-- The method `(r *CoinPriceRecord) TryParseDateTime()`: the instant, in the fixed zone GMT+7, or the
error message. -/
def CoinPriceRecord.TryParseDateTime (r : CoinPriceRecord) : Except String time.Time :=
  let dateTimeStr := r.GetDateTime
  match tryFormats dateTimeStr formats with
  | some t => .ok t
  | none => .error ("unable to parse date/time: " ++ dateTimeStr)

/-- A pointer to one of the eleven offset price fields of a record (`&r.Price10Min`, ...). -/
inductive PriceRef where
  | Price10Min
  | Price30Min
  | Price1Hour
  | Price2Hours
  | Price6Hours
  | Price12Hours
  | Price24Hours
  | Price3Days
  | Price5Days
  | Price7Days
  | Price1Month
deriving DecidableEq, Repr

/-- Read through a pointer into the record (`*p`). -/
def CoinPriceRecord.load (r : CoinPriceRecord) : PriceRef → Float64
  | .Price10Min => r.Price10Min
  | .Price30Min => r.Price30Min
  | .Price1Hour => r.Price1Hour
  | .Price2Hours => r.Price2Hours
  | .Price6Hours => r.Price6Hours
  | .Price12Hours => r.Price12Hours
  | .Price24Hours => r.Price24Hours
  | .Price3Days => r.Price3Days
  | .Price5Days => r.Price5Days
  | .Price7Days => r.Price7Days
  | .Price1Month => r.Price1Month

/-- Write through a pointer into the record (`*p = v`). -/
def CoinPriceRecord.store (r : CoinPriceRecord) (p : PriceRef) (v : Float64) :
    CoinPriceRecord :=
  match p with
  | .Price10Min => { r with Price10Min := v }
  | .Price30Min => { r with Price30Min := v }
  | .Price1Hour => { r with Price1Hour := v }
  | .Price2Hours => { r with Price2Hours := v }
  | .Price6Hours => { r with Price6Hours := v }
  | .Price12Hours => { r with Price12Hours := v }
  | .Price24Hours => { r with Price24Hours := v }
  | .Price3Days => { r with Price3Days := v }
  | .Price5Days => { r with Price5Days := v }
  | .Price7Days => { r with Price7Days := v }
  | .Price1Month => { r with Price1Month := v }

/-- The struct `PriceField`: a price field of a record with its time offset. `Value` points into the
record the field was taken from. -/
structure PriceField where
  Name : String
  Duration : time.Duration
  Value : PriceRef
deriving DecidableEq, Repr

/-- The method `(r *CoinPriceRecord) GetPriceFields()`. -/
def CoinPriceRecord.GetPriceFields (_r : CoinPriceRecord) : List PriceField :=
  [ { Name := "Price10Min", Duration := 10 * time.Minute, Value := .Price10Min },
    { Name := "Price30Min", Duration := 30 * time.Minute, Value := .Price30Min },
    { Name := "Price1Hour", Duration := 1 * time.Hour, Value := .Price1Hour },
    { Name := "Price2Hours", Duration := 2 * time.Hour, Value := .Price2Hours },
    { Name := "Price6Hours", Duration := 6 * time.Hour, Value := .Price6Hours },
    { Name := "Price12Hours", Duration := 12 * time.Hour, Value := .Price12Hours },
    { Name := "Price24Hours", Duration := 24 * time.Hour, Value := .Price24Hours },
    { Name := "Price3Days", Duration := 3 * 24 * time.Hour, Value := .Price3Days },
    { Name := "Price5Days", Duration := 5 * 24 * time.Hour, Value := .Price5Days },
    { Name := "Price7Days", Duration := 7 * 24 * time.Hour, Value := .Price7Days },
    { Name := "Price1Month", Duration := 30 * 24 * time.Hour, Value := .Price1Month } ]

/-- The method `(r *CoinPriceRecord) ShouldFetchPrice(field, now)`, for a field of `r` (its `Value`
points into `r`): the answer and the error (`none` for `nil`). -/
def CoinPriceRecord.ShouldFetchPrice (r : CoinPriceRecord) (field : PriceField)
    (now : time.Time) : Bool × Option String :=
  if !(r.load field.Value).isZero then (false, none)
  else
    match r.TryParseDateTime with
    | .error err => (false, some err)
    | .ok recordTime =>
      let targetTime := recordTime.Add field.Duration
      (now.After targetTime || now.Equal targetTime, none)

/-- The thirteen numeric fields of a record in declaration order: `SourcePrice`,
`BybitPrice`, then the offset prices in the order of `GetPriceFields`. -/
def CoinPriceRecord.numericFields (r : CoinPriceRecord) : List Float64 :=
  [r.SourcePrice, r.BybitPrice] ++ r.GetPriceFields.map (fun f => r.load f.Value)

/-- Go `a == b` on records: the strings are equal and the floats are `==`. -/
def CoinPriceRecord.eqGo (a b : CoinPriceRecord) : Bool :=
  decide (a.Date = b.Date) && decide (a.Time = b.Time) && decide (a.Source = b.Source) &&
  decide (a.Coin = b.Coin) && decide (a.Direction = b.Direction) &&
  a.SourcePrice.eqGo b.SourcePrice && a.BybitPrice.eqGo b.BybitPrice &&
  a.Price10Min.eqGo b.Price10Min && a.Price30Min.eqGo b.Price30Min &&
  a.Price1Hour.eqGo b.Price1Hour && a.Price2Hours.eqGo b.Price2Hours &&
  a.Price6Hours.eqGo b.Price6Hours && a.Price12Hours.eqGo b.Price12Hours &&
  a.Price24Hours.eqGo b.Price24Hours && a.Price3Days.eqGo b.Price3Days &&
  a.Price5Days.eqGo b.Price5Days && a.Price7Days.eqGo b.Price7Days &&
  a.Price1Month.eqGo b.Price1Month

/-! ## Scenario data -/

/-- The float64 `45000.5`. -/
def f45000_5 : Float64 := Float64.mk3 false 1038 1681221998346240

/-- The float64 `45010`. -/
def f45010 : Float64 := Float64.mk3 false 1038 1682527668404224

/-- The float64 `45100`. -/
def f45100 : Float64 := Float64.mk3 false 1038 1694897174216704

/-- The input row of scenario S1. -/
def rowS1 : List Cell :=
  [ .str "29.12.2025", .str "10:30:00", .str "Binance", .str "BTC", .str "UP",
    .str "45000.50", .str "45010", .str "", .str "", .str "", .str "", .str "", .str "",
    .str "", .str "", .str "", .str "", .str "" ]

/-- The record of scenario S1: prices 45000.5 and 45010, every offset price empty. -/
def recordS1 : CoinPriceRecord :=
  { Date := "29.12.2025"
    Time := "10:30:00"
    Source := "Binance"
    Coin := "BTC"
    Direction := "UP"
    SourcePrice := f45000_5
    BybitPrice := f45010
    Price10Min := Float64.zero
    Price30Min := Float64.zero
    Price1Hour := Float64.zero
    Price2Hours := Float64.zero
    Price6Hours := Float64.zero
    Price12Hours := Float64.zero
    Price24Hours := Float64.zero
    Price3Days := Float64.zero
    Price5Days := Float64.zero
    Price7Days := Float64.zero
    Price1Month := Float64.zero }

/-- A record with the given date, time and `+10m` price, every other field empty. -/
def recordAt (date clock : String) (price10Min : Float64) : CoinPriceRecord :=
  { Date := date
    Time := clock
    Source := ""
    Coin := ""
    Direction := ""
    SourcePrice := Float64.zero
    BybitPrice := Float64.zero
    Price10Min := price10Min
    Price30Min := Float64.zero
    Price1Hour := Float64.zero
    Price2Hours := Float64.zero
    Price6Hours := Float64.zero
    Price12Hours := Float64.zero
    Price24Hours := Float64.zero
    Price3Days := Float64.zero
    Price5Days := Float64.zero
    Price7Days := Float64.zero
    Price1Month := Float64.zero }

/-- The `+10m` field as `GetPriceFields` lists it. -/
def field10Min : PriceField :=
  { Name := "Price10Min", Duration := 10 * time.Minute, Value := .Price10Min }

/-- The instant 2025-12-29 10:00:00 in the zone UTC+07:00. -/
def anchorS2 : time.Time := ⟨1766977200000000000⟩

/-! ## Model of Go's `strings.TrimSpace` and `strings.ToLower` -/

namespace unicode

/-- Go `unicode.IsSpace`: the Unicode White_Space property. -/
def IsSpace (r : Char) : Bool :=
  decide (r.toNat = 9 ∨ r.toNat = 10 ∨ r.toNat = 11 ∨ r.toNat = 12 ∨ r.toNat = 13 ∨
    r.toNat = 32 ∨ r.toNat = 133 ∨ r.toNat = 160 ∨ r.toNat = 5760 ∨
    (8192 ≤ r.toNat ∧ r.toNat ≤ 8202) ∨ r.toNat = 8232 ∨ r.toNat = 8233 ∨
    r.toNat = 8239 ∨ r.toNat = 8287 ∨ r.toNat = 12288)

/-- The lower-case mapping of Go's `unicode` tables, `unicode.To(unicode.LowerCase, r)`,
which `unicode.ToLower` consults for the runes above `unicode.MaxASCII`. The tables are
data of the Go library; the model takes the mapping as a parameter. -/
abbrev CaseTable := Char → Char

/-- Go `unicode.ToLower`: ASCII letters directly, other runes through the tables. -/
def ToLower (table : CaseTable) (r : Char) : Char :=
  if r.toNat ≤ 127 then
    (if 'A' ≤ r ∧ r ≤ 'Z' then Char.ofNat (r.toNat + 32) else r)
  else table r

end unicode

namespace strings

/-- Go `strings.TrimSpace`: drop the leading and trailing white space. -/
def TrimSpace (s : String) : String :=
  String.mk ((s.toList.dropWhile unicode.IsSpace).reverse.dropWhile unicode.IsSpace).reverse

/-- Go `strings.ToLower`: every rune mapped to lower case. -/
def ToLower (table : unicode.CaseTable) (s : String) : String :=
  String.mk (s.toList.map (unicode.ToLower table))

end strings

/-! ## `coingecko.go` -/

namespace webapi

/-- The map literal `mapping` of `symbolToCoinID`, in source order. -/
def mapping : List (String × String) :=
  [ ("btc", "bitcoin"),
    ("eth", "ethereum"),
    ("usdt", "tether"),
    ("bnb", "binancecoin"),
    ("sol", "solana"),
    ("xrp", "ripple"),
    ("usdc", "usd-coin"),
    ("ada", "cardano"),
    ("avax", "avalanche-2"),
    ("doge", "dogecoin"),
    ("dot", "polkadot"),
    ("matic", "matic-network"),
    ("link", "chainlink"),
    ("uni", "uniswap"),
    ("ltc", "litecoin"),
    ("atom", "cosmos"),
    ("etc", "ethereum-classic"),
    ("xlm", "stellar"),
    ("bch", "bitcoin-cash"),
    ("near", "near"),
    ("algo", "algorand"),
    ("vet", "vechain"),
    ("icp", "internet-computer"),
    ("fil", "filecoin"),
    ("apt", "aptos"),
    ("hbar", "hedera-hashgraph"),
    ("arb", "arbitrum"),
    ("op", "optimism"),
    ("ldo", "lido-dao"),
    ("imx", "immutable-x"),
    ("stx", "blockstack"),
    ("inj", "injective-protocol"),
    ("sui", "sui"),
    ("sei", "sei-network"),
    ("tia", "celestia"),
    ("xvg", "verge"),
    ("trx", "tron"),
    ("shib", "shiba-inu"),
    ("dai", "dai"),
    ("wbtc", "wrapped-bitcoin"),
    ("leo", "leo-token"),
    ("ton", "the-open-network"),
    ("okb", "okb") ]

/-- The method `(c *CoinGecko) symbolToCoinID(symbol)`. -/
def symbolToCoinID (table : unicode.CaseTable) (symbol : String) : String :=
  let symbol := strings.ToLower table (strings.TrimSpace symbol)
  match mapping.lookup symbol with
  | some coinID => coinID
  | none => symbol

/-- The underlying error of a failed request (the `err` returned by resty): the context's
error, or any other transport or decoding error. -/
inductive Cause where
  | canceled
  | other (msg : String)
deriving DecidableEq, Repr

/-- What a request returns: the error `err`, the HTTP status `resp.StatusCode()` and the
map decoded into `result`. -/
structure Response where
  err : Option Cause
  status : Nat
  result : List (String × List (String × Float64))
deriving DecidableEq, Repr

/-- The errors returned by `GetCurrentPrice`, one constructor per `fmt.Errorf` of the
function, in source order. -/
inductive Error where
  | transport (cause : Cause)
  | rateLimit (maxRetries : Nat)
  | api (status : Nat)
  | notFound (coinSymbol coinID : String)
  | afterRetries
deriving DecidableEq, Repr

/-- Go `context.Context` as far as the program observes it: the instant from which the
context is cancelled (`none`: never). -/
structure Context where
  cancelAt : Option Int
deriving DecidableEq, Repr

/-- An observable step of the oracle client: a `time.Sleep` of the given duration, a request
sent to the oracle for a coin id, or a request refused because the context is cancelled. -/
inductive Event where
  | sleep (d : time.Duration)
  | request (coinID : String)
  | refused
deriving DecidableEq, Repr

end webapi

/-- A call on the ledger driver: clear a range, or overwrite a range with rows. -/
inductive LedgerOp where
  | clear (range : String)
  | update (range : String) (values : List (List Cell))
deriving DecidableEq, Repr

/-- The world outside the program, threaded through the stateful code: the oracle (its
response to the n-th request it receives), the number of requests it has received, the wall
clock in nanoseconds since the Unix epoch (requests take no time in the model, sleeps
advance the clock), the steps of the oracle client, the calls made on the ledger driver and
the parse-error lines written to the log (other log lines are not modelled). -/
structure World where
  oracle : Nat → webapi.Response
  requests : Nat
  clock : Int
  trace : List webapi.Event
  ledger : List LedgerOp
  logged : List String

namespace webapi

/-- Go `ctx.Err() != nil` at the instant `clock`. -/
def Context.cancelled (ctx : Context) (clock : Int) : Bool :=
  match ctx.cancelAt with
  | none => false
  | some c => decide (c ≤ clock)

/-- Go `time.Sleep(d)`: not interruptible, the clock advances by `d`. -/
def sleep (d : time.Duration) (w : World) : World :=
  { w with clock := w.clock + d, trace := w.trace ++ [Event.sleep d] }

/-- The request `c.client.R().SetContext(ctx)...SetResult(&result).Get(url)`: refused with
the context's error when the context is cancelled, answered by the oracle otherwise. The
resty client decodes the body into `result` only for a response with `IsSuccess()`, a
status in 200..299; otherwise `result` stays the nil map. -/
def get (ctx : Context) (coinID : String) (w : World) : Response × World :=
  if ctx.cancelled w.clock then
    (⟨some Cause.canceled, 0, []⟩, { w with trace := w.trace ++ [Event.refused] })
  else
    let resp := w.oracle w.requests
    (⟨resp.err, resp.status,
      if 200 ≤ resp.status ∧ resp.status ≤ 299 then resp.result else []⟩,
     { w with requests := w.requests + 1, trace := w.trace ++ [Event.request coinID] })

/-- The price that `GetCurrentPrice` finds in a response for a coin id: the body is decoded
only for a status in 200..299, then `result[coinID]["usd"]` is looked up. An auxiliary
definition for stating the facts about the retry loop. -/
def Response.price (resp : Response) (coinID : String) : Option Float64 :=
  if 200 ≤ resp.status ∧ resp.status ≤ 299 then
    (resp.result.lookup coinID).bind (fun priceData => priceData.lookup "usd")
  else none

/-- The retry loop of `GetCurrentPrice`, `for attempt := 0; attempt <= maxRetries;
attempt++`, with `remaining = maxRetries + 1 - attempt` iterations left. -/
def attemptLoop (ctx : Context) (coinSymbol coinID : String) (maxRetries : Nat)
    (baseDelay : time.Duration) : Nat → Nat → World → (Float64 × Option Error) × World
  | 0, _, w => ((Float64.zero, some Error.afterRetries), w)
  | remaining + 1, attempt, w =>
    let w1 := if 0 < attempt then sleep (baseDelay * 2 ^ (attempt - 1)) w else w
    let r := get ctx coinID w1
    match r.1.err with
    | some cause => ((Float64.zero, some (Error.transport cause)), r.2)
    | none =>
      if r.1.status = 429 then
        if attempt < maxRetries then
          attemptLoop ctx coinSymbol coinID maxRetries baseDelay remaining (attempt + 1) r.2
        else ((Float64.zero, some (Error.rateLimit maxRetries)), r.2)
      else if 399 < r.1.status then ((Float64.zero, some (Error.api r.1.status)), r.2)
      else
        match r.1.result.lookup coinID with
        | some priceData =>
          match priceData.lookup "usd" with
          | some price => ((price, none), sleep (1 * time.Second) r.2)
          | none => ((Float64.zero, some (Error.notFound coinSymbol coinID)), r.2)
        | none => ((Float64.zero, some (Error.notFound coinSymbol coinID)), r.2)

/-- The end of a call of the retry loop that is entered at attempt `a` in the world `w` and
whose last attempt is `n`: what the result `r` of the loop is. The last attempt happens
`2^(n+1) - 2^a` seconds after the entry (`2^(n+1) - 2` for `a = 0`), after the requests and
backoffs of the schedule between the two attempts; it is refused when the context is
cancelled by then, and otherwise its request is answered by the oracle and the answer
decides the result. An auxiliary definition for stating the facts about the retry loop. -/
def Outcome (ctx : Context) (coinSymbol coinID : String) (schedule : List Event) (w : World)
    (a n : Nat) (r : (Float64 × Option Error) × World) : Prop :=
  r.2.oracle = w.oracle ∧ r.2.ledger = w.ledger ∧ r.2.logged = w.logged ∧
  ((ctx.cancelled (w.clock + ((2 : Int) ^ (n + 1) - (if a = 0 then 2 else 2 ^ a)) * time.Second)
      = true ∧
    r.1 = (Float64.zero, some (Error.transport Cause.canceled)) ∧
    r.2.requests = w.requests + (n - a) ∧
    r.2.clock = w.clock + ((2 : Int) ^ (n + 1) - (if a = 0 then 2 else 2 ^ a)) * time.Second ∧
    r.2.trace = w.trace ++ ((schedule.take (2 * n)).drop (2 * a - 1)) ++ [Event.refused]) ∨
   (ctx.cancelled (w.clock + ((2 : Int) ^ (n + 1) - (if a = 0 then 2 else 2 ^ a)) * time.Second)
      = false ∧
    ¬ ((w.oracle (w.requests + (n - a))).err = none ∧
       (w.oracle (w.requests + (n - a))).status = 429 ∧ n < 3) ∧
    r.2.requests = w.requests + (n - a) + 1 ∧
    (∀ cause, (w.oracle (w.requests + (n - a))).err = some cause →
      r.1 = (Float64.zero, some (Error.transport cause))) ∧
    ((w.oracle (w.requests + (n - a))).err = none →
      (w.oracle (w.requests + (n - a))).status = 429 →
      r.1 = (Float64.zero, some (Error.rateLimit 3))) ∧
    ((w.oracle (w.requests + (n - a))).err = none →
      (w.oracle (w.requests + (n - a))).status ≠ 429 →
      399 < (w.oracle (w.requests + (n - a))).status →
      r.1 = (Float64.zero, some (Error.api (w.oracle (w.requests + (n - a))).status))) ∧
    ((w.oracle (w.requests + (n - a))).err = none →
      (w.oracle (w.requests + (n - a))).status ≤ 399 →
      ∀ price, (w.oracle (w.requests + (n - a))).price coinID = some price →
      r.1 = (price, none)) ∧
    ((w.oracle (w.requests + (n - a))).err = none →
      (w.oracle (w.requests + (n - a))).status ≤ 399 →
      (w.oracle (w.requests + (n - a))).price coinID = none →
      r.1 = (Float64.zero, some (Error.notFound coinSymbol coinID))) ∧
    (r.1.2 = none →
      r.2.clock = w.clock + ((2 : Int) ^ (n + 1) - (if a = 0 then 2 else 2 ^ a)) * time.Second
        + 1 * time.Second ∧
      r.2.trace = w.trace ++ ((schedule.take (2 * n)).drop (2 * a - 1)) ++
        [Event.request coinID, Event.sleep (1 * time.Second)]) ∧
    (r.1.2 ≠ none →
      r.2.clock = w.clock + ((2 : Int) ^ (n + 1) - (if a = 0 then 2 else 2 ^ a)) * time.Second ∧
      r.2.trace = w.trace ++ ((schedule.take (2 * n)).drop (2 * a - 1)) ++
        [Event.request coinID])))

/-- The method `(c *CoinGecko) GetCurrentPrice(ctx, coinSymbol)`: the price and the error
(`none` for `nil`), and the world after the call. `resp.IsError()` of resty is
`StatusCode() > 399`. -/
def GetCurrentPrice (table : unicode.CaseTable) (ctx : Context) (coinSymbol : String)
    (w : World) : (Float64 × Option Error) × World :=
  attemptLoop ctx coinSymbol (symbolToCoinID table coinSymbol) 3 (2 * time.Second) (3 + 1) 0 w

end webapi

/-! ## `google_sheets.go` -/

namespace sheets

/-- The part of `sheets.Spreadsheet` the program reads: `Properties.Title` and, for each
sheet in order, its `Properties.Title`. -/
structure Spreadsheet where
  Title : String
  Sheets : List String
deriving DecidableEq, Repr

/-- The Sheets API behind `sheets.Service`: for each call of the program, what `Do()`
returns (an error is `Except.error` or `some`). -/
structure Service where
  Get : String → Except String Spreadsheet
  ValuesGet : String → String → Except String (List (List Cell))
  ValuesUpdate : String → String → List (List Cell) → Option String
  ValuesClear : String → String → Option String

end sheets

namespace webapi

/-- The struct `GoogleSheets`. -/
structure GoogleSheets where
  service : sheets.Service

/-- The method `(g *GoogleSheets) ReadSpreadsheet(ctx, spreadsheetID, readRange)`. -/
def GoogleSheets.ReadSpreadsheet (g : GoogleSheets) (spreadsheetID readRange : String) :
    Except String (List (List Cell)) :=
  match g.service.ValuesGet spreadsheetID readRange with
  | Except.error err => Except.error ("unable to retrieve data from sheet: " ++ err)
  | Except.ok resp => Except.ok resp

/-- The method `(g *GoogleSheets) GetSpreadsheetInfo(ctx, spreadsheetID)`. -/
def GoogleSheets.GetSpreadsheetInfo (g : GoogleSheets) (spreadsheetID : String) :
    Except String sheets.Spreadsheet :=
  match g.service.Get spreadsheetID with
  | Except.error err => Except.error ("unable to retrieve spreadsheet info: " ++ err)
  | Except.ok spreadsheet => Except.ok spreadsheet

/-- The method `(g *GoogleSheets) UpdateSpreadsheet(ctx, spreadsheetID, writeRange, values)`:
the call is recorded in the world, the error of the API is wrapped. -/
def GoogleSheets.UpdateSpreadsheet (g : GoogleSheets) (spreadsheetID writeRange : String)
    (values : List (List Cell)) (w : World) : Option String × World :=
  let w1 := { w with ledger := w.ledger ++ [LedgerOp.update writeRange values] }
  match g.service.ValuesUpdate spreadsheetID writeRange values with
  | some err => (some ("unable to update data in sheet: " ++ err), w1)
  | none => (none, w1)

/-- Modelled from the spec: `clear_range(spreadsheet_id, range)`, which returns nothing and
may fail softly. `updateGoogleSheets` calls the method `ClearSpreadsheet(ctx, spreadsheetID,
clearRange)` of `GoogleSheets`, whose body is not among the sources; the call is recorded in
the world and the error of the API is returned. -/
def GoogleSheets.ClearSpreadsheet (g : GoogleSheets) (spreadsheetID clearRange : String)
    (w : World) : Option String × World :=
  (g.service.ValuesClear spreadsheetID clearRange,
   { w with ledger := w.ledger ++ [LedgerOp.clear clearRange] })

end webapi

/-! ## `config.go` and `process.go` -/

namespace config

/-- The fields of `config.Config` read by the use case. -/
structure Config where
  GoogleSheetID : String
  GoogleSheetRange : String
deriving DecidableEq, Repr

end config

namespace usecase

/-- Go `%d` of a non-negative `int`. -/
def itoa (n : Nat) : String :=
  if n = 0 then "0" else String.mk ((strconv.decDigits n).map strconv.digitChar)

/-- The struct `Process`: `googleSheets` may be `nil` (`none`); the oracle client
`coinGecko` is the oracle of the world together with the case table of the Go library. -/
structure Process where
  googleSheets : Option webapi.GoogleSheets
  coinGecko : unicode.CaseTable
  config : config.Config

/-- The parse loop of `Process`, `for i, row := range data.Values[1:]`, from index `i` on:
the records appended to `records` and the messages appended to `parseErrors`. -/
def parseRows : Nat → List (List Cell) → List CoinPriceRecord × List String
  | _, [] => ([], [])
  | i, row :: rest =>
    let rowNum := i + 2
    match ParseFromRow row with
    | Except.error err =>
      let errMsg := "Row " ++ itoa rowNum ++ ": parse error: " ++ err
      ((parseRows (i + 1) rest).1, errMsg :: (parseRows (i + 1) rest).2)
    | Except.ok record =>
      (record :: (parseRows (i + 1) rest).1, (parseRows (i + 1) rest).2)

/-- One iteration of the inner loop of `fillMissingPrices`, `for _, field := range
priceFields`. -/
def fillField (u : Process) (ctx : webapi.Context) (now : time.Time)
    (acc : CoinPriceRecord × World) (field : PriceField) : CoinPriceRecord × World :=
  match acc.1.ShouldFetchPrice field now with
  | (_, some _) => acc
  | (shouldFetch, none) =>
    if shouldFetch then
      let r := webapi.GetCurrentPrice u.coinGecko ctx acc.1.Coin acc.2
      match r.1.2 with
      | some _ => (acc.1, r.2)
      | none => (acc.1.store field.Value r.1.1, r.2)
    else acc

/-- One iteration of the outer loop of `fillMissingPrices`, `for i, record := range
records`. -/
def fillRecord (u : Process) (ctx : webapi.Context) (now : time.Time)
    (record : CoinPriceRecord) (w : World) : CoinPriceRecord × World :=
  if record.Coin = "" then (record, w)
  else
    let acc : CoinPriceRecord × World :=
      if record.BybitPrice.isZero then
        let r := webapi.GetCurrentPrice u.coinGecko ctx record.Coin w
        match r.1.2 with
        | some _ => (record, r.2)
        | none => ({ record with BybitPrice := r.1.1 }, r.2)
      else (record, w)
    acc.1.GetPriceFields.foldl (fillField u ctx now) acc

/-- The outer loop of `fillMissingPrices` over the records. -/
def fillRecords (u : Process) (ctx : webapi.Context) (now : time.Time) :
    List CoinPriceRecord → World → List CoinPriceRecord × World
  | [], w => ([], w)
  | record :: rest, w =>
    let r := fillRecord u ctx now record w
    let rs := fillRecords u ctx now rest r.2
    (r.1 :: rs.1, rs.2)

/-- The method `(u *Process) fillMissingPrices(ctx, records)`: the error returned (always
`nil`), the records after the in-place updates, and the world. `time.Now()` is the clock
of the world. -/
def Process.fillMissingPrices (u : Process) (ctx : webapi.Context)
    (records : List CoinPriceRecord) (w : World) :
    Option String × List CoinPriceRecord × World :=
  let now : time.Time := ⟨w.clock⟩
  let r := fillRecords u ctx now records w
  (none, r.1, r.2)

/-- The sheet name computed by `updateGoogleSheets` from `readRange` and the sheets. -/
def sheetNameOf (spreadsheet : sheets.Spreadsheet) (readRange : String) : String :=
  let sheetName :=
    if readRange.toList.contains '!' then
      String.mk (readRange.toList.takeWhile (fun ch => ch != '!'))
    else readRange
  if sheetName = "" ∨ sheetName = readRange then
    match spreadsheet.Sheets with
    | title :: _ => title
    | [] => sheetName
  else sheetName

/-- The method `(u *Process) updateGoogleSheets(ctx, spreadsheet, records, readRange)`. -/
def Process.updateGoogleSheets (u : Process) (spreadsheet : sheets.Spreadsheet)
    (records : List CoinPriceRecord) (readRange : String) (w : World) :
    Option String × World :=
  match u.googleSheets with
  | none => (none, w)
  | some googleSheets =>
    if records.length = 0 then (none, w)
    else
      let values := records.map CoinPriceRecord.ToRow
      let sheetName := sheetNameOf spreadsheet readRange
      let firstDataRow := 2
      let lastRow := firstDataRow + values.length - 1
      let writeRange := sheetName ++ "!A" ++ itoa firstDataRow ++ ":R" ++ itoa lastRow
      let clearRange := sheetName ++ "!A" ++ itoa firstDataRow ++ ":R"
      let c := googleSheets.ClearSpreadsheet u.config.GoogleSheetID clearRange w
      let r := googleSheets.UpdateSpreadsheet u.config.GoogleSheetID writeRange values c.2
      match r.1 with
      | some err => (some ("failed to write data: " ++ err), r.2)
      | none => (none, r.2)

set_option linter.dupNamespace false in
/-- The method `(u *Process) Process(ctx)`: the error returned (`none` for `nil`) and the
world after the run. -/
def Process.Process (u : Process) (ctx : webapi.Context) (w : World) : Option String × World :=
  match u.googleSheets with
  | none => (some "google Sheets client is not initialized", w)
  | some googleSheets =>
    let spreadsheetID := u.config.GoogleSheetID
    match googleSheets.GetSpreadsheetInfo spreadsheetID with
    | Except.error err => (some ("failed to get spreadsheet info: " ++ err), w)
    | Except.ok spreadsheet =>
      let readRange? : Option String :=
        if u.config.GoogleSheetRange ≠ "" then some u.config.GoogleSheetRange
        else spreadsheet.Sheets.head?
      match readRange? with
      | none => (some "no sheets found in spreadsheet", w)
      | some readRange =>
        match googleSheets.ReadSpreadsheet spreadsheetID readRange with
        | Except.error err => (some ("failed to read spreadsheet: " ++ err), w)
        | Except.ok [] => (none, w)
        | Except.ok [_] => (none, w)
        | Except.ok (_ :: row :: rows) =>
          let p := parseRows 0 (row :: rows)
          let w1 := { w with logged := w.logged ++ p.2 }
          let f := u.fillMissingPrices ctx p.1 w1
          match f.1 with
          | some err => (some ("failed to fill missing prices: " ++ err), f.2.2)
          | none =>
            match u.updateGoogleSheets spreadsheet f.2.1 readRange f.2.2 with
            | (some err, w2) => (some ("failed to update Google Sheets: " ++ err), w2)
            | (none, w2) => (none, w2)

end usecase

/-! ## Reference definitions, written from the specification -/

namespace reference

/-- The symbol table of the specification, read row by row. -/
def table : List (String × String) :=
  [ ("btc", "bitcoin"), ("eth", "ethereum"), ("usdt", "tether"), ("bnb", "binancecoin"),
    ("sol", "solana"), ("xrp", "ripple"), ("usdc", "usd-coin"), ("ada", "cardano"),
    ("avax", "avalanche-2"), ("doge", "dogecoin"), ("dot", "polkadot"),
    ("matic", "matic-network"),
    ("link", "chainlink"), ("uni", "uniswap"), ("ltc", "litecoin"), ("atom", "cosmos"),
    ("etc", "ethereum-classic"), ("xlm", "stellar"), ("bch", "bitcoin-cash"), ("near", "near"),
    ("algo", "algorand"), ("vet", "vechain"), ("icp", "internet-computer"),
    ("fil", "filecoin"), ("apt", "aptos"), ("hbar", "hedera-hashgraph"),
    ("arb", "arbitrum"), ("op", "optimism"), ("ldo", "lido-dao"), ("imx", "immutable-x"),
    ("stx", "blockstack"), ("inj", "injective-protocol"), ("sui", "sui"),
    ("sei", "sei-network"),
    ("tia", "celestia"), ("xvg", "verge"), ("trx", "tron"), ("shib", "shiba-inu"),
    ("dai", "dai"), ("wbtc", "wrapped-bitcoin"), ("leo", "leo-token"),
    ("ton", "the-open-network"), ("okb", "okb") ]

/-- The resolver of the specification: trim, lower-case, then the id bound to the symbol in
the table, or the symbol itself when the table does not have it. -/
def resolve (lower : unicode.CaseTable) (s : String) : String :=
  let k := strings.ToLower lower (strings.TrimSpace s)
  match table.find? (fun p => p.1 = k) with
  | some p => p.2
  | none => k

/-- Two decimal digits of a number below 100. -/
def pad2 (n : Nat) : List Char :=
  [strconv.digitChar (n / 10 % 10), strconv.digitChar (n % 10)]

/-- Four decimal digits of a number below 10000. -/
def pad4 (n : Nat) : List Char :=
  [strconv.digitChar (n / 1000 % 10), strconv.digitChar (n / 100 % 10),
   strconv.digitChar (n / 10 % 10), strconv.digitChar (n % 10)]

/-- A date written `DD.MM.YYYY`. -/
def dotted (year month day : Nat) : String :=
  String.mk (pad2 day ++ '.' :: pad2 month ++ '.' :: pad4 year)

/-- A date written `YYYY-MM-DD`. -/
def dashed (year month day : Nat) : String :=
  String.mk (pad4 year ++ '-' :: pad2 month ++ '-' :: pad2 day)

/-- A time of day written `HH:MM:SS`. -/
def clockHMS (hour min sec : Nat) : String :=
  String.mk (pad2 hour ++ ':' :: pad2 min ++ ':' :: pad2 sec)

/-- A time of day written `HH:MM`. -/
def clockHM (hour min : Nat) : String :=
  String.mk (pad2 hour ++ ':' :: pad2 min)

/-- A valid calendar date and time of day. -/
def validCivil (year month day hour min sec : Nat) : Prop :=
  year < 10000 ∧ 1 ≤ month ∧ month ≤ 12 ∧ 1 ≤ day ∧ day ≤ time.daysIn month year ∧
  hour < 24 ∧ min < 60 ∧ sec < 60

/-- The written forms of the specification, in order. -/
def forms : List String :=
  [ "DD.MM.YYYY HH:MM:SS",
    "DD.MM.YYYY HH:MM",
    "YYYY-MM-DD HH:MM:SS",
    "YYYY-MM-DD HH:MM" ]

/-- A text has a written form: a digit where the form has a letter, the same character
elsewhere, and the same length. -/
def hasForm : List Char → List Char → Bool
  | [], [] => true
  | f :: form, c :: text =>
    (if f.isAlpha then time.isDigit c else decide (c = f)) && hasForm form text
  | _, _ => false

/-- The retry schedule of the specification for one oracle call: four requests for the
coin id, with sleeps of 2, 4 and 8 seconds before the first, second and third retry. -/
def schedule (coinID : String) : List webapi.Event :=
  [ webapi.Event.request coinID, webapi.Event.sleep (2 * time.Second),
    webapi.Event.request coinID, webapi.Event.sleep (4 * time.Second),
    webapi.Event.request coinID, webapi.Event.sleep (8 * time.Second),
    webapi.Event.request coinID ]

/-- Total duration of the sleeps of a trace. -/
def slept : List webapi.Event → time.Duration
  | [] => 0
  | webapi.Event.sleep d :: rest => d + slept rest
  | _ :: rest => slept rest

/-- Number of requests of a trace that reached the oracle. -/
def requestCount : List webapi.Event → Nat
  | [] => 0
  | webapi.Event.request _ :: rest => 1 + requestCount rest
  | _ :: rest => requestCount rest

end reference

namespace time

/-- Go `time.Date(year, month, day, hour, min, sec, nsec, time.FixedZone(_, offset))` for
fields in their normal ranges: the instant of that civil date-time in the zone. -/
def Date (year month day hour min sec nsec : Nat) (offset : Int) : Time :=
  ⟨(unixOfCivil ⟨year, month, day, hour, min, sec, 0⟩ - offset) * 1000000000 + nsec⟩

/-- Go `time.UTC` as a fixed zone: offset 0. -/
def UTC : Int := 0

end time

/-! ## Scenario data for the oracle client -/

/-- A world at clock 0 in which nothing has happened yet, with the given oracle. -/
def freshWorld (oracle : Nat → webapi.Response) : World :=
  { oracle := oracle, requests := 0, clock := 0, trace := [], ledger := [], logged := [] }

/-- The response `429 Too Many Requests`. -/
def resp429 : webapi.Response := { err := none, status := 429, result := [] }

/-- A response with the given status and an empty body. -/
def respStatus (status : Nat) : webapi.Response := { err := none, status := status, result := [] }

/-- The response `200 OK` carrying the price `f45100` of bitcoin in usd. -/
def respPrice : webapi.Response :=
  { err := none, status := 200, result := [("bitcoin", [("usd", f45100)])] }

/-- A failed request: no response, a transport error. -/
def respDown : webapi.Response :=
  { err := some (webapi.Cause.other "connection refused"), status := 0, result := [] }

/-- An oracle that answers 429 to its first `k` requests and `resp` from then on. -/
def oracleAfter (k : Nat) (resp : webapi.Response) : Nat → webapi.Response :=
  fun i => if i < k then resp429 else resp

/-- A context that is never cancelled. -/
def background : webapi.Context := { cancelAt := none }

/-! ## Reference definitions and scenario data for the orchestrator -/

namespace reference

/-- The records of the data rows that decode, in the order of the rows. -/
def decoded (data : List (List Cell)) : List CoinPriceRecord :=
  data.filterMap (fun row =>
    match ParseFromRow row with
    | Except.ok record => some record
    | Except.error _ => none)

/-- The decode failures: the index among the data rows and the error of each row that does
not decode. -/
def failures (data : List (List Cell)) : List (Nat × String) :=
  data.enum.filterMap (fun p =>
    match ParseFromRow p.2 with
    | Except.ok _ => none
    | Except.error err => some (p.1, err))

/-- Two records describe the same event: same date, time, source, coin and direction. -/
def sameEvent (a b : CoinPriceRecord) : Prop :=
  a.Date = b.Date ∧ a.Time = b.Time ∧ a.Source = b.Source ∧ a.Coin = b.Coin ∧
  a.Direction = b.Direction

end reference

/-- A data row of seven cells for the given coin: the event of scenario S1 with both
reference prices and no offset price. -/
def rowOf (coin : String) : List Cell :=
  [ .str "29.12.2025", .str "10:30:00", .str "Binance", .str coin, .str "UP",
    .str "45000.50", .str "45010" ]

/-- The sheet of scenario S6: the header row and five data rows, the third of which has two
cells only. -/
def sheetS6 : List (List Cell) :=
  [ [.str "Date", .str "Time", .str "Source", .str "Coin", .str "Direction"],
    rowOf "BTC", rowOf "ETH", [.str "29.12.2025", .str "10:30:00"], rowOf "SOL", rowOf "XRP" ]

/-- The ledger of scenario S6: one sheet named Sheet1 that holds `sheetS6`; every call
succeeds. -/
def serviceS6 : sheets.Service :=
  { Get := fun _ => Except.ok { Title := "Ledger", Sheets := ["Sheet1"] }
    ValuesGet := fun _ _ => Except.ok sheetS6
    ValuesUpdate := fun _ _ _ => none
    ValuesClear := fun _ _ => none }

/-- The ledger of scenario S6 when the clear call fails. -/
def serviceClearFails : sheets.Service :=
  { serviceS6 with ValuesClear := fun _ _ => some "quota exceeded" }

/-- The ledger of scenario S6 when the write call fails. -/
def serviceUpdateFails : sheets.Service :=
  { serviceS6 with ValuesUpdate := fun _ _ _ => some "quota exceeded" }

/-- The use case over a ledger, with no range configured. -/
def processOver (service : sheets.Service) : usecase.Process :=
  { googleSheets := some { service := service }
    coinGecko := fun c => c
    config := { GoogleSheetID := "sheet-id", GoogleSheetRange := "" } }

/-- The record decoded from `rowOf coin`. -/
def recordOf (coin : String) : CoinPriceRecord :=
  { recordS1 with Coin := coin }

/-- A sheet of scenario data in which no data row decodes: the header row and two rows of
two cells. -/
def sheetUndecodable : List (List Cell) :=
  [ [.str "Date", .str "Time", .str "Source", .str "Coin", .str "Direction"],
    [.str "29.12.2025", .str "10:30:00"], [.str "29.12.2025", .str "11:30:00"] ]

/-- A ledger with two sheets, Sheet1 and Sheet2: the range `Sheet2` holds the header row and
the row of XRP, every other range holds `sheetS6`; every call succeeds. -/
def serviceTwoSheets : sheets.Service :=
  { Get := fun _ => Except.ok { Title := "Ledger", Sheets := ["Sheet1", "Sheet2"] }
    ValuesGet := fun _ readRange =>
      if readRange = "Sheet2" then
        Except.ok [[.str "Date", .str "Time", .str "Source", .str "Coin", .str "Direction"],
          rowOf "XRP"]
      else Except.ok sheetS6
    ValuesUpdate := fun _ _ _ => none
    ValuesClear := fun _ _ => none }

/-- The use case over a ledger, with the given range configured. -/
def processRange (service : sheets.Service) (range : String) : usecase.Process :=
  { googleSheets := some { service := service }
    coinGecko := fun c => c
    config := { GoogleSheetID := "sheet-id", GoogleSheetRange := range } }

/-! ## Reference definitions for the fill phase, written from the specification -/

namespace reference

/-- A price cell that the fill phase may fetch: the Bybit price or an offset price. -/
inductive Slot where
  | bybit
  | offset (field : PriceField)
deriving DecidableEq, Repr

/-- The fetch order of the specification: Bybit, then the offsets +10m … +1M. -/
def slotOrder (r : CoinPriceRecord) : List Slot :=
  Slot.bybit :: r.GetPriceFields.map Slot.offset

/-- The field of the record behind a slot: `none` for the Bybit price, the pointer for an
offset price. -/
def cell : Slot → Option PriceRef
  | Slot.bybit => none
  | Slot.offset field => some field.Value

/-- The value of a slot of a record. -/
def read (r : CoinPriceRecord) : Slot → Float64
  | Slot.bybit => r.BybitPrice
  | Slot.offset field => r.load field.Value

/-- The record with a value assigned to a slot. -/
def write (r : CoinPriceRecord) (s : Slot) (v : Float64) : CoinPriceRecord :=
  match s with
  | Slot.bybit => { r with BybitPrice := v }
  | Slot.offset field => r.store field.Value v

/-- The condition of the specification for a fetch: the cell is zero and, for an offset,
due: the timestamp of the record parses and `now` is at or after the timestamp plus the
offset. -/
def wanted (r : CoinPriceRecord) (now : time.Time) : Slot → Bool
  | Slot.bybit => r.BybitPrice.isZero
  | Slot.offset field =>
    (r.load field.Value).isZero &&
      match r.TryParseDateTime with
      | Except.ok t => decide (t.unixNano + field.Duration ≤ now.unixNano)
      | Except.error _ => false

/-- The oracle calls of the specification for one record: none for a record without coin,
else one per wanted slot, in the fetch order. -/
def calls (r : CoinPriceRecord) (now : time.Time) : List Slot :=
  if r.Coin = "" then [] else (slotOrder r).filter (wanted r now)

/-- One oracle call for a slot: fetch the price of the record's coin; assign it to the slot
when the fetch succeeds, leave the record alone when it fails; go on in either case. -/
def call (lower : unicode.CaseTable) (ctx : webapi.Context) (acc : CoinPriceRecord × World)
    (s : Slot) : CoinPriceRecord × World :=
  match (webapi.GetCurrentPrice lower ctx acc.1.Coin acc.2).1.2 with
  | some _ => (acc.1, (webapi.GetCurrentPrice lower ctx acc.1.Coin acc.2).2)
  | none =>
    (write acc.1 s (webapi.GetCurrentPrice lower ctx acc.1.Coin acc.2).1.1,
     (webapi.GetCurrentPrice lower ctx acc.1.Coin acc.2).2)

/-- What the fill phase may change of a record: nothing of its date, time, source, coin,
direction and source price, and no Bybit or offset price that is not zero. -/
def Frame (a b : CoinPriceRecord) : Prop :=
  a.Date = b.Date ∧ a.Time = b.Time ∧ a.Source = b.Source ∧ a.Coin = b.Coin ∧
  a.Direction = b.Direction ∧ a.SourcePrice = b.SourcePrice ∧
  (a.BybitPrice.isZero = false → b.BybitPrice = a.BybitPrice) ∧
  ∀ p : PriceRef, (a.load p).isZero = false → b.load p = a.load p

end reference

/-! ## Scenario data for the fill phase -/

/-- A record of BTC with the given date, time and Bybit price and no offset price. -/
def recordDue (date clock : String) (bybit : Float64) : CoinPriceRecord :=
  { recordAt date clock Float64.zero with Coin := "BTC", BybitPrice := bybit }

/-- A world at the given clock in which nothing has happened yet, with the given oracle. -/
def worldAt (clock : Int) (oracle : Nat → webapi.Response) : World :=
  { oracle := oracle, requests := 0, clock := clock, trace := [], ledger := [], logged := [] }

/-- The response `200 OK` carrying the price `f45000_5` of bitcoin in usd. -/
def respPriceOther : webapi.Response :=
  { err := none, status := 200, result := [("bitcoin", [("usd", f45000_5)])] }

/-- An oracle that answers its first request with `first` and every later one with
`later`. -/
def oracleThen (first later : webapi.Response) : Nat → webapi.Response :=
  fun i => if i = 0 then first else later

/-- The instant 2025-12-29 10:45:00 in the zone UTC+07:00: 45 minutes after `anchorS2`. -/
def clockS2plus45 : Int := 1766979900000000000

/-! # Round trip of the Go library pair `FormatFloat` / `ParseFloat` -/

namespace strconv

/-! ## Correctness of the rounding `floatBits` -/

theorem bitLenAux_zero (fuel : Nat) : bitLenAux fuel 0 = 0 := by
  cases fuel <;> simp [bitLenAux]

theorem bitLenAux_spec : ∀ (fuel n : Nat), n ≤ fuel → 0 < n →
    2 ^ (bitLenAux fuel n - 1) ≤ n ∧ n < 2 ^ bitLenAux fuel n ∧ 0 < bitLenAux fuel n := by
  intro fuel
  induction fuel with
  | zero => intro n h1 h2; omega
  | succ fuel ih =>
    intro n hle hpos
    have hn : n ≠ 0 := by omega
    simp only [bitLenAux, hn, if_false]
    by_cases h2 : n / 2 = 0
    · rw [h2, bitLenAux_zero]
      have : n = 1 := by omega
      subst this
      simp
    · obtain ⟨l1, l2, l3⟩ := ih (n / 2) (by omega) (by omega)
      refine ⟨?_, ?_, by omega⟩
      · simp only [Nat.add_sub_cancel]
        have e : bitLenAux fuel (n / 2) = (bitLenAux fuel (n / 2) - 1) + 1 := by omega
        rw [e, pow_succ]
        omega
      · rw [pow_succ]
        omega

theorem bitLen_spec (n : Nat) (h : 0 < n) :
    2 ^ (bitLen n - 1) ≤ n ∧ n < 2 ^ bitLen n ∧ 0 < bitLen n :=
  bitLenAux_spec n n (le_refl n) h

/-- The quotient `2 ^ e.toNat / 2 ^ (-e).toNat` is `2 ^ e`. -/
theorem pow_toNat_div (e : Int) :
    ((2 : ℚ) ^ e.toNat) / (2 : ℚ) ^ (-e).toNat = (2 : ℚ) ^ e := by
  rcases le_total 0 e with h | h
  · have h1 : (-e).toNat = 0 := by omega
    rw [h1, pow_zero, div_one]
    conv_rhs => rw [← Int.toNat_of_nonneg h]
    rw [zpow_natCast]
  · have h1 : e.toNat = 0 := by omega
    rw [h1, pow_zero, one_div]
    have h2 : e = -((-e).toNat : ℤ) := by omega
    conv_rhs => rw [h2]
    rw [zpow_neg, zpow_natCast]

theorem two_zpow_pos (e : Int) : (0 : ℚ) < (2 : ℚ) ^ e := by positivity

/-- The scaled quotient of `roundScaled` as a rational. -/
theorem scaled_quot (num den : Nat) (e : Int) (hden : 0 < den) :
    ((num * 2 ^ (-e).toNat : Nat) : ℚ) / ((den * 2 ^ e.toNat : Nat) : ℚ) =
      (num : ℚ) / den / (2 : ℚ) ^ e := by
  have hd : (den : ℚ) ≠ 0 := by exact_mod_cast hden.ne'
  rw [← pow_toNat_div e]
  push_cast
  field_simp

theorem floorLog2_spec (num den : Nat) (hnum : 0 < num) (hden : 0 < den) :
    (2 : ℚ) ^ (floorLog2 num den) ≤ (num : ℚ) / den ∧
    (num : ℚ) / den < (2 : ℚ) ^ (floorLog2 num den + 1) := by
  obtain ⟨a1, a2, a3⟩ := bitLen_spec num hnum
  obtain ⟨b1, b2, b3⟩ := bitLen_spec den hden
  have hd : (0 : ℚ) < den := by exact_mod_cast hden
  have hn : (0 : ℚ) < num := by exact_mod_cast hnum
  have a1q : (2 : ℚ) ^ ((bitLen num : ℤ) - 1) ≤ num := by
    have : ((bitLen num : ℤ) - 1) = ((bitLen num - 1 : ℕ) : ℤ) := by omega
    rw [this, zpow_natCast]
    exact_mod_cast a1
  have a2q : (num : ℚ) < (2 : ℚ) ^ (bitLen num : ℤ) := by
    rw [zpow_natCast]
    exact_mod_cast a2
  have b1q : (2 : ℚ) ^ ((bitLen den : ℤ) - 1) ≤ den := by
    have : ((bitLen den : ℤ) - 1) = ((bitLen den - 1 : ℕ) : ℤ) := by omega
    rw [this, zpow_natCast]
    exact_mod_cast b1
  have b2q : (den : ℚ) < (2 : ℚ) ^ (bitLen den : ℤ) := by
    rw [zpow_natCast]
    exact_mod_cast b2
  simp only [floorLog2]
  generalize hl : (bitLen num : ℤ) - (bitLen den : ℤ) = l0
  have key : (den * 2 ^ l0.toNat ≤ num * 2 ^ (-l0).toNat) ↔ (2 : ℚ) ^ l0 ≤ (num : ℚ) / den := by
    rw [le_div_iff₀ hd, ← pow_toNat_div l0, div_mul_eq_mul_div, div_le_iff₀ (by positivity)]
    constructor
    · intro h
      have : ((den * 2 ^ l0.toNat : ℕ) : ℚ) ≤ ((num * 2 ^ (-l0).toNat : ℕ) : ℚ) := by
        exact_mod_cast h
      push_cast at this
      linarith
    · intro h
      have : ((den * 2 ^ l0.toNat : ℕ) : ℚ) ≤ ((num * 2 ^ (-l0).toNat : ℕ) : ℚ) := by
        push_cast
        linarith
      exact_mod_cast this
  -- bounds 2^(l0-1) < num/den < 2^(l0+1)
  have up : (num : ℚ) / den < (2 : ℚ) ^ (l0 + 1) := by
    rw [div_lt_iff₀ hd]
    have e : (2 : ℚ) ^ (l0 + 1) = (2 : ℚ) ^ (bitLen num : ℤ) / (2 : ℚ) ^ ((bitLen den : ℤ) - 1) := by
      rw [← zpow_sub₀ (by norm_num : (2 : ℚ) ≠ 0)]
      congr 1
      omega
    rw [e, div_mul_eq_mul_div, lt_div_iff₀ (two_zpow_pos _)]
    calc (num : ℚ) * (2 : ℚ) ^ ((bitLen den : ℤ) - 1) ≤ num * den :=
          mul_le_mul_of_nonneg_left b1q hn.le
      _ < (2 : ℚ) ^ (bitLen num : ℤ) * den := mul_lt_mul_of_pos_right a2q hd
  have lo : (2 : ℚ) ^ (l0 - 1) ≤ (num : ℚ) / den := by
    rw [le_div_iff₀ hd]
    have e : (2 : ℚ) ^ (l0 - 1) = (2 : ℚ) ^ ((bitLen num : ℤ) - 1) / (2 : ℚ) ^ (bitLen den : ℤ) := by
      rw [← zpow_sub₀ (by norm_num : (2 : ℚ) ≠ 0)]
      congr 1
      omega
    rw [e, div_mul_eq_mul_div, div_le_iff₀ (two_zpow_pos _)]
    calc (2 : ℚ) ^ ((bitLen num : ℤ) - 1) * den ≤ num * den :=
          mul_le_mul_of_nonneg_right a1q hd.le
      _ ≤ num * (2 : ℚ) ^ (bitLen den : ℤ) := mul_le_mul_of_nonneg_left b2q.le hn.le
  by_cases h : den * 2 ^ l0.toNat ≤ num * 2 ^ (-l0).toNat
  · simp only [h, if_true]
    exact ⟨key.mp h, up⟩
  · simp only [h, if_false]
    refine ⟨lo, ?_⟩
    have : ¬ (2 : ℚ) ^ l0 ≤ (num : ℚ) / den := fun hh => h (key.mpr hh)
    have e : l0 - 1 + 1 = l0 := by omega
    rw [e]
    exact not_le.mp this

/-- The floor of the binary logarithm is determined by the binade. -/
theorem floorLog2_eq (num den : Nat) (hnum : 0 < num) (hden : 0 < den) (l : Int)
    (h1 : (2 : ℚ) ^ l ≤ (num : ℚ) / den) (h2 : (num : ℚ) / den < (2 : ℚ) ^ (l + 1)) :
    floorLog2 num den = l := by
  obtain ⟨s1, s2⟩ := floorLog2_spec num den hnum hden
  have c1 : (2 : ℚ) ^ l < (2 : ℚ) ^ (floorLog2 num den + 1) := lt_of_le_of_lt h1 s2
  have c2 : (2 : ℚ) ^ (floorLog2 num den) < (2 : ℚ) ^ (l + 1) := lt_of_le_of_lt s1 h2
  rw [zpow_lt_zpow_iff_right₀ (by norm_num)] at c1 c2
  omega

/-- Round half to even, characterised: the result is the integer within 1/2 of the
quotient (an even one at distance exactly 1/2). -/
theorem roundHalfEven_eq (a b M : Nat) (hb : 0 < b)
    (hlo : (M : ℚ) - 1 / 2 < (a : ℚ) / b ∨ (M % 2 = 0 ∧ (a : ℚ) / b = M - 1 / 2))
    (hhi : (a : ℚ) / b < M + 1 / 2 ∨ (M % 2 = 0 ∧ (a : ℚ) / b = M + 1 / 2)) :
    roundHalfEven a b = M := by
  have hbq : (0 : ℚ) < b := by exact_mod_cast hb
  have hdm : b * (a / b) + a % b = a := Nat.div_add_mod a b
  have hr : a % b < b := Nat.mod_lt a hb
  have hq : (a : ℚ) / b = (a / b : ℕ) + ((a % b : ℕ) : ℚ) / b := by
    have : (a : ℚ) = b * (a / b : ℕ) + (a % b : ℕ) := by exact_mod_cast hdm.symm
    field_simp
    linarith
  generalize hQ : a / b = Q at hdm hq
  generalize hR : a % b = R at hdm hq hr
  have hRq : (0 : ℚ) ≤ (R : ℚ) / b := by positivity
  have hRq1 : (R : ℚ) / b < 1 := by
    rw [div_lt_one hbq]
    exact_mod_cast hr
  simp only [roundHalfEven, hQ, hR]
  by_cases c1 : 2 * R < b
  · simp only [c1, if_true]
    have d : (R : ℚ) / b < 1 / 2 := by
      rw [div_lt_iff₀ hbq]
      have : ((2 * R : ℕ) : ℚ) < b := by exact_mod_cast c1
      push_cast at this
      linarith
    have u1 : (M : ℚ) < Q + 1 := by
      rcases hlo with h | ⟨_, h⟩ <;> linarith
    have u2 : (Q : ℚ) < M + 1 := by
      rcases hhi with h | ⟨_, h⟩ <;> linarith
    have u1' : M < Q + 1 := by exact_mod_cast u1
    have u2' : Q < M + 1 := by exact_mod_cast u2
    omega
  · simp only [c1, if_false]
    by_cases c2 : b < 2 * R
    · simp only [c2, if_true]
      have d : 1 / 2 < (R : ℚ) / b := by
        rw [lt_div_iff₀ hbq]
        have : (b : ℚ) < ((2 * R : ℕ) : ℚ) := by exact_mod_cast c2
        push_cast at this
        linarith
      have u1 : (M : ℚ) < Q + 2 := by
        rcases hlo with h | ⟨_, h⟩ <;> linarith
      have u2 : (Q : ℚ) < M := by
        rcases hhi with h | ⟨_, h⟩ <;> linarith
      have u1' : M < Q + 2 := by exact_mod_cast u1
      have u2' : Q < M := by exact_mod_cast u2
      omega
    · simp only [c2, if_false]
      have c3 : 2 * R = b := by omega
      have d : (R : ℚ) / b = 1 / 2 := by
        rw [div_eq_iff hbq.ne']
        have : ((2 * R : ℕ) : ℚ) = b := by exact_mod_cast c3
        push_cast at this
        linarith
      rw [d] at hq
      rcases hlo with h | ⟨he, h⟩
      · rcases hhi with h' | ⟨he', h'⟩
        · have u1 : (M : ℚ) < Q + 1 := by linarith
          have u2 : (Q : ℚ) < M := by linarith
          have u1' : M < Q + 1 := by exact_mod_cast u1
          have u2' : Q < M := by exact_mod_cast u2
          omega
        · have u : (Q : ℚ) = M := by linarith
          have u' : Q = M := by exact_mod_cast u
          omega
      · have u : (Q : ℚ) + 1 = M := by linarith
        have u' : Q + 1 = M := by exact_mod_cast u
        omega

theorem zpow_add52 (E : Int) : (2 : ℚ) ^ (E + 52) = 4503599627370496 * (2 : ℚ) ^ E := by
  rw [zpow_add₀ (by norm_num : (2 : ℚ) ≠ 0)]
  norm_num
  ring

theorem zpow_add53 (E : Int) : (2 : ℚ) ^ (E + 52 + 1) = 9007199254740992 * (2 : ℚ) ^ E := by
  rw [zpow_add₀ (by norm_num : (2 : ℚ) ≠ 0), zpow_add52]
  norm_num
  ring

theorem zpow_add51 (E : Int) : (2 : ℚ) ^ (E + 51) = 2251799813685248 * (2 : ℚ) ^ E := by
  rw [zpow_add₀ (by norm_num : (2 : ℚ) ≠ 0)]
  norm_num
  ring

theorem zpow_sub1 (E : Int) : (2 : ℚ) ^ (E - 1) = (2 : ℚ) ^ E / 2 := by
  rw [zpow_sub₀ (by norm_num : (2 : ℚ) ≠ 0)]
  norm_num

/-- The function `roundScaled` at the exponent `e`, characterised. -/
theorem roundScaled_eq (num den : Nat) (e : Int) (M : Nat) (hden : 0 < den)
    (hlo : (M : ℚ) - 1 / 2 < (num : ℚ) / den / (2 : ℚ) ^ e ∨
      (M % 2 = 0 ∧ (num : ℚ) / den / (2 : ℚ) ^ e = M - 1 / 2))
    (hhi : (num : ℚ) / den / (2 : ℚ) ^ e < M + 1 / 2 ∨
      (M % 2 = 0 ∧ (num : ℚ) / den / (2 : ℚ) ^ e = M + 1 / 2)) :
    roundScaled num den e = M := by
  unfold roundScaled
  apply roundHalfEven_eq
  · exact Nat.mul_pos hden (by positivity)
  · rw [scaled_quot num den e hden]
    exact hlo
  · rw [scaled_quot num den e hden]
    exact hhi

theorem floatBits_of (neg : Bool) (num den : Nat) (e : Int) (M : Nat) (hnum : num ≠ 0)
    (he : max (floorLog2 num den - 52) (-1074) = e) (hr : roundScaled num den e = M) :
    floatBits neg num den =
      if M = 2 ^ 53 then assemble neg (2 ^ 52) (e + 1) else assemble neg M e := by
  subst he
  subst hr
  simp only [floatBits, hnum, if_false]

theorem assemble_subnormal (neg : Bool) (m : Nat) (e : Int) (h : m < 4503599627370496) :
    assemble neg m e = some (Float64.mk3 neg 0 m) := by
  have : m < 2 ^ 52 := by norm_num; exact h
  simp only [assemble, this, if_true]

theorem assemble_normal (neg : Bool) (fr ef : Nat) (e : Int) (hef : ef < 2047)
    (he : e + 1075 = (ef : ℤ)) :
    assemble neg (fr + 4503599627370496) e = some (Float64.mk3 neg ef fr) := by
  have h1 : ¬ fr + 4503599627370496 < 2 ^ 52 := by norm_num
  have h2 : ¬ (2047 : ℤ) ≤ (ef : ℤ) := by omega
  have h3 : fr + 4503599627370496 - 2 ^ 52 = fr := by norm_num
  simp only [assemble, h1, if_false, he, h2, Int.toNat_ofNat, h3]

/-- Correctness of `floatBits`: a positive rational inside the rounding interval of a finite
non-zero binary64 (between the half-way points to its neighbours, these included when the
mantissa is even) rounds to it. `m` is the mantissa with the implicit bit, `E` the exponent
of its unit, `c` the distance to the lower half-way point in units. -/
theorem floatBits_eq (neg : Bool) (num den ef fr : Nat) (hnum : 0 < num) (hden : 0 < den)
    (hef : ef < 2047) (hfr : fr < 4503599627370496) (hnz : ef ≠ 0 ∨ fr ≠ 0)
    (m : Nat) (hm : m = if ef = 0 then fr else fr + 4503599627370496)
    (E : Int) (hE : E = ((max ef 1 : Nat) : Int) - 1075)
    (c : ℚ) (hc : c = if 4503599627370496 < m ∨ ef ≤ 1 then 1 / 2 else 1 / 4)
    (hlo : ((m : ℚ) - c) * (2 : ℚ) ^ E < (num : ℚ) / den ∨
      (m % 2 = 0 ∧ (num : ℚ) / den = ((m : ℚ) - c) * (2 : ℚ) ^ E))
    (hhi : (num : ℚ) / den < ((m : ℚ) + 1 / 2) * (2 : ℚ) ^ E ∨
      (m % 2 = 0 ∧ (num : ℚ) / den = ((m : ℚ) + 1 / 2) * (2 : ℚ) ^ E)) :
    floatBits neg num den = some (Float64.mk3 neg ef fr) := by
  have hu : (0 : ℚ) < (2 : ℚ) ^ E := two_zpow_pos E
  have hnum0 : num ≠ 0 := by omega
  have hspec := floorLog2_spec num den hnum hden
  generalize hfl : floorLog2 num den = fl at hspec
  generalize hq : (num : ℚ) / den = q at hlo hhi hspec
  have hqdiv : ∀ x : ℚ, (x * (2 : ℚ) ^ E < q ↔ x < q / (2 : ℚ) ^ E) := fun x =>
    (lt_div_iff₀ hu).symm
  have hqdiv2 : ∀ x : ℚ, (q < x * (2 : ℚ) ^ E ↔ q / (2 : ℚ) ^ E < x) := fun x =>
    (div_lt_iff₀ hu).symm
  have hqdiv3 : ∀ x : ℚ, (q = x * (2 : ℚ) ^ E ↔ q / (2 : ℚ) ^ E = x) := fun x =>
    (div_eq_iff hu.ne').symm
  rw [hqdiv, hqdiv3] at hlo
  rw [hqdiv2, hqdiv3] at hhi
  generalize hρ : q / (2 : ℚ) ^ E = ρ at hlo hhi
  have hqρ : q = ρ * (2 : ℚ) ^ E := by rw [← hρ]; field_simp
  have hclo : (m : ℚ) - c ≤ ρ := by rcases hlo with h | ⟨_, h⟩ <;> linarith
  have hchi : ρ ≤ (m : ℚ) + 1 / 2 := by rcases hhi with h | ⟨_, h⟩ <;> linarith
  have hmpos : 1 ≤ m := by
    rw [hm]; split <;> omega
  have hmlt : m < 9007199254740992 := by
    rw [hm]; split <;> omega
  have hmq1 : (1 : ℚ) ≤ m := by exact_mod_cast hmpos
  have hmq2 : (m : ℚ) ≤ 9007199254740991 := by
    have : m ≤ 9007199254740991 := by omega
    exact_mod_cast this
  have hc2 : c ≤ 1 / 2 ∧ 0 < c := by
    rw [hc]; split <;> norm_num
  have hE1 : -1074 ≤ E := by rw [hE]; omega
  -- the generic situation: the exponent found is `E` and the quotient rounds to `m`
  have generic : max (fl - 52) (-1074) = E →
      ((m : ℚ) - 1 / 2 < ρ ∨ (m % 2 = 0 ∧ ρ = m - 1 / 2)) →
      floatBits neg num den = some (Float64.mk3 neg ef fr) := by
    intro he hlo'
    have hr : roundScaled num den E = m := by
      apply roundScaled_eq num den E m hden
      · rw [hq, hρ]; exact hlo'
      · rw [hq, hρ]; exact hhi
    rw [floatBits_of neg num den E m hnum0 (by rw [hfl]; exact he) hr]
    have hne : m ≠ 2 ^ 53 := by norm_num; omega
    simp only [hne, if_false]
    by_cases h0 : ef = 0
    · have hmf : m = fr := by rw [hm]; simp [h0]
      rw [hmf, h0]
      exact assemble_subnormal neg fr E hfr
    · have hmf : m = fr + 4503599627370496 := by rw [hm]; simp [h0]
      rw [hmf]
      apply assemble_normal neg fr ef E hef
      rw [hE]; omega
  -- bounds of q in units
  have hq_up : q < 9007199254740992 * (2 : ℚ) ^ E := by
    rw [hqρ]
    apply mul_lt_mul_of_pos_right _ hu
    linarith
  by_cases h0 : ef = 0
  · -- subnormal
    have hmf : m = fr := by rw [hm]; simp [h0]
    have hE2 : E = -1074 := by rw [hE, h0]; simp
    have hc' : c = 1 / 2 := by rw [hc]; simp [h0]
    have hmq3 : (m : ℚ) ≤ 4503599627370495 := by
      have : m ≤ 4503599627370495 := by omega
      exact_mod_cast this
    have hq_up2 : q < (2 : ℚ) ^ (E + 52) := by
      rw [zpow_add52, hqρ]
      apply mul_lt_mul_of_pos_right _ hu
      linarith
    have : (2 : ℚ) ^ fl < (2 : ℚ) ^ (E + 52) := lt_of_le_of_lt hspec.1 hq_up2
    rw [zpow_lt_zpow_iff_right₀ (by norm_num)] at this
    apply generic
    · rw [hE2] at this ⊢
      omega
    · rw [hc'] at hlo; exact hlo
  · have hmf : m = fr + 4503599627370496 := by rw [hm]; simp [h0]
    have hEe : E + 1075 = (ef : ℤ) := by rw [hE]; omega
    have hmq3 : (4503599627370496 : ℚ) ≤ m := by
      have : 4503599627370496 ≤ m := by omega
      exact_mod_cast this
    have hfl_lt : fl < E + 53 := by
      have : (2 : ℚ) ^ fl < (2 : ℚ) ^ (E + 52 + 1) := by
        rw [zpow_add53]; exact lt_of_le_of_lt hspec.1 hq_up
      rw [zpow_lt_zpow_iff_right₀ (by norm_num)] at this
      omega
    have hq_lo51 : (2 : ℚ) ^ (E + 51) ≤ q := by
      rw [zpow_add51, hqρ]
      apply mul_le_mul_of_nonneg_right _ hu.le
      linarith [hc2.1]
    have hfl_ge : E + 51 ≤ fl := by
      have : (2 : ℚ) ^ (E + 51) < (2 : ℚ) ^ (fl + 1) := lt_of_le_of_lt hq_lo51 hspec.2
      rw [zpow_lt_zpow_iff_right₀ (by norm_num)] at this
      omega
    by_cases hbig : (4503599627370496 : ℚ) ≤ ρ
    · -- same binade
      have hfl_eq : fl = E + 52 := by
        have : (2 : ℚ) ^ (E + 52) < (2 : ℚ) ^ (fl + 1) := by
          apply lt_of_le_of_lt _ hspec.2
          rw [zpow_add52, hqρ]
          exact mul_le_mul_of_nonneg_right hbig hu.le
        rw [zpow_lt_zpow_iff_right₀ (by norm_num)] at this
        omega
      apply generic
      · rw [hfl_eq]; omega
      · by_cases hm52 : 4503599627370496 < m
        · have hc' : c = 1 / 2 := by rw [hc]; simp [hm52]
          rw [hc'] at hlo; exact hlo
        · have hm52' : m = 4503599627370496 := by omega
          left
          rw [hm52']
          push_cast
          linarith
    · -- below the binade: the mantissa is `2 ^ 52`
      have hρlt : ρ < 4503599627370496 := not_le.mp hbig
      have hm52 : m = 4503599627370496 := by
        have : (m : ℚ) < 4503599627370496 + 1 := by linarith [hc2.1]
        have : m < 4503599627370496 + 1 := by exact_mod_cast this
        omega
      have hfr0 : fr = 0 := by omega
      have hfl_eq : fl = E + 51 := by
        have : (2 : ℚ) ^ fl < (2 : ℚ) ^ (E + 52) := by
          apply lt_of_le_of_lt hspec.1
          rw [zpow_add52, hqρ]
          exact mul_lt_mul_of_pos_right hρlt hu
        rw [zpow_lt_zpow_iff_right₀ (by norm_num)] at this
        omega
      by_cases h1 : ef ≤ 1
      · have hc' : c = 1 / 2 := by rw [hc]; simp [h1]
        apply generic
        · rw [hfl_eq]; omega
        · rw [hc'] at hlo; exact hlo
      · have hc' : c = 1 / 4 := by
          rw [hc]
          have : ¬ (4503599627370496 < m ∨ ef ≤ 1) := by omega
          simp [this]
        have he : max (fl - 52) (-1074) = E - 1 := by rw [hfl_eq]; omega
        have hsc2 : (num : ℚ) / den / (2 : ℚ) ^ (E - 1) = 2 * ρ := by
          rw [hq, zpow_sub1, ← hρ]
          field_simp
          ring
        have hr : roundScaled num den (E - 1) = 9007199254740992 := by
          apply roundScaled_eq num den (E - 1) 9007199254740992 hden
          · rw [hsc2]
            rw [hc', hm52] at hlo
            rcases hlo with h | ⟨_, h⟩
            · left; push_cast at h ⊢; linarith
            · right
              refine ⟨by norm_num, ?_⟩
              push_cast at h ⊢; linarith
          · rw [hsc2]
            left; push_cast; linarith
        rw [floatBits_of neg num den (E - 1) 9007199254740992 hnum0 (by rw [hfl]; exact he) hr]
        have : (9007199254740992 : ℕ) = 2 ^ 53 := by norm_num
        simp only [this, if_true]
        have e52 : (2 : ℕ) ^ 52 = 0 + 4503599627370496 := by norm_num
        rw [e52, hfr0]
        apply assemble_normal neg 0 ef _ hef
        omega

/-! ## Decimal digits -/

theorem decDigitsAux_eq : ∀ (fuel n : Nat) (acc : List Nat), n ≤ fuel →
    decDigitsAux fuel n acc = (Nat.digits 10 n).reverse ++ acc := by
  intro fuel
  induction fuel with
  | zero =>
    intro n acc h
    have : n = 0 := by omega
    subst this
    simp [decDigitsAux]
  | succ fuel ih =>
    intro n acc h
    by_cases hn : n = 0
    · subst hn
      simp [decDigitsAux]
    · simp only [decDigitsAux, hn, if_false]
      rw [ih (n / 10) _ (by omega)]
      have hpos : 0 < n := by omega
      rw [Nat.digits_def' (by norm_num) hpos]
      simp

theorem decDigits_eq (n : Nat) : decDigits n = (Nat.digits 10 n).reverse :=
  (decDigitsAux_eq n n [] (le_refl n)).trans (by simp)

theorem foldl_digits (ds : List Nat) (a : Nat) :
    ds.foldl (fun a d => a * 10 + d) a = a * 10 ^ ds.length + digitsValue ds := by
  unfold digitsValue
  induction ds generalizing a with
  | nil => simp
  | cons d ds ih =>
    simp only [List.foldl_cons, List.length_cons]
    rw [ih (a * 10 + d), ih (0 * 10 + d)]
    ring

theorem digitsValue_append (xs ys : List Nat) :
    digitsValue (xs ++ ys) = digitsValue xs * 10 ^ ys.length + digitsValue ys := by
  unfold digitsValue
  rw [List.foldl_append, foldl_digits]
  rfl

theorem digitsValue_reverse_digits (n : Nat) : digitsValue (Nat.digits 10 n).reverse = n := by
  induction n using Nat.strong_induction_on with
  | _ n ih =>
    by_cases hn : n = 0
    · subst hn
      simp [digitsValue]
    · have hpos : 0 < n := by omega
      rw [Nat.digits_def' (by norm_num) hpos, List.reverse_cons, digitsValue_append,
        ih (n / 10) (by omega)]
      simp [digitsValue]
      omega

theorem digitsValue_decDigits (n : Nat) : digitsValue (decDigits n) = n := by
  rw [decDigits_eq, digitsValue_reverse_digits]

theorem decDigits_lt (n : Nat) : ∀ d ∈ decDigits n, d < 10 := by
  intro d hd
  rw [decDigits_eq, List.mem_reverse] at hd
  exact Nat.digits_lt_base (by norm_num) hd

theorem decDigits_ne_nil (n : Nat) (h : 0 < n) : decDigits n ≠ [] := by
  rw [decDigits_eq]
  intro h2
  rw [List.reverse_eq_nil_iff, Nat.digits_eq_nil_iff_eq_zero] at h2
  omega

theorem decDigits_head (n : Nat) (h : 0 < n) : (decDigits n).head? ≠ some 0 := by
  rw [decDigits_eq, List.head?_reverse]
  have hne : Nat.digits 10 n ≠ [] := by
    rw [Ne, Nat.digits_eq_nil_iff_eq_zero]; omega
  rw [List.getLast?_eq_getLast _ hne]
  intro h2
  have := Nat.getLast_digit_ne_zero 10 (by omega : n ≠ 0)
  exact this (Option.some.inj h2)

theorem decDigits_length_bounds (n : Nat) (h : 0 < n) :
    10 ^ ((decDigits n).length - 1) ≤ n ∧ n < 10 ^ (decDigits n).length := by
  rw [decDigits_eq, List.length_reverse]
  constructor
  · have := Nat.base_pow_length_digits_le 10 n (by norm_num) (by omega)
    have hl : 0 < (Nat.digits 10 n).length := by
      rw [List.length_pos]
      rw [Ne, Nat.digits_eq_nil_iff_eq_zero]; omega
    have e : (Nat.digits 10 n).length = ((Nat.digits 10 n).length - 1) + 1 := by omega
    rw [e, pow_succ] at this
    omega
  · exact Nat.lt_base_pow_length_digits (by norm_num)

/-! ## The shortest decimal lies in the rounding interval -/

theorem shortestAux_mem (x lo hi : Nat) (incl : Bool) (hlo : lo < x) (hhi : x < hi) :
    ∀ p : Nat,
      (lo < shortestAux x lo hi incl p ∨ (incl = true ∧ shortestAux x lo hi incl p = lo)) ∧
      (shortestAux x lo hi incl p < hi ∨ (incl = true ∧ shortestAux x lo hi incl p = hi)) := by
  intro p
  induction p with
  | zero => exact ⟨Or.inl hlo, Or.inl hhi⟩
  | succ p ih =>
    have hw : 0 < 10 ^ (p + 1) := by positivity
    have hdown : x / 10 ^ (p + 1) * 10 ^ (p + 1) ≤ x := Nat.div_mul_le_self x _
    have hup : x < x / 10 ^ (p + 1) * 10 ^ (p + 1) + 10 ^ (p + 1) := by
      have h1 := Nat.div_add_mod' x (10 ^ (p + 1))
      have h2 := Nat.mod_lt x hw
      omega
    simp only [shortestAux]
    generalize 10 ^ (p + 1) = w at *
    generalize x / w * w = down at *
    split_ifs with h1 h2 h3 h4
    · exact ⟨Or.inl (by omega), h1.2⟩
    · exact ⟨h1.1, Or.inl (by omega)⟩
    · exact ⟨h3, Or.inl (by omega)⟩
    · exact ⟨Or.inl (by omega), h4⟩
    · exact ih

/-! ## The decimal produced by `shortestDecimal` -/

theorem pow_toNat_div_base (b : ℚ) (e : Int) :
    (b ^ e.toNat) / b ^ (-e).toNat = b ^ e := by
  rcases le_total 0 e with h | h
  · have h1 : (-e).toNat = 0 := by omega
    rw [h1, pow_zero, div_one]
    conv_rhs => rw [← Int.toNat_of_nonneg h]
    rw [zpow_natCast]
  · have h1 : e.toNat = 0 := by omega
    rw [h1, pow_zero, one_div]
    have h2 : e = -((-e).toNat : ℤ) := by omega
    conv_rhs => rw [h2]
    rw [zpow_neg, zpow_natCast]

/-- The common scale of `shortestDecimal`: `2 ^ t` as an integer over a power of ten. -/
theorem scale_quot (t : Int) :
    ((2 ^ t.toNat * 5 ^ (-t).toNat : Nat) : ℚ) / (10 : ℚ) ^ (-t).toNat = (2 : ℚ) ^ t := by
  rw [← pow_toNat_div_base 2 t]
  have h10 : (10 : ℚ) ^ (-t).toNat = 2 ^ (-t).toNat * 5 ^ (-t).toNat := by
    rw [← mul_pow]; norm_num
  rw [h10]
  push_cast
  field_simp
  ring

theorem trimZeros_spec (l : List Nat) :
    ∃ z, l = trimZeros l ++ List.replicate z 0 := by
  refine ⟨(l.reverse.takeWhile (fun d => d == 0)).length, ?_⟩
  have h := List.takeWhile_append_dropWhile (fun d => d == 0) l.reverse
  have hrep : l.reverse.takeWhile (fun d => d == 0) =
      List.replicate (l.reverse.takeWhile (fun d => d == 0)).length 0 := by
    rw [List.eq_replicate_iff]
    refine ⟨rfl, ?_⟩
    intro b hb
    have := List.mem_takeWhile_imp hb
    simpa using this
  have h2 : l = (l.reverse.dropWhile (fun d => d == 0)).reverse ++
      (l.reverse.takeWhile (fun d => d == 0)).reverse := by
    rw [← List.reverse_append, h, List.reverse_reverse]
  rw [hrep, List.reverse_replicate] at h2
  exact h2

theorem digitsValue_replicate_zero (z : Nat) : digitsValue (List.replicate z 0) = 0 := by
  induction z with
  | zero => rfl
  | succ z ih =>
    rw [List.replicate_succ', digitsValue_append, ih]
    simp [digitsValue]

/-- Trimming the trailing zeros of the digits of a positive number. -/
theorem trimZeros_decDigits (n : Nat) (h : 0 < n) :
    ∃ z, (decDigits n).length = (trimZeros (decDigits n)).length + z ∧
      n = digitsValue (trimZeros (decDigits n)) * 10 ^ z ∧
      trimZeros (decDigits n) ≠ [] ∧
      (∀ d ∈ trimZeros (decDigits n), d < 10) ∧
      (trimZeros (decDigits n)).head? ≠ some 0 := by
  obtain ⟨z, hz⟩ := trimZeros_spec (decDigits n)
  have hv : n = digitsValue (trimZeros (decDigits n)) * 10 ^ z := by
    have := digitsValue_decDigits n
    rw [hz, digitsValue_append, digitsValue_replicate_zero, List.length_replicate] at this
    omega
  have hne : trimZeros (decDigits n) ≠ [] := by
    intro h0
    rw [h0] at hv
    simp [digitsValue] at hv
    omega
  refine ⟨z, ?_, hv, hne, ?_, ?_⟩
  · conv_lhs => rw [hz]
    simp
  · intro d hd
    apply decDigits_lt n
    rw [hz]
    exact List.mem_append_left _ hd
  · have hh := decDigits_head n h
    rw [hz] at hh
    cases ht : trimZeros (decDigits n) with
    | nil => exact absurd ht hne
    | cons a l =>
      rw [ht] at hh
      simpa using hh

theorem two_pow_1076_lt : (2 : ℕ) ^ 1076 < 10 ^ 400 := by norm_num

set_option exponentiation.threshold 1100 in
/-- Bounds on the decimal point position from bounds on the number. -/
theorem dp_bounds (n k s len : Nat) (hk : k ≤ 1076) (hs1 : 5 ^ k ≤ s)
    (hs2 : s ≤ 2 ^ 969 * 10 ^ k) (hn1 : s ≤ n) (hn2 : n ≤ 2 ^ 56 * s)
    (hl1 : 10 ^ (len - 1) ≤ n) (hl2 : n < 10 ^ len) :
    -900 < (len : ℤ) - k ∧ (len : ℤ) - k < 1000 := by
  constructor
  · by_contra hcon
    have h1 : len + 900 ≤ k := by omega
    -- 10 ^ len > n ≥ 5 ^ k, so 10 ^ len * 2 ^ k > 10 ^ k
    have h2 : 5 ^ k < 10 ^ len := lt_of_le_of_lt (le_trans hs1 hn1) hl2
    have h3 : (10 : ℕ) ^ k = 5 ^ k * 2 ^ k := by rw [← mul_pow]; norm_num
    have h4 : (10 : ℕ) ^ k = 10 ^ len * 10 ^ (k - len) := by
      rw [← pow_add]; congr 1; omega
    have h5 : (2 : ℕ) ^ k ≤ 2 ^ 1076 := Nat.pow_le_pow_right (by norm_num) hk
    have h6 : (10 : ℕ) ^ 400 ≤ 10 ^ (k - len) := Nat.pow_le_pow_right (by norm_num) (by omega)
    have h7 : 5 ^ k * 2 ^ k < 10 ^ len * 10 ^ (k - len) := by
      calc 5 ^ k * 2 ^ k ≤ 5 ^ k * 2 ^ 1076 := Nat.mul_le_mul_left _ h5
        _ < 10 ^ len * 2 ^ 1076 := Nat.mul_lt_mul_of_pos_right h2 (by positivity)
        _ ≤ 10 ^ len * 10 ^ 400 := Nat.mul_le_mul_left _ two_pow_1076_lt.le
        _ ≤ 10 ^ len * 10 ^ (k - len) := Nat.mul_le_mul_left _ h6
    omega
  · by_contra hcon
    have h1 : k + 1000 ≤ len := by omega
    have h2 : (10 : ℕ) ^ (k + 999) ≤ 10 ^ (len - 1) :=
      Nat.pow_le_pow_right (by norm_num) (by omega)
    have h3 : n ≤ 2 ^ 56 * (2 ^ 969 * 10 ^ k) := le_trans hn2 (Nat.mul_le_mul_left _ hs2)
    have h4 : (2 : ℕ) ^ 56 * 2 ^ 969 < 10 ^ 999 := by norm_num
    have h5 : 2 ^ 56 * (2 ^ 969 * 10 ^ k) < 10 ^ (k + 999) := by
      rw [pow_add, ← Nat.mul_assoc, Nat.mul_comm (10 ^ k) (10 ^ 999)]
      exact Nat.mul_lt_mul_of_pos_right h4 (by positivity)
    omega

set_option exponentiation.threshold 1100 in
/-- The decimal produced by `shortestDecimal` for a positive mantissa: its digits are
decimal digits with a non-zero leading one, its exponent is small, and its value lies in
the rounding interval of the binary64 (bounds included when the mantissa is even). -/
theorem shortestDecimal_spec (ef fr m : Nat) (hef : ef < 2047) (hfr : fr < 4503599627370496)
    (hm : m = if ef = 0 then fr else fr + 4503599627370496) (hpos : 0 < m)
    (E : Int) (hE : E = ((max ef 1 : Nat) : Int) - 1075)
    (c : ℚ) (hc : c = if 4503599627370496 < m ∨ ef ≤ 1 then 1 / 2 else 1 / 4) :
    ∃ (ds : List Nat) (dp : Int), shortestDecimal m ef = ⟨ds, dp⟩ ∧
      ds ≠ [] ∧ (∀ d ∈ ds, d < 10) ∧ ds.head? ≠ some 0 ∧ -900 < dp ∧ dp < 1000 ∧
      0 < digitsValue ds ∧
      (((m : ℚ) - c) * (2 : ℚ) ^ E < digitsValue ds * (10 : ℚ) ^ (dp - ds.length) ∨
        (m % 2 = 0 ∧ (digitsValue ds : ℚ) * (10 : ℚ) ^ (dp - ds.length) =
          ((m : ℚ) - c) * (2 : ℚ) ^ E)) ∧
      ((digitsValue ds : ℚ) * (10 : ℚ) ^ (dp - ds.length) < ((m : ℚ) + 1 / 2) * (2 : ℚ) ^ E ∨
        (m % 2 = 0 ∧ (digitsValue ds : ℚ) * (10 : ℚ) ^ (dp - ds.length) =
          ((m : ℚ) + 1 / 2) * (2 : ℚ) ^ E)) := by
  have hm0 : m ≠ 0 := by omega
  have hmlt : m < 9007199254740992 := by rw [hm]; split <;> omega
  simp only [shortestDecimal, hm0, if_false]
  generalize ht : (((max ef 1 : Nat) : Int) - 1077) = t
  have htE : t = E - 2 := by rw [hE, ← ht]; ring
  have hk : (-t).toNat ≤ 1076 := by omega
  have ht969 : t.toNat ≤ 969 := by omega
  generalize hk' : (-t).toNat = k at hk
  have hsq := scale_quot t
  rw [hk'] at hsq
  generalize hs : 2 ^ t.toNat * 5 ^ k = s at hsq
  have hspos : 0 < s := by rw [← hs]; positivity
  have hs1 : 5 ^ k ≤ s := by
    rw [← hs]
    exact Nat.le_mul_of_pos_left _ (by positivity)
  have hs2 : s ≤ 2 ^ 969 * 10 ^ k := by
    rw [← hs]
    apply Nat.mul_le_mul
    · exact Nat.pow_le_pow_right (by norm_num) ht969
    · exact Nat.pow_le_pow_left (by norm_num) k
  generalize hlo4 : (if 4503599627370496 < m ∨ ef ≤ 1 then 4 * m - 2 else 4 * m - 1) = lo4
  have hlo4a : 2 ≤ lo4 ∧ lo4 < 4 * m := by rw [← hlo4]; split <;> omega
  have hlo4q : (lo4 : ℚ) = 4 * ((m : ℚ) - c) := by
    rw [← hlo4, hc]
    split
    · have : ((4 * m - 2 : ℕ) : ℚ) = 4 * (m : ℚ) - 2 := by
        rw [Nat.cast_sub (by omega)]; push_cast; ring
      rw [this]; ring
    · have : ((4 * m - 1 : ℕ) : ℚ) = 4 * (m : ℚ) - 1 := by
        rw [Nat.cast_sub (by omega)]; push_cast; ring
      rw [this]; ring
  have hxlo : lo4 * s < 4 * m * s := Nat.mul_lt_mul_of_pos_right hlo4a.2 hspos
  have hxhi : 4 * m * s < (4 * m + 2) * s := Nat.mul_lt_mul_of_pos_right (by omega) hspos
  obtain ⟨hmem1, hmem2⟩ := shortestAux_mem (4 * m * s) (lo4 * s) ((4 * m + 2) * s)
    (decide (m % 2 = 0)) hxlo hxhi (decDigits ((4 * m + 2) * s)).length
  generalize hn : shortestAux (4 * m * s) (lo4 * s) ((4 * m + 2) * s) (decide (m % 2 = 0))
    (decDigits ((4 * m + 2) * s)).length = n at hmem1 hmem2
  have hnlo : lo4 * s ≤ n := by rcases hmem1 with h | ⟨_, h⟩ <;> omega
  have hnhi : n ≤ (4 * m + 2) * s := by rcases hmem2 with h | ⟨_, h⟩ <;> omega
  have hnpos : 0 < n := by
    have : 0 < lo4 * s := Nat.mul_pos (by omega) hspos
    omega
  obtain ⟨z, hz1, hz2, hz3, hz4, hz5⟩ := trimZeros_decDigits n hnpos
  obtain ⟨hb1, hb2⟩ := decDigits_length_bounds n hnpos
  have hdp := dp_bounds n k s (decDigits n).length hk hs1 hs2
    (le_trans (Nat.le_mul_of_pos_left _ (by omega)) hnlo)
    (le_trans hnhi (Nat.mul_le_mul_right _ (by omega))) hb1 hb2
  refine ⟨_, _, rfl, hz3, hz4, hz5, hdp.1, hdp.2, ?_, ?_, ?_⟩
  · rcases Nat.eq_zero_or_pos (digitsValue (trimZeros (decDigits n))) with h0 | h0
    · rw [h0] at hz2; omega
    · exact h0
  · -- lower bound
    have hk10 : (0 : ℚ) < (10 : ℚ) ^ k := by positivity
    have hval : (digitsValue (trimZeros (decDigits n)) : ℚ) *
        (10 : ℚ) ^ (((decDigits n).length : ℤ) - k - (trimZeros (decDigits n)).length) =
        (n : ℚ) / (10 : ℚ) ^ k := by
      have e1 : ((decDigits n).length : ℤ) - k - (trimZeros (decDigits n)).length =
          (z : ℤ) - k := by rw [hz1]; push_cast; ring
      rw [e1, zpow_sub₀ (by norm_num : (10 : ℚ) ≠ 0), zpow_natCast, zpow_natCast]
      conv_rhs => rw [hz2]
      push_cast
      ring
    have hloq : ((lo4 * s : ℕ) : ℚ) / (10 : ℚ) ^ k = ((m : ℚ) - c) * (2 : ℚ) ^ E := by
      push_cast
      rw [mul_div_assoc, hsq, hlo4q, htE, zpow_sub₀ (by norm_num : (2 : ℚ) ≠ 0)]
      norm_num
      ring
    rw [hval, ← hloq]
    rcases hmem1 with h | ⟨h1, h2⟩
    · left
      apply div_lt_div_of_pos_right _ hk10
      exact_mod_cast h
    · right
      refine ⟨by simpa using h1, ?_⟩
      rw [h2]
  · -- upper bound
    have hk10 : (0 : ℚ) < (10 : ℚ) ^ k := by positivity
    have hval : (digitsValue (trimZeros (decDigits n)) : ℚ) *
        (10 : ℚ) ^ (((decDigits n).length : ℤ) - k - (trimZeros (decDigits n)).length) =
        (n : ℚ) / (10 : ℚ) ^ k := by
      have e1 : ((decDigits n).length : ℤ) - k - (trimZeros (decDigits n)).length =
          (z : ℤ) - k := by rw [hz1]; push_cast; ring
      rw [e1, zpow_sub₀ (by norm_num : (10 : ℚ) ≠ 0), zpow_natCast, zpow_natCast]
      conv_rhs => rw [hz2]
      push_cast
      ring
    have hhiq : (((4 * m + 2) * s : ℕ) : ℚ) / (10 : ℚ) ^ k =
        ((m : ℚ) + 1 / 2) * (2 : ℚ) ^ E := by
      push_cast
      rw [mul_div_assoc, hsq, htE, zpow_sub₀ (by norm_num : (2 : ℚ) ≠ 0)]
      norm_num
      ring
    rw [hval, ← hhiq]
    rcases hmem2 with h | ⟨h1, h2⟩
    · left
      apply div_lt_div_of_pos_right _ hk10
      exact_mod_cast h
    · right
      refine ⟨by simpa using h1, ?_⟩
      rw [h2]

/-! ## Reading back the characters written by `FormatFloat` -/

theorem decVal_digitChar (d : Nat) (h : d < 10) : decVal (digitChar d) = some d := by
  interval_cases d <;> rfl

theorem digitChar_ne (d : Nat) (h : d < 10) (c : Char) (hc : decVal c = none) :
    digitChar d ≠ c := by
  intro e
  rw [← e, decVal_digitChar d h] at hc
  cases hc

theorem digitChar_eq_zero (d : Nat) (h : d < 10) : digitChar d = '0' ↔ d = 0 := by
  interval_cases d <;> decide

theorem digitChar_zero : digitChar 0 = '0' := rfl

theorem special_digit (d : Nat) (h : d < 10) (rest : List Char) :
    special (digitChar d :: rest) = none := by
  interval_cases d <;> rfl

theorem special_minus_digit (d : Nat) (h : d < 10) (rest : List Char) :
    special ('-' :: digitChar d :: rest) = none := by
  interval_cases d <;> rfl

theorem isHexLiteral_digit (d : Nat) (h : d < 10) (h0 : d ≠ 0) (rest : List Char) :
    isHexLiteral (digitChar d :: rest) = false := by
  interval_cases d <;> first | rfl | exact absurd rfl h0

theorem isHexLiteral_zero_dot (rest : List Char) :
    isHexLiteral ('0' :: '.' :: rest) = false := by
  cases rest <;> simp [isHexLiteral]

/-- The mantissa loop on a decimal digit that is not a skipped leading zero. -/
theorem readMantissa_digit (d : Nat) (h : d < 10) (rest : List Char) (st : MantState)
    (hstart : 0 < st.nd ∨ d ≠ 0) :
    readMantissa false (digitChar d :: rest) st =
      readMantissa false rest { st with sawdigits := true, nd := st.nd + 1,
                                        mantissa := st.mantissa * 10 + d } := by
  have h1 : digitChar d ≠ '_' := digitChar_ne d h _ (by decide)
  have h2 : digitChar d ≠ '.' := digitChar_ne d h _ (by decide)
  have h3 : ¬ (digitChar d = '0' ∧ st.nd = 0) := by
    rw [digitChar_eq_zero d h]
    omega
  simp only [readMantissa, h1, h2, if_false, decVal_digitChar d h, h3]
  rfl

/-- The mantissa loop on a leading zero. -/
theorem readMantissa_leading_zero (rest : List Char) (st : MantState) (h : st.nd = 0) :
    readMantissa false ('0' :: rest) st =
      readMantissa false rest { st with sawdigits := true, dp := st.dp - 1 } := by
  have h1 : ('0' : Char) ≠ '_' := by decide
  have h2 : ('0' : Char) ≠ '.' := by decide
  have h4 : decVal '0' = some 0 := rfl
  simp only [readMantissa, h1, h2, if_false, h4, h, and_self, if_true]

theorem readMantissa_dot (rest : List Char) (st : MantState) (h : st.sawdot = false) :
    readMantissa false ('.' :: rest) st =
      readMantissa false rest { st with sawdot := true, dp := st.nd } := by
  have h1 : ('.' : Char) ≠ '_' := by decide
  simp [readMantissa, h1, h]

theorem readMantissa_nil (st : MantState) : readMantissa false [] st = (st, []) := rfl

theorem readMantissa_e (rest : List Char) (st : MantState) :
    readMantissa false ('e' :: rest) st = (st, 'e' :: rest) := by
  have h1 : ('e' : Char) ≠ '_' := by decide
  have h2 : ('e' : Char) ≠ '.' := by decide
  have h4 : decVal 'e' = none := rfl
  simp [readMantissa, h1, h2, h4]

theorem digitsValue_cons (d : Nat) (ds : List Nat) :
    digitsValue (d :: ds) = d * 10 ^ ds.length + digitsValue ds := by
  have := digitsValue_append [d] ds
  simpa [digitsValue] using this

/-- The mantissa loop on a run of decimal digits that does not start with a skipped
leading zero. -/
theorem readMantissa_digits (ds : List Nat) (d : Nat) (rest : List Char) (st : MantState)
    (hds : ∀ x ∈ d :: ds, x < 10) (hstart : 0 < st.nd ∨ d ≠ 0) :
    readMantissa false ((d :: ds).map digitChar ++ rest) st =
      readMantissa false rest
        { st with sawdigits := true
                  nd := st.nd + (d :: ds).length
                  mantissa := st.mantissa * 10 ^ (d :: ds).length + digitsValue (d :: ds) } := by
  induction ds generalizing d st with
  | nil =>
    simp only [List.map_cons, List.map_nil, List.cons_append, List.nil_append]
    rw [readMantissa_digit d (hds d (List.mem_cons_self _ _)) rest st hstart]
    simp [digitsValue]
  | cons d2 ds ih =>
    have hd : d < 10 := hds d (List.mem_cons_self _ _)
    have hds2 : ∀ x ∈ d2 :: ds, x < 10 := fun x hx => hds x (List.mem_cons_of_mem _ hx)
    rw [List.map_cons, List.cons_append, readMantissa_digit d hd _ st hstart]
    rw [ih d2 _ hds2 (Or.inl (by simp))]
    congr 1
    rw [digitsValue_cons d (d2 :: ds)]
    simp only [List.length_cons, MantState.mk.injEq, and_true, true_and]
    constructor
    · ring
    · omega

/-- The mantissa loop on a run of leading zeros. -/
theorem readMantissa_zeros (z : Nat) (rest : List Char) (st : MantState) (h : st.nd = 0)
    (hs : st.sawdigits = true) :
    readMantissa false (List.replicate z '0' ++ rest) st =
      readMantissa false rest { st with dp := st.dp - z } := by
  induction z generalizing st with
  | zero => simp
  | succ z ih =>
    obtain ⟨m, nd, dp, sd, sdg, us⟩ := st
    simp only at h hs
    subst h
    subst hs
    rw [List.replicate_succ, List.cons_append, readMantissa_leading_zero _ _ rfl]
    rw [ih _ rfl rfl]
    congr 1
    simp only [MantState.mk.injEq, and_true, true_and]
    push_cast
    ring

theorem readExpDigits_digit (d : Nat) (h : d < 10) (rest : List Char) (e : Nat) (u : Bool)
    (he : e < 10000) :
    readExpDigits (digitChar d :: rest) e u = readExpDigits rest (e * 10 + d) u := by
  have h1 : digitChar d ≠ '_' := digitChar_ne d h _ (by decide)
  simp [readExpDigits, h1, decVal_digitChar d h, he]

/-- The exponent digits written by `fmtE` read back as the exponent. -/
theorem readExpDigits_fmt (a : Nat) (ha : a < 1000) (u : Bool) :
    readExpDigits
      (if a < 10 then [digitChar 0, digitChar a]
       else if a < 100 then [digitChar (a / 10), digitChar (a % 10)]
       else [digitChar (a / 100), digitChar (a / 10 % 10), digitChar (a % 10)]) 0 u =
      (a, u, []) := by
  split_ifs with h1 h2
  · rw [readExpDigits_digit 0 (by omega) _ 0 u (by omega),
      readExpDigits_digit a h1 _ _ u (by omega)]
    simp [readExpDigits]
  · rw [readExpDigits_digit (a / 10) (by omega) _ 0 u (by omega),
      readExpDigits_digit (a % 10) (by omega) _ _ u (by omega)]
    simp only [readExpDigits]
    congr 1
    omega
  · rw [readExpDigits_digit (a / 100) (by omega) _ 0 u (by omega),
      readExpDigits_digit (a / 10 % 10) (by omega) _ _ u (by omega),
      readExpDigits_digit (a % 10) (by omega) _ _ u (by omega)]
    simp only [readExpDigits]
    congr 1
    omega

theorem expDigits_head (a : Nat) (ha : a < 1000) :
    ∃ c rest, (if a < 10 then [digitChar 0, digitChar a]
       else if a < 100 then [digitChar (a / 10), digitChar (a % 10)]
       else [digitChar (a / 100), digitChar (a / 10 % 10), digitChar (a % 10)]) = c :: rest ∧
      (decVal c).isNone = false := by
  split_ifs with h1 h2
  · exact ⟨_, _, rfl, by rw [decVal_digitChar 0 (by omega)]; rfl⟩
  · exact ⟨_, _, rfl, by rw [decVal_digitChar _ (by omega)]; rfl⟩
  · exact ⟨_, _, rfl, by rw [decVal_digitChar _ (by omega)]; rfl⟩

/-- The exponent part written by `fmtE` reads back as the exponent. -/
theorem readExponent_fmt (exp : Int) (h1 : -1000 < exp) (h2 : exp < 1000) :
    readExponent false
      (['e', if exp < 0 then '-' else '+'] ++
        (if exp.natAbs < 10 then [digitChar 0, digitChar exp.natAbs]
         else if exp.natAbs < 100 then [digitChar (exp.natAbs / 10), digitChar (exp.natAbs % 10)]
         else [digitChar (exp.natAbs / 100), digitChar (exp.natAbs / 10 % 10),
               digitChar (exp.natAbs % 10)])) false =
      some (exp, false, []) := by
  have ha : exp.natAbs < 1000 := by omega
  have habs : (exp.natAbs : ℤ) = if exp < 0 then -exp else exp := by
    split <;> omega
  generalize exp.natAbs = a at ha habs
  obtain ⟨c, rest, hcr, hc⟩ := expDigits_head a ha
  have hr := readExpDigits_fmt a ha false
  rw [hcr] at hr ⊢
  by_cases hneg : exp < 0
  · simp only [hneg, if_true] at habs
    simp only [hneg, if_true, List.cons_append, List.nil_append, readExponent]
    simp [hc, hr, habs]
  · simp only [hneg, if_false] at habs
    simp only [hneg, if_false, List.cons_append, List.nil_append, readExponent]
    simp [hc, hr, habs]

theorem readExponent_nil : readExponent false [] false = some (0, false, []) := rfl

/-- The result of `readNumber` from the result of its mantissa loop and exponent part, for a decimal
literal without underscores that ends the input. -/
theorem readNumber_of (s1 whole : List Char) (neg : Bool) (st : MantState) (rest : List Char)
    (de : Int) (hhex : isHexLiteral s1 = false)
    (hm : readMantissa false s1 {} = (st, rest)) (hsd : st.sawdigits = true)
    (hu : st.underscores = false)
    (hexp : readExponent false rest false = some (de, false, [])) :
    readNumber s1 whole neg = some ⟨neg, false, st.mantissa,
      if st.mantissa ≠ 0 then (if st.sawdot then st.dp else (st.nd : Int)) + de - st.nd
      else 0⟩ := by
  simp [readNumber, hhex, hm, hsd, hu, hexp]

theorem digitsValue_pos (d : Nat) (ds : List Nat) (h : d ≠ 0) : 0 < digitsValue (d :: ds) := by
  rw [digitsValue_cons]
  have : 0 < d * 10 ^ ds.length := Nat.mul_pos (by omega) (by positivity)
  omega

/-- The sign written by `fmtE` is a prefix of the unsigned text. -/
theorem fmtE_sign (neg : Bool) (d : Decimal) :
    fmtE neg d = (if neg then ['-'] else []) ++ fmtE false d := by
  cases neg <;> simp [fmtE]

theorem fmtF_sign (neg : Bool) (d : Decimal) :
    fmtF neg d = (if neg then ['-'] else []) ++ fmtF false d := by
  cases neg <;> simp [fmtF]

/-- The text written by `fmtE` starts with the leading digit. -/
theorem fmtE_head (d0 : Nat) (tl : List Nat) (dp : Int) :
    ∃ rest, fmtE false ⟨d0 :: tl, dp⟩ = digitChar d0 :: rest := by
  simp [fmtE]

/-- Reading back the text written by `fmtE` (exponent form). -/
theorem readNumber_fmtE (d0 : Nat) (tl : List Nat) (dp : Int) (whole : List Char)
    (neg : Bool) (hds : ∀ x ∈ d0 :: tl, x < 10) (h0 : d0 ≠ 0)
    (h1 : -1000 < dp - 1) (h2 : dp - 1 < 1000) :
    readNumber (fmtE false ⟨d0 :: tl, dp⟩) whole neg =
      some ⟨neg, false, digitsValue (d0 :: tl), dp - (d0 :: tl).length⟩ := by
  have hd0 : d0 < 10 := hds d0 (List.mem_cons_self _ _)
  have hV := digitsValue_pos d0 tl h0
  have hexp := readExponent_fmt (dp - 1) h1 h2
  generalize hX : (['e', if dp - 1 < 0 then '-' else '+'] ++
        (if (dp - 1).natAbs < 10 then [digitChar 0, digitChar (dp - 1).natAbs]
         else if (dp - 1).natAbs < 100 then
           [digitChar ((dp - 1).natAbs / 10), digitChar ((dp - 1).natAbs % 10)]
         else [digitChar ((dp - 1).natAbs / 100), digitChar ((dp - 1).natAbs / 10 % 10),
               digitChar ((dp - 1).natAbs % 10)])) = X at hexp
  have hXe : ∃ X', X = 'e' :: X' := by rw [← hX]; simp
  obtain ⟨X', hX'⟩ := hXe
  cases tl with
  | nil =>
    have hbody : fmtE false ⟨[d0], dp⟩ = digitChar d0 :: X := by
      rw [← hX]; simp [fmtE]
    rw [hbody]
    have hm : readMantissa false (digitChar d0 :: X) {} =
        ({ sawdigits := true, nd := 1, mantissa := d0 }, X) := by
      rw [readMantissa_digit d0 hd0 X {} (Or.inr h0), hX', readMantissa_e]
      simp
    rw [readNumber_of _ whole neg _ _ _ (isHexLiteral_digit d0 hd0 h0 _) hm rfl rfl hexp]
    simp [digitsValue]
    intro h; omega
  | cons t0 tl =>
    have hbody : fmtE false ⟨d0 :: t0 :: tl, dp⟩ =
        digitChar d0 :: '.' :: ((t0 :: tl).map digitChar ++ X) := by
      rw [← hX]; simp [fmtE]
    rw [hbody]
    have hds2 : ∀ x ∈ t0 :: tl, x < 10 := fun x hx => hds x (List.mem_cons_of_mem _ hx)
    have hm : readMantissa false (digitChar d0 :: '.' :: ((t0 :: tl).map digitChar ++ X)) {} =
        ({ sawdigits := true, sawdot := true, dp := 1, nd := 1 + (t0 :: tl).length,
           mantissa := d0 * 10 ^ (t0 :: tl).length + digitsValue (t0 :: tl) }, X) := by
      rw [readMantissa_digit d0 hd0 _ {} (Or.inr h0), readMantissa_dot _ _ rfl,
        readMantissa_digits tl t0 X _ hds2 (Or.inl (by simp)), hX', readMantissa_e]
      simp
    rw [readNumber_of _ whole neg _ _ _ (isHexLiteral_digit d0 hd0 h0 _) hm rfl rfl hexp]
    rw [digitsValue_cons d0 (t0 :: tl)] at hV ⊢
    have hne : d0 * 10 ^ (t0 :: tl).length + digitsValue (t0 :: tl) ≠ 0 := by omega
    simp only [hne, ne_eq, not_false_eq_true, if_true]
    congr 1
    simp only [List.length_cons, if_true]
    rw [ReadResult.mk.injEq]
    refine ⟨rfl, rfl, rfl, ?_⟩
    push_cast
    omega

/-- The fraction digits written by `fmtF`: zeros up to the first digit, then the digits
after the decimal point. -/
theorem fmtF_fraction (ds : List Nat) (dp : Int) (h : dp ≤ ds.length) :
    (List.range ((ds.length : Int) - dp).toNat).map (fun (i : Nat) =>
        let j : Int := dp + (i : Int)
        if 0 ≤ j ∧ j < (ds.length : Int) then digitChar (ds.getD j.toNat 0) else '0') =
      List.replicate (-dp).toNat '0' ++ (ds.drop dp.toNat).map digitChar := by
  apply List.ext_getElem?
  intro n
  rw [List.getElem?_map]
  by_cases hn : n < ((ds.length : Int) - dp).toNat
  · rw [List.getElem?_range hn]
    simp only [Option.map_some']
    by_cases hz : n < (-dp).toNat
    · rw [List.getElem?_append_left (by simpa using hz)]
      have : ¬ (0 ≤ dp + (n : Int) ∧ dp + (n : Int) < (ds.length : Int)) := by omega
      simp [this, hz]
    · rw [List.getElem?_append_right (by simpa using hz)]
      have hc : 0 ≤ dp + (n : Int) ∧ dp + (n : Int) < (ds.length : Int) := by omega
      simp only [hc, and_self, if_true, List.length_replicate, List.getElem?_map,
        List.getElem?_drop, List.getD_eq_getElem?_getD]
      have e : dp.toNat + (n - (-dp).toNat) = (dp + (n : Int)).toNat := by omega
      rw [e]
      have hlt : (dp + (n : Int)).toNat < ds.length := by omega
      rw [List.getElem?_eq_getElem hlt]
      rfl
  · have h1 : (List.range ((ds.length : Int) - dp).toNat)[n]? = none := by
      rw [List.getElem?_eq_none_iff]
      simpa using hn
    rw [h1]
    symm
    rw [Option.map_none', List.getElem?_eq_none_iff]
    simp only [List.length_append, List.length_replicate, List.length_map, List.length_drop]
    omega

/-- Reading back the text written by `fmtF` (positional form): the literal read has the
value of the decimal. -/
theorem readNumber_fmtF (d0 : Nat) (tl : List Nat) (dp : Int) (whole : List Char)
    (neg : Bool) (hds : ∀ x ∈ d0 :: tl, x < 10) (h0 : d0 ≠ 0) :
    ∃ (M : Nat) (e : Int),
      readNumber (fmtF false ⟨d0 :: tl, dp⟩) whole neg = some ⟨neg, false, M, e⟩ ∧
      M * 10 ^ e.toNat = digitsValue (d0 :: tl) * 10 ^ (dp - (d0 :: tl).length).toNat ∧
      10 ^ (-e).toNat = 10 ^ ((d0 :: tl).length - dp).toNat := by
  have hd0 : d0 < 10 := hds d0 (List.mem_cons_self _ _)
  have hV := digitsValue_pos d0 tl h0
  rcases le_or_lt dp 0 with hdp | hdp
  · -- `0.000ddd`
    have hprec : 0 < (((d0 :: tl).length : Int) - dp).toNat := by
      simp only [List.length_cons]; omega
    have hbody : fmtF false ⟨d0 :: tl, dp⟩ =
        '0' :: '.' :: (List.replicate (-dp).toNat '0' ++ ((d0 :: tl).map digitChar ++ [])) := by
      have hn : ¬ (0 < dp) := by omega
      simp only [fmtF, hn, if_false, hprec, if_true]
      rw [fmtF_fraction (d0 :: tl) dp (by simp only [List.length_cons]; omega)]
      have : dp.toNat = 0 := by omega
      simp [this]
    rw [hbody]
    have hm : readMantissa false
        ('0' :: '.' :: (List.replicate (-dp).toNat '0' ++ ((d0 :: tl).map digitChar ++ []))) {} =
        ({ sawdigits := true, sawdot := true, dp := dp, nd := (d0 :: tl).length,
           mantissa := digitsValue (d0 :: tl) }, []) := by
      rw [readMantissa_leading_zero _ _ rfl, readMantissa_dot _ _ rfl,
        readMantissa_zeros _ _ _ rfl rfl,
        readMantissa_digits tl d0 [] _ hds (Or.inr h0), readMantissa_nil]
      simp only [Prod.mk.injEq, MantState.mk.injEq, and_true, true_and]
      refine ⟨by simp, by simp, by omega⟩
    rw [readNumber_of _ whole neg _ _ _ (isHexLiteral_zero_dot _) hm rfl rfl readExponent_nil]
    have hne : digitsValue (d0 :: tl) ≠ 0 := by omega
    refine ⟨_, _, rfl, ?_, ?_⟩
    · simp only [hne, ne_eq, not_false_eq_true, if_true]
      congr 2
      simp only [List.length_cons]
      push_cast
      omega
    · simp only [hne, ne_eq, not_false_eq_true, if_true]
      congr 2
      simp only [List.length_cons]
      push_cast
      omega
  · rcases lt_or_le dp ((d0 :: tl).length : Int) with hlt | hge
    · -- `ddd.ddd`
      obtain ⟨p, hp⟩ : ∃ p : Nat, dp = (p : Int) + 1 := ⟨(dp - 1).toNat, by omega⟩
      subst hp
      have hpl : p < tl.length := by simp only [List.length_cons] at hlt; omega
      have hprec : 0 < (((d0 :: tl).length : Int) - ((p : Int) + 1)).toNat := by
        simp only [List.length_cons]; omega
      have htn : ((p : Int) + 1).toNat = p + 1 := by omega
      obtain ⟨t0, tl2, hdrop⟩ : ∃ t0 tl2, tl.drop p = t0 :: tl2 := by
        cases hd : tl.drop p with
        | nil =>
          have := congrArg List.length hd
          simp at this
          omega
        | cons a l => exact ⟨a, l, rfl⟩
      have hbody : fmtF false ⟨d0 :: tl, (p : Int) + 1⟩ =
          (d0 :: tl.take p).map digitChar ++
            ('.' :: ((t0 :: tl2).map digitChar ++ [])) := by
        simp only [fmtF, hdp, if_true, hprec]
        rw [fmtF_fraction (d0 :: tl) _ (by omega), htn]
        have hz : (-((p : Int) + 1)).toNat = 0 := by omega
        have hr : p + 1 - (d0 :: tl).length = 0 := by simp only [List.length_cons]; omega
        rw [hz, hr]
        simp [hdrop]
      rw [hbody]
      have hds1 : ∀ x ∈ d0 :: tl.take p, x < 10 := by
        intro x hx
        rcases List.mem_cons.mp hx with h | h
        · rw [h]; exact hd0
        · exact hds x (List.mem_cons_of_mem _ (List.mem_of_mem_take h))
      have hds2 : ∀ x ∈ t0 :: tl2, x < 10 := by
        intro x hx
        rw [← hdrop] at hx
        exact hds x (List.mem_cons_of_mem _ (List.mem_of_mem_drop hx))
      have hsplit : d0 :: tl = (d0 :: tl.take p) ++ (t0 :: tl2) := by
        rw [← hdrop, List.cons_append, List.take_append_drop]
      have hlen : (d0 :: tl).length = (d0 :: tl.take p).length + (t0 :: tl2).length := by
        conv_lhs => rw [hsplit]
        rw [List.length_append]
      have hval : digitsValue (d0 :: tl) =
          digitsValue (d0 :: tl.take p) * 10 ^ (t0 :: tl2).length + digitsValue (t0 :: tl2) := by
        conv_lhs => rw [hsplit]
        rw [digitsValue_append]
      have hlt1 : (d0 :: tl.take p).length = p + 1 := by
        simp only [List.length_cons, List.length_take]
        omega
      have hm : readMantissa false
          ((d0 :: tl.take p).map digitChar ++ ('.' :: ((t0 :: tl2).map digitChar ++ []))) {} =
          ({ sawdigits := true, sawdot := true, dp := (p : Int) + 1,
             nd := (d0 :: tl).length, mantissa := digitsValue (d0 :: tl) }, []) := by
        rw [readMantissa_digits _ d0 _ _ hds1 (Or.inr h0), readMantissa_dot _ _ rfl,
          readMantissa_digits tl2 t0 [] _ hds2 (Or.inl (by simp)), readMantissa_nil]
        simp only [Prod.mk.injEq, MantState.mk.injEq, and_true, true_and]
        refine ⟨?_, ?_, ?_⟩
        · rw [hval]; simp
        · rw [hlen]; simp
        · rw [hlt1]; simp
      have hhex : isHexLiteral ((d0 :: tl.take p).map digitChar ++
            ('.' :: ((t0 :: tl2).map digitChar ++ []))) = false := by
        rw [List.map_cons, List.cons_append]
        exact isHexLiteral_digit d0 hd0 h0 _
      rw [readNumber_of _ whole neg _ _ _ hhex hm rfl rfl readExponent_nil]
      have hne : digitsValue (d0 :: tl) ≠ 0 := by omega
      refine ⟨_, _, rfl, ?_, ?_⟩
      · simp only [hne, ne_eq, not_false_eq_true, if_true]
        congr 2
      · simp only [hne, ne_eq, not_false_eq_true, if_true]
        congr 2
        omega
    · -- `ddd000`
      obtain ⟨z, hz⟩ : ∃ z : Nat, dp = ((d0 :: tl).length : Int) + z :=
        ⟨(dp - (d0 :: tl).length).toNat, by omega⟩
      have hprec : ¬ 0 < (((d0 :: tl).length : Int) - dp).toNat := by omega
      have hbody : fmtF false ⟨d0 :: tl, dp⟩ =
          (d0 :: (tl ++ List.replicate z 0)).map digitChar ++ [] := by
        simp only [fmtF, hdp, if_true, hprec, if_false]
        have h1 : dp.toNat = (d0 :: tl).length + z := by omega
        have ht : (d0 :: tl).take ((d0 :: tl).length + z) = d0 :: tl :=
          List.take_of_length_le (by omega)
        have hz2 : (d0 :: tl).length + z - (d0 :: tl).length = z := by omega
        rw [h1, ht, hz2]
        simp [digitChar_zero]
      rw [hbody]
      have hds3 : ∀ x ∈ d0 :: (tl ++ List.replicate z 0), x < 10 := by
        intro x hx
        rcases List.mem_cons.mp hx with h | h
        · rw [h]; exact hd0
        · rcases List.mem_append.mp h with h | h
          · exact hds x (List.mem_cons_of_mem _ h)
          · rw [List.mem_replicate] at h
            omega
      have hval : digitsValue (d0 :: (tl ++ List.replicate z 0)) =
          digitsValue (d0 :: tl) * 10 ^ z := by
        rw [← List.cons_append, digitsValue_append, digitsValue_replicate_zero]
        simp
      have hm : readMantissa false ((d0 :: (tl ++ List.replicate z 0)).map digitChar ++ []) {} =
          ({ sawdigits := true, nd := (d0 :: tl).length + z,
             mantissa := digitsValue (d0 :: tl) * 10 ^ z }, []) := by
        rw [readMantissa_digits _ d0 [] _ hds3 (Or.inr h0), readMantissa_nil]
        simp only [Prod.mk.injEq, MantState.mk.injEq, and_true, true_and]
        refine ⟨?_, ?_⟩
        · rw [hval]; simp
        · simp; omega
      have hhex : isHexLiteral ((d0 :: (tl ++ List.replicate z 0)).map digitChar ++ []) =
          false := by
        rw [List.map_cons, List.cons_append]
        exact isHexLiteral_digit d0 hd0 h0 _
      rw [readNumber_of _ whole neg _ _ _ hhex hm rfl rfl readExponent_nil]
      have hne : digitsValue (d0 :: tl) * 10 ^ z ≠ 0 := by
        have : 0 < digitsValue (d0 :: tl) * 10 ^ z := Nat.mul_pos hV (by positivity)
        omega
      refine ⟨_, _, rfl, ?_, ?_⟩
      · simp only [hne, ne_eq, not_false_eq_true, if_true]
        have e1 : ((if false = true then (0 : Int) else ((d0 :: tl).length + z : Nat)) + 0 -
            ((d0 :: tl).length + z : Nat)).toNat = 0 := by simp
        have e2 : (dp - ((d0 :: tl).length : Int)).toNat = z := by omega
        rw [e2]
        simp
      · simp only [hne, ne_eq, not_false_eq_true, if_true]
        have e2 : (((d0 :: tl).length : Int) - dp).toNat = 0 := by omega
        rw [e2]
        simp

theorem fmtF_head (d0 : Nat) (tl : List Nat) (dp : Int) (hd0 : d0 < 10) :
    ∃ d rest, d < 10 ∧ fmtF false ⟨d0 :: tl, dp⟩ = digitChar d :: rest := by
  rcases le_or_lt dp 0 with hdp | hdp
  · have hn : ¬ (0 < dp) := by omega
    exact ⟨0, _, by omega, by simp only [fmtF, hn, if_false]; rfl⟩
  · obtain ⟨p, hp⟩ : ∃ p : Nat, dp.toNat = p + 1 := ⟨dp.toNat - 1, by omega⟩
    exact ⟨d0, _, hd0, by simp only [fmtF, hdp, if_true, hp]; rfl⟩

/-- A signed text whose unsigned part starts with a digit is not one of the special
strings, and `readFloat` reads it as the unsigned part with the sign. -/
theorem readFloat_signed (neg : Bool) (d : Nat) (hd : d < 10) (rest : List Char) :
    special ((if neg then ['-'] else []) ++ digitChar d :: rest) = none ∧
    readFloat ((if neg then ['-'] else []) ++ digitChar d :: rest) =
      readNumber (digitChar d :: rest) ((if neg then ['-'] else []) ++ digitChar d :: rest)
        neg := by
  cases neg
  · refine ⟨special_digit d hd rest, ?_⟩
    have h1 : digitChar d ≠ '+' := digitChar_ne d hd _ (by decide)
    have h2 : digitChar d ≠ '-' := digitChar_ne d hd _ (by decide)
    simp [readFloat, h1, h2]
  · refine ⟨special_minus_digit d hd rest, ?_⟩
    simp [readFloat]

/-- The text written for a decimal with a non-zero leading digit reads back as a decimal
literal of the same sign and value. -/
theorem readFloat_format (neg : Bool) (d0 : Nat) (tl : List Nat) (dp : Int)
    (hds : ∀ x ∈ d0 :: tl, x < 10) (h0 : d0 ≠ 0) (h1 : -900 < dp) (h2 : dp < 1000) :
    special (if dp - 1 < -4 ∨ 6 ≤ dp - 1 then fmtE neg ⟨d0 :: tl, dp⟩
      else fmtF neg ⟨d0 :: tl, dp⟩) = none ∧
    ∃ (M : Nat) (e : Int),
      readFloat (if dp - 1 < -4 ∨ 6 ≤ dp - 1 then fmtE neg ⟨d0 :: tl, dp⟩
        else fmtF neg ⟨d0 :: tl, dp⟩) = some ⟨neg, false, M, e⟩ ∧
      M * 10 ^ e.toNat = digitsValue (d0 :: tl) * 10 ^ (dp - (d0 :: tl).length).toNat ∧
      10 ^ (-e).toNat = 10 ^ ((d0 :: tl).length - dp).toNat := by
  have hd0 : d0 < 10 := hds d0 (List.mem_cons_self _ _)
  split_ifs with hc
  · obtain ⟨rest, hrest⟩ := fmtE_head d0 tl dp
    obtain ⟨hs, hr⟩ := readFloat_signed neg d0 hd0 rest
    rw [fmtE_sign, hrest]
    refine ⟨hs, digitsValue (d0 :: tl), dp - (d0 :: tl).length, ?_, rfl, ?_⟩
    · rw [hr, ← hrest]
      exact readNumber_fmtE d0 tl dp _ neg hds h0 (by omega) (by omega)
    · congr 1
      omega
  · obtain ⟨d, rest, hd, hrest⟩ := fmtF_head d0 tl dp hd0
    obtain ⟨hs, hr⟩ := readFloat_signed neg d hd rest
    rw [fmtF_sign, hrest]
    refine ⟨hs, ?_⟩
    obtain ⟨M, e, hM, hv1, hv2⟩ := readNumber_fmtF d0 tl dp
      ((if neg then ['-'] else []) ++ fmtF false ⟨d0 :: tl, dp⟩) neg hds h0
    refine ⟨M, e, ?_, hv1, hv2⟩
    rw [hr, ← hrest]
    exact hM

theorem mk3_eq (sign : Bool) (ef fr : Nat) (hef : ef < 2048) (hfr : fr < 4503599627370496) :
    Float64.mk3 sign ef fr = ⟨sign, ⟨ef, hef⟩, ⟨fr, hfr⟩⟩ := by
  simp only [Float64.mk3, Float64.mk.injEq, Fin.mk.injEq, true_and]
  exact ⟨Nat.mod_eq_of_lt hef, Nat.mod_eq_of_lt hfr⟩

/-- Round trip of the Go library pair used by the row codec: for every float64 that is
neither NaN nor zero, `ParseFloat (FormatFloat x)` succeeds and returns `x`. -/
theorem ParseFloat_FormatFloat (x : Float64) (hnan : x.isNaN = false)
    (hzero : x.isZero = false) : ParseFloat (FormatFloat x) = some x := by
  obtain ⟨sign, ⟨ef, hef⟩, ⟨fr, hfr⟩⟩ := x
  simp only [Float64.isNaN, Float64.isZero, Bool.and_eq_false_imp, beq_iff_eq, bne_eq_false_iff_eq]
    at hnan hzero
  by_cases hinf : ef = 2047
  · subst hinf
    have hfr0 : fr = 0 := hnan rfl
    subst hfr0
    cases sign <;> rfl
  · have hef' : ef < 2047 := by omega
    have hnz : ef ≠ 0 ∨ fr ≠ 0 := by
      by_cases h : ef = 0
      · right; intro h2; exact absurd (hzero h) (by simp [h2])
      · left; exact h
    generalize hm : (if ef = 0 then fr else fr + 4503599627370496) = m
    have hmpos : 0 < m := by
      rw [← hm]
      split <;> omega
    obtain ⟨ds, dp, hsd, hne, hlt, hhead, hdp1, hdp2, hVpos, hlo, hhi⟩ :=
      shortestDecimal_spec ef fr m hef' hfr hm.symm hmpos _ rfl _ rfl
    obtain ⟨d0, tl, rfl⟩ : ∃ d0 tl, ds = d0 :: tl := by
      cases ds with
      | nil => exact absurd rfl hne
      | cons a l => exact ⟨a, l, rfl⟩
    have h0 : d0 ≠ 0 := by
      intro h
      apply hhead
      simp [h]
    obtain ⟨hspec, M, e, hread, hv1, hv2⟩ := readFloat_format sign d0 tl dp hlt h0 hdp1 hdp2
    have hfmt : FormatFloat ⟨sign, ⟨ef, hef⟩, ⟨fr, hfr⟩⟩ =
        String.mk (if dp - 1 < -4 ∨ 6 ≤ dp - 1 then fmtE sign ⟨d0 :: tl, dp⟩
          else fmtF sign ⟨d0 :: tl, dp⟩) := by
      simp only [FormatFloat, hinf, if_false, hm, hsd]
    rw [hfmt]
    simp only [ParseFloat, String.toList, hspec, hread, Bool.false_eq_true, if_false]
    rw [hv1, hv2, ← mk3_eq sign ef fr hef hfr]
    have hq : ((digitsValue (d0 :: tl) * 10 ^ (dp - ((d0 :: tl).length : Int)).toNat : Nat) : ℚ) /
        ((10 ^ (((d0 :: tl).length : Int) - dp).toNat : Nat) : ℚ) =
        (digitsValue (d0 :: tl) : ℚ) * (10 : ℚ) ^ (dp - ((d0 :: tl).length : Int)) := by
      have e1 : ((d0 :: tl).length : Int) - dp = -(dp - ((d0 :: tl).length : Int)) := by ring
      rw [e1, ← pow_toNat_div_base 10 (dp - ((d0 :: tl).length : Int))]
      push_cast
      ring
    apply floatBits_eq sign _ _ ef fr (Nat.mul_pos hVpos (by positivity)) (by positivity)
      hef' hfr hnz m hm.symm _ rfl _ rfl
    · rw [hq]; exact hlo
    · rw [hq]; exact hhi

end strconv

/-! ## Row codec: facts about `getFloatValue`, `ParseFromRow` and `ToRow` -/

theorem ParseFloat_empty : strconv.ParseFloat "" = none := by decide

theorem getFloatValue_absent (row : List Cell) (j : Nat) (h : row[j]? = none) :
    getFloatValue row j = Float64.zero := by
  simp [getFloatValue, h]

theorem getFloatValue_null (row : List Cell) (j : Nat) (h : row[j]? = some Cell.null) :
    getFloatValue row j = Float64.zero := by
  simp [getFloatValue, h]

theorem getFloatValue_str (row : List Cell) (j : Nat) (s : String)
    (h : row[j]? = some (Cell.str s)) :
    getFloatValue row j = (strconv.ParseFloat s).getD Float64.zero := by
  simp only [getFloatValue, h, sprintV]
  by_cases hs : s = ""
  · subst hs
    simp [ParseFloat_empty]
  · simp only [hs, if_false]
    cases strconv.ParseFloat s <;> rfl

theorem getFloatValue_empty (row : List Cell) (j : Nat) (h : row[j]? = some (Cell.str "")) :
    getFloatValue row j = Float64.zero := by
  rw [getFloatValue_str row j "" h, ParseFloat_empty]
  rfl

theorem floatToInterface_zero (v : Float64) (h : v.isZero = true) :
    floatToInterface v = Cell.str "" := by
  simp [floatToInterface, h]

theorem floatToInterface_nonzero (v : Float64) (h : v.isZero = false) :
    floatToInterface v = Cell.num v := by
  simp [floatToInterface, h]

theorem floatToInterface_eq_empty_iff (v : Float64) :
    floatToInterface v = Cell.str "" ↔ v.isZero = true := by
  cases h : v.isZero
  · simp [floatToInterface, h]
  · simp [floatToInterface, h]

theorem isZero_zero : Float64.zero.isZero = true := by decide

theorem ParseFromRow_ok (row : List Cell) (h : 5 ≤ row.length) :
    ParseFromRow row = .ok {
      Date := getStringValue row 0
      Time := getStringValue row 1
      Source := getStringValue row 2
      Coin := getStringValue row 3
      Direction := getStringValue row 4
      SourcePrice := getFloatValue row 5
      BybitPrice := getFloatValue row 6
      Price10Min := getFloatValue row 7
      Price30Min := getFloatValue row 8
      Price1Hour := getFloatValue row 9
      Price2Hours := getFloatValue row 10
      Price6Hours := getFloatValue row 11
      Price12Hours := getFloatValue row 12
      Price24Hours := getFloatValue row 13
      Price3Days := getFloatValue row 14
      Price5Days := getFloatValue row 15
      Price7Days := getFloatValue row 16
      Price1Month := getFloatValue row 17 } := by
  have : ¬ row.length < 5 := by omega
  simp [ParseFromRow, this]

/-- The numeric cell `j` (`5 ≤ j < 18`) of `ToRow` is the encoding of the value decoded from
cell `j` of the row. -/
theorem ToRow_ParseFromRow_cell (row : List Cell) (h : 5 ≤ row.length) (j : Nat)
    (h5 : 5 ≤ j) (h18 : j < 18) :
    ∃ r, ParseFromRow row = .ok r ∧
      r.ToRow[j]? = some (floatToInterface (getFloatValue row j)) := by
  refine ⟨_, ParseFromRow_ok row h, ?_⟩
  have hj : j = 5 ∨ j = 6 ∨ j = 7 ∨ j = 8 ∨ j = 9 ∨ j = 10 ∨ j = 11 ∨ j = 12 ∨ j = 13 ∨
      j = 14 ∨ j = 15 ∨ j = 16 ∨ j = 17 := by omega
  rcases hj with h | h | h | h | h | h | h | h | h | h | h | h | h <;> subst h <;> rfl

/-! ## C1: record round trip -/

theorem eqGo_self (v : Float64) (h : v.isNaN = false) : v.eqGo v = true := by
  simp [Float64.eqGo, h]

theorem isNaN_of_isZero (v : Float64) (h : v.isZero = true) : v.isNaN = false := by
  simp only [Float64.isZero, Bool.and_eq_true, beq_iff_eq] at h
  simp [Float64.isNaN, h.1]

theorem FormatFloat_ne_empty (v : Float64) (hnan : v.isNaN = false) (hz : v.isZero = false) :
    strconv.FormatFloat v ≠ "" := by
  intro h
  have := strconv.ParseFloat_FormatFloat v hnan hz
  rw [h, ParseFloat_empty] at this
  cases this

/-- Decoding the cell written for a numeric field that is not NaN gives back a value equal
to the field (Go `==`): the field itself when it is not 0, and `+0` when it is `±0`. -/
theorem getFloatValue_encoded (row : List Cell) (j : Nat) (v : Float64)
    (hcell : row[j]? = some (floatToInterface v)) (hnan : v.isNaN = false) :
    (getFloatValue row j).eqGo v = true ∧
    (v.isZero = false → getFloatValue row j = v) ∧
    (v.isZero = true → getFloatValue row j = Float64.zero) := by
  cases hz : v.isZero
  · rw [floatToInterface_nonzero v hz] at hcell
    have hval : getFloatValue row j = v := by
      simp only [getFloatValue, hcell, sprintV, FormatFloat_ne_empty v hnan hz, if_false,
        strconv.ParseFloat_FormatFloat v hnan hz]
    rw [hval]
    exact ⟨eqGo_self v hnan, fun _ => rfl, fun h => (by cases h)⟩
  · rw [floatToInterface_zero v hz] at hcell
    rw [getFloatValue_empty row j hcell]
    refine ⟨?_, fun h => (by cases h), fun _ => rfl⟩
    simp [Float64.eqGo, hnan, hz, isZero_zero, isNaN_of_isZero _ isZero_zero]

/-- C1: round trip. For every record none of whose numeric fields is NaN,
`ParseFromRow(r.ToRow())` succeeds and returns a record equal to `r` in all 18 fields
(Go `==`: the strings are identical, every float is `==`); the returned record is `r`
itself when every field that is 0 is `+0`. -/
theorem record_round_trip (r : CoinPriceRecord)
    (hnan : ∀ v ∈ r.numericFields, v.isNaN = false) :
    ∃ r', ParseFromRow r.ToRow = .ok r' ∧ r'.eqGo r = true ∧
      ((∀ v ∈ r.numericFields, v.isZero = true → v = Float64.zero) → r' = r) := by
  have hf : ∀ (j : Nat) (v : Float64), r.ToRow[j]? = some (floatToInterface v) →
      v ∈ r.numericFields →
      (getFloatValue r.ToRow j).eqGo v = true ∧
      ((∀ w ∈ r.numericFields, w.isZero = true → w = Float64.zero) →
        getFloatValue r.ToRow j = v) := by
    intro j v hcell hmem
    obtain ⟨h1, h2, h3⟩ := getFloatValue_encoded r.ToRow j v hcell (hnan v hmem)
    refine ⟨h1, fun hz => ?_⟩
    cases hv : v.isZero
    · exact h2 hv
    · rw [h3 hv, hz v hmem hv]
  have hmem : ∀ v, v ∈ [r.SourcePrice, r.BybitPrice, r.Price10Min, r.Price30Min, r.Price1Hour,
      r.Price2Hours, r.Price6Hours, r.Price12Hours, r.Price24Hours, r.Price3Days,
      r.Price5Days, r.Price7Days, r.Price1Month] → v ∈ r.numericFields := fun v hv => hv
  have h5 := hf 5 r.SourcePrice rfl (hmem _ (by simp))
  have h6 := hf 6 r.BybitPrice rfl (hmem _ (by simp))
  have h7 := hf 7 r.Price10Min rfl (hmem _ (by simp))
  have h8 := hf 8 r.Price30Min rfl (hmem _ (by simp))
  have h9 := hf 9 r.Price1Hour rfl (hmem _ (by simp))
  have h10 := hf 10 r.Price2Hours rfl (hmem _ (by simp))
  have h11 := hf 11 r.Price6Hours rfl (hmem _ (by simp))
  have h12 := hf 12 r.Price12Hours rfl (hmem _ (by simp))
  have h13 := hf 13 r.Price24Hours rfl (hmem _ (by simp))
  have h14 := hf 14 r.Price3Days rfl (hmem _ (by simp))
  have h15 := hf 15 r.Price5Days rfl (hmem _ (by simp))
  have h16 := hf 16 r.Price7Days rfl (hmem _ (by simp))
  have h17 := hf 17 r.Price1Month rfl (hmem _ (by simp))
  have s0 : getStringValue r.ToRow 0 = r.Date := rfl
  have s1 : getStringValue r.ToRow 1 = r.Time := rfl
  have s2 : getStringValue r.ToRow 2 = r.Source := rfl
  have s3 : getStringValue r.ToRow 3 = r.Coin := rfl
  have s4 : getStringValue r.ToRow 4 = r.Direction := rfl
  refine ⟨_, ParseFromRow_ok r.ToRow (by simp [CoinPriceRecord.ToRow]), ?_, ?_⟩
  · simp only [CoinPriceRecord.eqGo, s0, s1, s2, s3, s4, h5.1, h6.1, h7.1, h8.1, h9.1, h10.1,
      h11.1, h12.1, h13.1, h14.1, h15.1, h16.1, h17.1, decide_True, Bool.and_self]
  · intro hz
    rw [s0, s1, s2, s3, s4, h5.2 hz, h6.2 hz, h7.2 hz, h8.2 hz, h9.2 hz, h10.2 hz, h11.2 hz,
      h12.2 hz, h13.2 hz, h14.2 hz, h15.2 hz, h16.2 hz, h17.2 hz]

/-- Witness of C1: the record of scenario S1 (prices 45000.5 and 45010, offsets empty). -/
theorem record_round_trip_witness :
    ∃ r', ParseFromRow recordS1.ToRow = .ok r' ∧ r'.eqGo recordS1 = true ∧ r' = recordS1 := by
  obtain ⟨r', h1, h2, h3⟩ := record_round_trip recordS1 (by decide)
  exact ⟨r', h1, h2, h3 (by decide)⟩

/-- The restriction of the round trip to records without NaN is needed: the record decoded
from a row with the cell "NaN" holds NaN, and decoding its own row gives the same data,
which is not `==` to it, since NaN is not equal to itself. -/
theorem record_round_trip_nan :
    ∃ r r', ParseFromRow [.str "", .str "", .str "", .str "", .str "", .str "NaN"] = .ok r ∧
      ParseFromRow r.ToRow = .ok r' ∧ r' = r ∧ r'.eqGo r = false := by
  refine ⟨_, _, ParseFromRow_ok _ (by decide), ParseFromRow_ok _ (by decide), ?_, ?_⟩ <;> decide

/-- C4: `ParseFromRow` returns an error (and no record) exactly when the row has fewer than
5 cells, and a record (and no error) exactly when it has 5 or more, whatever the cells
contain. -/
theorem ParseFromRow_error_iff_short (row : List Cell) :
    ((∃ msg, ParseFromRow row = .error msg) ↔ row.length < 5) ∧
    ((∃ r, ParseFromRow row = .ok r) ↔ 5 ≤ row.length) := by
  by_cases h : row.length < 5
  · have e : ParseFromRow row =
        .error ("invalid row: expected at least 5 columns, got " ++ toString row.length) := by
      simp [ParseFromRow, h]
    constructor
    · exact ⟨fun _ => h, fun _ => ⟨_, e⟩⟩
    · constructor
      · rintro ⟨r, hr⟩
        rw [e] at hr
        cases hr
      · intro h5
        omega
  · have h5 : 5 ≤ row.length := by omega
    have e := ParseFromRow_ok row h5
    constructor
    · constructor
      · rintro ⟨msg, hm⟩
        rw [e] at hm
        cases hm
      · intro hlt
        exact absurd hlt h
    · exact ⟨fun _ => h5, fun _ => ⟨_, e⟩⟩

/-- C6: `ToRow` produces exactly 18 cells: cells 0..4 are the Date, Time, Source, Coin and
Direction strings unchanged, cell 5 encodes SourcePrice, cell 6 BybitPrice and cells 7..17
the eleven offset prices in the order of `GetPriceFields` (+10m .. +1M); a numeric field
is encoded as the empty string when it is 0 and as the numeric value itself otherwise. -/
theorem ToRow_layout (r : CoinPriceRecord) :
    r.ToRow.length = 18 ∧
    r.ToRow.take 5 =
      [Cell.str r.Date, Cell.str r.Time, Cell.str r.Source, Cell.str r.Coin,
       Cell.str r.Direction] ∧
    r.ToRow[5]? = some (floatToInterface r.SourcePrice) ∧
    r.ToRow[6]? = some (floatToInterface r.BybitPrice) ∧
    r.ToRow.drop 7 = r.GetPriceFields.map (fun f => floatToInterface (r.load f.Value)) ∧
    r.GetPriceFields.map (fun f => f.Duration) =
      [10 * time.Minute, 30 * time.Minute, 1 * time.Hour, 2 * time.Hour, 6 * time.Hour,
       12 * time.Hour, 24 * time.Hour, 3 * 24 * time.Hour, 5 * 24 * time.Hour,
       7 * 24 * time.Hour, 30 * 24 * time.Hour] ∧
    (∀ v : Float64, v.isZero = true → floatToInterface v = Cell.str "") ∧
    (∀ v : Float64, v.isZero = false → floatToInterface v = Cell.num v) :=
  ⟨rfl, rfl, rfl, rfl, rfl, rfl, floatToInterface_zero, floatToInterface_nonzero⟩

/-- C3: sentinel idempotence. `ToRow` emits the empty string in a numeric column exactly
when the record's field is 0; `getFloatValue` reads an absent, null or empty-string cell as
0; therefore, for every row of at least 5 cells, every numeric cell (index 5..17) that is
empty or absent in the input is the empty string in `ToRow(ParseFromRow(row))`. -/
theorem sentinel_idempotence :
    (∀ r : CoinPriceRecord,
      (r.ToRow.drop 5).map (fun c => decide (c = Cell.str "")) =
        r.numericFields.map Float64.isZero) ∧
    (∀ (row : List Cell) (j : Nat),
      row[j]? = none ∨ row[j]? = some Cell.null ∨ row[j]? = some (Cell.str "") →
        getFloatValue row j = Float64.zero) ∧
    (∀ row : List Cell, 5 ≤ row.length →
      ∃ r, ParseFromRow row = .ok r ∧
        ∀ j, 5 ≤ j → j < 18 →
          row[j]? = none ∨ row[j]? = some Cell.null ∨ row[j]? = some (Cell.str "") →
            r.ToRow[j]? = some (Cell.str "")) := by
  have hread : ∀ (row : List Cell) (j : Nat),
      row[j]? = none ∨ row[j]? = some Cell.null ∨ row[j]? = some (Cell.str "") →
        getFloatValue row j = Float64.zero := by
    intro row j h
    rcases h with h | h | h
    · exact getFloatValue_absent row j h
    · exact getFloatValue_null row j h
    · exact getFloatValue_empty row j h
  refine ⟨?_, hread, ?_⟩
  · intro r
    simp only [CoinPriceRecord.ToRow, CoinPriceRecord.numericFields,
      CoinPriceRecord.GetPriceFields, CoinPriceRecord.load, List.drop_succ_cons, List.drop_zero,
      List.map_cons, List.map_nil, List.cons_append, List.nil_append,
      floatToInterface_eq_empty_iff, Bool.decide_eq_true]
  · intro row hlen
    refine ⟨_, ParseFromRow_ok row hlen, ?_⟩
    intro j h5 h18 hj
    obtain ⟨r, hr, hcell⟩ := ToRow_ParseFromRow_cell row hlen j h5 h18
    rw [ParseFromRow_ok row hlen] at hr
    cases hr
    rw [hcell, hread row j hj]
    rfl

/-- Witness of C3: a 7-cell row with a null cell, an empty cell and absent cells. -/
theorem sentinel_idempotence_witness :
    ∃ r, ParseFromRow [.str "29.12.2025", .str "10:30:00", .str "Binance", .str "BTC",
          .str "UP", .null, .str ""] = .ok r ∧
      r.ToRow[5]? = some (Cell.str "") ∧ r.ToRow[6]? = some (Cell.str "") ∧
      r.ToRow[17]? = some (Cell.str "") := by
  obtain ⟨r, hr, h⟩ := sentinel_idempotence.2.2
    [.str "29.12.2025", .str "10:30:00", .str "Binance", .str "BTC", .str "UP", .null,
     .str ""] (by decide)
  exact ⟨r, hr, h 5 (by decide) (by decide) (by decide),
    h 6 (by decide) (by decide) (by decide), h 17 (by decide) (by decide) (by decide)⟩

theorem getStringValue_append (row pad : List Cell) (j : Nat) (h : j < row.length) :
    getStringValue (row ++ pad) j = getStringValue row j := by
  simp [getStringValue, List.getElem?_append_left h]

theorem getFloatValue_pad (row : List Cell) (n j : Nat) :
    getFloatValue (row ++ List.replicate n (Cell.str "")) j = getFloatValue row j := by
  by_cases h : j < row.length
  · simp [getFloatValue, List.getElem?_append_left h]
  · have hle : row.length ≤ j := by omega
    rw [getFloatValue_absent row j (by simp [hle])]
    by_cases h2 : j - row.length < n
    · apply getFloatValue_empty
      rw [List.getElem?_append_right hle]
      simp [h2]
    · apply getFloatValue_absent
      rw [List.getElem?_append_right hle]
      simp
      omega

/-- C5: numeric coercion on decode. For a row of at least 5 cells the thirteen numeric
fields of the decoded record are `getFloatValue` of cells 5..17, which is 0 for a cell that
is missing, null, the empty string or a string that does not parse as a number, and the
parsed number for a string that parses; consequently a row shorter than 18 cells decodes to
the same record as that row padded with empty cells to length 18. -/
theorem numeric_coercion (row : List Cell) (hlen : 5 ≤ row.length) :
    ∃ r, ParseFromRow row = .ok r ∧
      r.numericFields = (List.range 13).map (fun i => getFloatValue row (5 + i)) ∧
      (∀ j, row[j]? = none ∨ row[j]? = some Cell.null ∨ row[j]? = some (Cell.str "") →
        getFloatValue row j = Float64.zero) ∧
      (∀ j s, row[j]? = some (Cell.str s) → strconv.ParseFloat s = none →
        getFloatValue row j = Float64.zero) ∧
      (∀ j s x, row[j]? = some (Cell.str s) → strconv.ParseFloat s = some x →
        getFloatValue row j = x) ∧
      (row.length < 18 →
        ParseFromRow (row ++ List.replicate (18 - row.length) (Cell.str "")) = .ok r) := by
  refine ⟨_, ParseFromRow_ok row hlen, rfl, ?_, ?_, ?_, ?_⟩
  · intro j h
    rcases h with h | h | h
    · exact getFloatValue_absent row j h
    · exact getFloatValue_null row j h
    · exact getFloatValue_empty row j h
  · intro j s h hs
    rw [getFloatValue_str row j s h, hs]
    rfl
  · intro j s x h hs
    rw [getFloatValue_str row j s h, hs]
    rfl
  · intro _
    rw [ParseFromRow_ok _ (by simp; omega)]
    simp only [getFloatValue_pad]
    rw [getStringValue_append row _ 0 (by omega), getStringValue_append row _ 1 (by omega),
      getStringValue_append row _ 2 (by omega), getStringValue_append row _ 3 (by omega),
      getStringValue_append row _ 4 (by omega)]

/-- Witness of C5: the 6-cell row with a parsable price decodes like its padding to 18. -/
theorem numeric_coercion_witness :
    ∃ r, ParseFromRow [.str "29.12.2025", .str "10:30:00", .str "Binance", .str "BTC",
          .str "UP", .str "45000.50"] = .ok r ∧
      r.SourcePrice = f45000_5 ∧ r.BybitPrice = Float64.zero ∧
      ParseFromRow ([.str "29.12.2025", .str "10:30:00", .str "Binance", .str "BTC",
          .str "UP", .str "45000.50"] ++ List.replicate 12 (Cell.str "")) = .ok r := by
  obtain ⟨r, hr, hnum, _, _, hparse, hpad⟩ := numeric_coercion
    [.str "29.12.2025", .str "10:30:00", .str "Binance", .str "BTC", .str "UP",
     .str "45000.50"] (by decide)
  refine ⟨r, hr, ?_, ?_, hpad (by decide)⟩
  · have h5 := hparse 5 "45000.50" f45000_5 (by decide) (by decide)
    have := congrArg (fun l => l[0]?) hnum
    simp [CoinPriceRecord.numericFields] at this
    rw [this, h5]
  · have := congrArg (fun l => l[1]?) hnum
    simp [CoinPriceRecord.numericFields] at this
    rw [this]
    decide

theorem getStringValue_str (row : List Cell) (j : Nat) (s : String)
    (h : row[j]? = some (Cell.str s)) : getStringValue row j = s := by
  simp [getStringValue, h, sprintV]

/-- Counterexample to C2 as stated: on the row of scenario S1 the cell 5 of
`ToRow(ParseFromRow(row))` is the number 45000.5, not the input string "45000.50", so the
output row differs from the input row. -/
theorem row_round_trip_S1_differs :
    ∃ r, ParseFromRow rowS1 = .ok r ∧
      rowS1[5]? = some (Cell.str "45000.50") ∧
      r.ToRow[5]? = some (Cell.num f45000_5) ∧
      r.ToRow[6]? = some (Cell.num f45010) ∧
      r.ToRow ≠ rowS1 := by
  refine ⟨_, ParseFromRow_ok rowS1 (by decide), by decide, by decide, by decide, by decide⟩

/-- C2 (amended): for an 18-cell row of strings, `ToRow(ParseFromRow(row))` is an 18-cell
row whose cells 0..4 are identical to the input; a numeric cell (5..17) that is the empty
string stays the empty string; a numeric cell whose string parses to a non-zero number
becomes that number (a numeric cell, not the input string); a numeric cell whose string
does not parse, or parses to 0, becomes the empty string. -/
theorem row_round_trip_strings (row : List Cell) (hlen : row.length = 18)
    (hstr : ∀ c ∈ row, ∃ s, c = Cell.str s) :
    ∃ r, ParseFromRow row = .ok r ∧
      r.ToRow.length = 18 ∧
      r.ToRow.take 5 = row.take 5 ∧
      ∀ j s, 5 ≤ j → j < 18 → row[j]? = some (Cell.str s) →
        (s = "" → r.ToRow[j]? = some (Cell.str "")) ∧
        (∀ x, strconv.ParseFloat s = some x → x.isZero = false →
          r.ToRow[j]? = some (Cell.num x)) ∧
        (∀ x, strconv.ParseFloat s = some x → x.isZero = true →
          r.ToRow[j]? = some (Cell.str "")) ∧
        (strconv.ParseFloat s = none → r.ToRow[j]? = some (Cell.str "")) := by
  have h5 : 5 ≤ row.length := by omega
  refine ⟨_, ParseFromRow_ok row h5, rfl, ?_, ?_⟩
  · have hget : ∀ j, j < 5 → ∃ s, row[j]? = some (Cell.str s) := by
      intro j hj
      have hj2 : j < row.length := by omega
      obtain ⟨s, hs⟩ := hstr (row[j]) (List.getElem_mem hj2)
      exact ⟨s, by rw [List.getElem?_eq_getElem hj2, hs]⟩
    obtain ⟨s0, e0⟩ := hget 0 (by omega)
    obtain ⟨s1, e1⟩ := hget 1 (by omega)
    obtain ⟨s2, e2⟩ := hget 2 (by omega)
    obtain ⟨s3, e3⟩ := hget 3 (by omega)
    obtain ⟨s4, e4⟩ := hget 4 (by omega)
    simp only [CoinPriceRecord.ToRow, getStringValue_str row _ _ e0,
      getStringValue_str row _ _ e1, getStringValue_str row _ _ e2,
      getStringValue_str row _ _ e3, getStringValue_str row _ _ e4]
    apply List.ext_getElem?
    intro n
    have hn : n = 0 ∨ n = 1 ∨ n = 2 ∨ n = 3 ∨ n = 4 ∨ 5 ≤ n := by omega
    rcases hn with h | h | h | h | h | h
    · subst h; simp [List.getElem?_take, e0]
    · subst h; simp [List.getElem?_take, e1]
    · subst h; simp [List.getElem?_take, e2]
    · subst h; simp [List.getElem?_take, e3]
    · subst h; simp [List.getElem?_take, e4]
    · have h1 : ¬ n < 5 := by omega
      simp [List.getElem?_take, h1]
      exact h
  · intro j s hj5 hj18 hcell
    obtain ⟨r, hr, hc⟩ := ToRow_ParseFromRow_cell row h5 j hj5 hj18
    rw [ParseFromRow_ok row h5] at hr
    cases hr
    rw [hc, getFloatValue_str row j s hcell]
    refine ⟨?_, ?_, ?_, ?_⟩
    · intro hs
      subst hs
      rw [ParseFloat_empty]
      rfl
    · intro x hx hz
      rw [hx]
      exact congrArg some (floatToInterface_nonzero x hz)
    · intro x hx hz
      rw [hx]
      exact congrArg some (floatToInterface_zero x hz)
    · intro hx
      rw [hx]
      rfl

/-- Witness of C2 (amended) on the row of scenario S1: cells 0..4 and the empty cells 7..17
are preserved, cell 5 becomes the number 45000.5. -/
theorem row_round_trip_strings_witness :
    ∃ r, ParseFromRow rowS1 = .ok r ∧ r.ToRow.length = 18 ∧
      r.ToRow.take 5 = rowS1.take 5 ∧
      r.ToRow[5]? = some (Cell.num f45000_5) ∧
      r.ToRow[7]? = some (Cell.str "") ∧ r.ToRow[17]? = some (Cell.str "") := by
  obtain ⟨r, hr, hl, ht, hc⟩ := row_round_trip_strings rowS1 (by decide) (by simp [rowS1])
  exact ⟨r, hr, hl, ht,
    (hc 5 "45000.50" (by decide) (by decide) (by decide)).2.1 f45000_5 (by decide) (by decide),
    (hc 7 "" (by decide) (by decide) (by decide)).1 rfl,
    (hc 17 "" (by decide) (by decide) (by decide)).1 rfl⟩

/-! ## Temporal policy: `ShouldFetchPrice` -/

theorem load_store (r : CoinPriceRecord) (p : PriceRef) (v : Float64) :
    (r.store p v).load p = v := by
  cases p <;> rfl

theorem tryFormats_none (s : String) (l : List String)
    (h : ∀ format ∈ l, time.ParseInLocation format s (7 * 60 * 60) = none) :
    tryFormats s l = none := by
  induction l with
  | nil => rfl
  | cons a l ih =>
    simp only [tryFormats, h a (List.mem_cons_self a l)]
    exact ih (fun f hf => h f (List.mem_cons_of_mem a hf))

theorem ShouldFetchPrice_filled (r : CoinPriceRecord) (field : PriceField) (now : time.Time)
    (h : (r.load field.Value).isZero = false) :
    r.ShouldFetchPrice field now = (false, none) := by
  simp [CoinPriceRecord.ShouldFetchPrice, h]

theorem ShouldFetchPrice_due (r : CoinPriceRecord) (field : PriceField) (now T : time.Time)
    (hT : r.TryParseDateTime = .ok T) (h0 : (r.load field.Value).isZero = true) :
    r.ShouldFetchPrice field now =
      (decide (T.unixNano + field.Duration ≤ now.unixNano), none) := by
  simp only [CoinPriceRecord.ShouldFetchPrice, h0, hT, time.Time.After, time.Time.Equal,
    time.Time.Add]
  by_cases h : T.unixNano + field.Duration ≤ now.unixNano
  · have h3 : T.unixNano + field.Duration < now.unixNano ∨
        now.unixNano = T.unixNano + field.Duration := by omega
    rcases h3 with h1 | h1
    · simp [h, h1]
    · simp [h1]
  · have h1 : ¬ T.unixNano + field.Duration < now.unixNano := by omega
    have h2 : ¬ now.unixNano = T.unixNano + field.Duration := by omega
    simp [h, h1, h2]

/-- C7: filled cells are never refetched. For every record, every offset field of it whose
value is non-zero and every instant `now`, `ShouldFetchPrice` returns `(false, nil)`,
whether or not the record's Date/Time can be parsed. -/
theorem filled_never_refetched (r : CoinPriceRecord) (field : PriceField) (now : time.Time)
    (h : (r.load field.Value).isZero = false) :
    r.ShouldFetchPrice field now = (false, none) :=
  ShouldFetchPrice_filled r field now h

/-- Witness of C7: a record with an unparsable Date/Time and `Price10Min = 45100`. -/
theorem filled_never_refetched_witness :
    (∃ err, (recordAt "invalid" "date" f45100).TryParseDateTime = .error err) ∧
    (recordAt "invalid" "date" f45100).ShouldFetchPrice field10Min anchorS2 = (false, none) :=
  ⟨⟨"unable to parse date/time: invalid date", by decide⟩,
   filled_never_refetched (recordAt "invalid" "date" f45100) field10Min anchorS2 (by decide)⟩

/-- C8: due rule, inclusive at the boundary. For a record whose timestamp parses to `T`, an
offset field of it with value 0 and duration `d`, and an instant `now`, `ShouldFetchPrice`
returns `(true, nil)` if `now ≥ T + d` and `(false, nil)` if `now < T + d`. -/
theorem due_rule (r : CoinPriceRecord) (field : PriceField) (now T : time.Time)
    (hT : r.TryParseDateTime = .ok T) (h0 : (r.load field.Value).isZero = true) :
    ((T.Add field.Duration).unixNano ≤ now.unixNano →
      r.ShouldFetchPrice field now = (true, none)) ∧
    (now.unixNano < (T.Add field.Duration).unixNano →
      r.ShouldFetchPrice field now = (false, none)) := by
  rw [ShouldFetchPrice_due r field now T hT h0]
  simp only [time.Time.Add]
  constructor
  · intro h
    simp [h]
  · intro h
    have : ¬ T.unixNano + field.Duration ≤ now.unixNano := by omega
    simp [this]

/-- Witness of C8 (scenario S2): Date 29.12.2025, Time 10:00:00, `+10m` empty: due at
10:10:00 UTC+07:00 exactly, not due at 10:09:59. -/
theorem due_rule_witness :
    (recordAt "29.12.2025" "10:00:00" Float64.zero).TryParseDateTime = .ok anchorS2 ∧
    (recordAt "29.12.2025" "10:00:00" Float64.zero).ShouldFetchPrice field10Min
      ⟨1766977800000000000⟩ = (true, none) ∧
    (recordAt "29.12.2025" "10:00:00" Float64.zero).ShouldFetchPrice field10Min
      ⟨1766977799000000000⟩ = (false, none) :=
  ⟨by decide,
   (due_rule (recordAt "29.12.2025" "10:00:00" Float64.zero) field10Min
      ⟨1766977800000000000⟩ anchorS2 (by decide) (by decide)).1 (by decide),
   (due_rule (recordAt "29.12.2025" "10:00:00" Float64.zero) field10Min
      ⟨1766977799000000000⟩ anchorS2 (by decide) (by decide)).2 (by decide)⟩

/-- C9: for a record whose `Date + " " + Time` matches none of the four layouts, an offset
field of it with value 0 and any instant `now`, `ShouldFetchPrice` returns `false` together
with a non-nil error. -/
theorem unparsable_returns_error (r : CoinPriceRecord) (field : PriceField) (now : time.Time)
    (hfmt : ∀ format ∈ formats, time.ParseInLocation format r.GetDateTime (7 * 60 * 60) = none)
    (h0 : (r.load field.Value).isZero = true) :
    ∃ err, r.ShouldFetchPrice field now = (false, some err) := by
  refine ⟨"unable to parse date/time: " ++ r.GetDateTime, ?_⟩
  simp [CoinPriceRecord.ShouldFetchPrice, h0, CoinPriceRecord.TryParseDateTime,
    tryFormats_none _ _ hfmt]

/-- Witness of C9: Date "invalid", Time "date", `+10m` empty. -/
theorem unparsable_returns_error_witness :
    ∃ err, (recordAt "invalid" "date" Float64.zero).ShouldFetchPrice field10Min anchorS2 =
      (false, some err) :=
  unparsable_returns_error (recordAt "invalid" "date" Float64.zero) field10Min anchorS2
    (by decide) (by decide)

/-- C10: due monotonicity. For a fixed record and offset field of it and instants
`t1 ≤ t2`, if `ShouldFetchPrice` is true at `t1` it is true at `t2`; and once the field is
assigned a non-zero value, `ShouldFetchPrice` is `(false, nil)` at every instant. -/
theorem due_monotone (r : CoinPriceRecord) (field : PriceField) (t1 t2 : time.Time)
    (hle : t1.unixNano ≤ t2.unixNano) :
    ((r.ShouldFetchPrice field t1).1 = true → (r.ShouldFetchPrice field t2).1 = true) ∧
    (∀ (v : Float64) (now : time.Time), v.isZero = false →
      (r.store field.Value v).ShouldFetchPrice field now = (false, none)) := by
  constructor
  · cases h0 : (r.load field.Value).isZero
    · rw [ShouldFetchPrice_filled r field t1 h0]
      intro h
      cases h
    · cases hT : r.TryParseDateTime with
      | error e =>
        simp [CoinPriceRecord.ShouldFetchPrice, h0, hT]
      | ok T =>
        rw [ShouldFetchPrice_due r field t1 T hT h0, ShouldFetchPrice_due r field t2 T hT h0]
        simp only [decide_eq_true_eq]
        intro h
        omega
  · intro v now hv
    apply ShouldFetchPrice_filled
    rw [load_store]
    exact hv

/-- Witness of C10 on the record of scenario S2: due at 10:10:00 and still due at 10:15:00;
after `Price10Min` is set to 45100 it is no longer due. -/
theorem due_monotone_witness :
    (recordAt "29.12.2025" "10:00:00" Float64.zero).ShouldFetchPrice field10Min
      ⟨1766977800000000000⟩ = (true, none) ∧
    ((recordAt "29.12.2025" "10:00:00" Float64.zero).ShouldFetchPrice field10Min
      ⟨1766978100000000000⟩).1 = true ∧
    ((recordAt "29.12.2025" "10:00:00" Float64.zero).store field10Min.Value
      f45100).ShouldFetchPrice field10Min ⟨1766978100000000000⟩ = (false, none) :=
  ⟨by decide,
   (due_monotone (recordAt "29.12.2025" "10:00:00" Float64.zero) field10Min
      ⟨1766977800000000000⟩ ⟨1766978100000000000⟩ (by decide)).1 (by decide),
   (due_monotone (recordAt "29.12.2025" "10:00:00" Float64.zero) field10Min
      ⟨1766977800000000000⟩ ⟨1766978100000000000⟩ (by decide)).2 f45100
      ⟨1766978100000000000⟩ (by decide)⟩

/-! ## C11: the offset fields -/

/-- C11: for every record, `GetPriceFields` returns exactly 11 fields, named Price10Min,
Price30Min, Price1Hour, Price2Hours, Price6Hours, Price12Hours, Price24Hours, Price3Days,
Price5Days, Price7Days, Price1Month in this order, with the durations 10m, 30m, 1h, 2h, 6h,
12h, 24h, 72h, 120h, 168h and 720h, which strictly increase, and the value of each field
is the current value of that field of the record. -/
theorem GetPriceFields_layout (r : CoinPriceRecord) :
    r.GetPriceFields.length = 11 ∧
    r.GetPriceFields.map PriceField.Name =
      ["Price10Min", "Price30Min", "Price1Hour", "Price2Hours", "Price6Hours",
       "Price12Hours", "Price24Hours", "Price3Days", "Price5Days", "Price7Days",
       "Price1Month"] ∧
    r.GetPriceFields.map PriceField.Duration =
      [10 * time.Minute, 30 * time.Minute, 1 * time.Hour, 2 * time.Hour, 6 * time.Hour,
       12 * time.Hour, 24 * time.Hour, 72 * time.Hour, 120 * time.Hour, 168 * time.Hour,
       720 * time.Hour] ∧
    (r.GetPriceFields.map PriceField.Duration).Pairwise (fun a b => a < b) ∧
    r.GetPriceFields.map (fun field => r.load field.Value) =
      [r.Price10Min, r.Price30Min, r.Price1Hour, r.Price2Hours, r.Price6Hours,
       r.Price12Hours, r.Price24Hours, r.Price3Days, r.Price5Days, r.Price7Days,
       r.Price1Month] := by
  refine ⟨rfl, rfl, ?_, ?_, rfl⟩
  · simp only [CoinPriceRecord.GetPriceFields, List.map]
    decide
  · simp only [CoinPriceRecord.GetPriceFields, List.map]
    decide

/-! ## C13, C14: the symbol resolver -/

theorem lookup_of_mem (k v : String) : ∀ l : List (String × String),
    (l.map Prod.fst).Nodup → (k, v) ∈ l → l.lookup k = some v
  | [], _, h => by cases h
  | (a, b) :: l, hn, h => by
    rw [List.map_cons, List.nodup_cons] at hn
    rw [List.mem_cons] at h
    rcases h with h | h
    · cases h
      simp [List.lookup]
    · have hne : k ≠ a := by
        intro e
        subst e
        exact hn.1 (List.mem_map.mpr ⟨(k, v), h, rfl⟩)
      have hb : (k == a) = false := by simpa using hne
      rw [List.lookup, hb]
      exact lookup_of_mem k v l hn.2 h

theorem lookup_of_not_mem (k : String) : ∀ l : List (String × String),
    (∀ v, (k, v) ∉ l) → l.lookup k = none
  | [], _ => rfl
  | (a, b) :: l, h => by
    have hne : k ≠ a := by
      intro e
      subst e
      exact h b (List.mem_cons_self _ _)
    have hb : (k == a) = false := by simpa using hne
    rw [List.lookup, hb]
    exact lookup_of_not_mem k l (fun v hv => h v (List.mem_cons_of_mem _ hv))

theorem lookup_eq_find (k : String) : ∀ l : List (String × String),
    l.lookup k = (l.find? (fun p => decide (p.1 = k))).map Prod.snd
  | [] => rfl
  | (a, b) :: l => by
    by_cases e : k = a
    · subst e
      simp [List.lookup, List.find?]
    · have hb : (k == a) = false := by simpa using e
      have hd : decide (a = k) = false := by simpa using fun h : a = k => e h.symm
      rw [List.lookup, hb, List.find?, hd]
      exact lookup_eq_find k l

theorem mapping_nodup : (webapi.mapping.map Prod.fst).Nodup := by decide

/-- C13: `symbolToCoinID` is the reference resolver. For every input `s`, with
`k = lowercase(trim(s))`, it returns the id bound to `k` when the table of the specification
binds `k`, and `k` itself when the table does not have `k`; the table has 43 symbols, each
bound once, and each symbol of the table resolves to exactly its id. The four examples
hold whatever the case table of the library is. -/
theorem symbolToCoinID_reference (lower : unicode.CaseTable) :
    (∀ s, webapi.symbolToCoinID lower s = reference.resolve lower s) ∧
    (∀ s id, (strings.ToLower lower (strings.TrimSpace s), id) ∈ reference.table →
      webapi.symbolToCoinID lower s = id) ∧
    (∀ s, (∀ id, (strings.ToLower lower (strings.TrimSpace s), id) ∉ reference.table) →
      webapi.symbolToCoinID lower s = strings.ToLower lower (strings.TrimSpace s)) ∧
    reference.table.length = 43 ∧
    (reference.table.map Prod.fst).Nodup ∧
    reference.table.map (fun p => webapi.symbolToCoinID lower p.1) =
      reference.table.map Prod.snd ∧
    webapi.symbolToCoinID lower "xrp" = "ripple" ∧
    webapi.symbolToCoinID lower "WIF" = "wif" ∧
    webapi.symbolToCoinID lower "  Btc " = "bitcoin" ∧
    webapi.symbolToCoinID lower "UNKNOWN" = "unknown" := by
  have ht : reference.table = webapi.mapping := rfl
  refine ⟨?_, ?_, ?_, rfl, ?_, rfl, rfl, rfl, rfl, rfl⟩
  · intro s
    simp only [webapi.symbolToCoinID, reference.resolve, ht, lookup_eq_find]
    cases List.find? (fun p => decide (p.1 = strings.ToLower lower (strings.TrimSpace s)))
      webapi.mapping <;> rfl
  · intro s id h
    rw [ht] at h
    simp only [webapi.symbolToCoinID, lookup_of_mem _ _ _ mapping_nodup h]
  · intro s h
    rw [ht] at h
    simp only [webapi.symbolToCoinID, lookup_of_not_mem _ _ h]
  · rw [ht]
    exact mapping_nodup

/-- Witness of C13: the four examples with the identity as case table, through the two
branches of the theorem. -/
theorem symbolToCoinID_reference_witness :
    webapi.symbolToCoinID (fun c => c) "  Btc " = "bitcoin" ∧
    webapi.symbolToCoinID (fun c => c) "xrp" = "ripple" ∧
    webapi.symbolToCoinID (fun c => c) "WIF" = "wif" ∧
    webapi.symbolToCoinID (fun c => c) "UNKNOWN" = "unknown" :=
  ⟨(symbolToCoinID_reference (fun c => c)).2.1 "  Btc " "bitcoin" (by decide),
   (symbolToCoinID_reference (fun c => c)).2.1 "xrp" "ripple" (by decide),
   (symbolToCoinID_reference (fun c => c)).2.2.1 "WIF" (fun id => by
     simp [reference.table,
       show strings.ToLower (fun c => c) (strings.TrimSpace "WIF") = "wif" from by decide]),
   (symbolToCoinID_reference (fun c => c)).2.2.1 "UNKNOWN" (fun id => by
     simp [reference.table,
       show strings.ToLower (fun c => c) (strings.TrimSpace "UNKNOWN") = "unknown" from
         by decide])⟩

theorem dropWhile_head (p : Char → Bool) : ∀ (l : List Char) (x : Char),
    (l.dropWhile p).head? = some x → p x = false
  | [], x, h => by cases h
  | c :: l, x, h => by
    by_cases hc : p c = true
    · rw [List.dropWhile_cons_of_pos hc] at h
      exact dropWhile_head p l x h
    · rw [List.dropWhile_cons_of_neg hc] at h
      simp only [List.head?_cons, Option.some.injEq] at h
      subst h
      simpa using hc

theorem dropWhile_self (p : Char → Bool) (l : List Char)
    (h : ∀ x, l.head? = some x → p x = false) : l.dropWhile p = l := by
  cases l with
  | nil => rfl
  | cons c l =>
    have hc : ¬ p c = true := by simp [h c rfl]
    exact List.dropWhile_cons_of_neg hc

theorem mem_of_mem_dropWhile (p : Char → Bool) (l : List Char) (x : Char)
    (h : x ∈ l.dropWhile p) : x ∈ l :=
  (List.dropWhile_suffix p).subset h

/-- The list of characters kept by `strings.TrimSpace`. -/
theorem TrimSpace_toList (s : String) :
    (strings.TrimSpace s).toList =
      ((s.toList.dropWhile unicode.IsSpace).reverse.dropWhile unicode.IsSpace).reverse := rfl

theorem trim_last (l : List Char) (x : Char)
    (h : (((l.dropWhile unicode.IsSpace).reverse.dropWhile unicode.IsSpace).reverse).getLast?
      = some x) : unicode.IsSpace x = false := by
  rw [List.getLast?_reverse] at h
  exact dropWhile_head _ _ x h

theorem trim_head (l : List Char) (x : Char)
    (h : (((l.dropWhile unicode.IsSpace).reverse.dropWhile unicode.IsSpace).reverse).head?
      = some x) : unicode.IsSpace x = false := by
  have hp : ((l.dropWhile unicode.IsSpace).reverse.dropWhile unicode.IsSpace).reverse <+:
      l.dropWhile unicode.IsSpace := by
    have := List.dropWhile_suffix unicode.IsSpace
      (l := (l.dropWhile unicode.IsSpace).reverse)
    simpa using List.reverse_prefix.mpr this
  obtain ⟨u, hu⟩ := hp
  apply dropWhile_head unicode.IsSpace l x
  rw [← hu]
  cases ht : ((l.dropWhile unicode.IsSpace).reverse.dropWhile unicode.IsSpace).reverse with
  | nil => rw [ht] at h; cases h
  | cons c t => rw [ht] at h; simpa using h

theorem trim_mem (l : List Char) (x : Char)
    (h : x ∈ ((l.dropWhile unicode.IsSpace).reverse.dropWhile unicode.IsSpace).reverse) :
    x ∈ l := by
  rw [List.mem_reverse] at h
  have := mem_of_mem_dropWhile _ _ _ h
  rw [List.mem_reverse] at this
  exact mem_of_mem_dropWhile _ _ _ this

/-- Trimming a list whose first and last characters are not white space changes nothing. -/
theorem trim_fixed (t : List Char)
    (hh : ∀ x, t.head? = some x → unicode.IsSpace x = false)
    (hl : ∀ x, t.getLast? = some x → unicode.IsSpace x = false) :
    ((t.dropWhile unicode.IsSpace).reverse.dropWhile unicode.IsSpace).reverse = t := by
  rw [dropWhile_self _ t hh, dropWhile_self _ t.reverse, List.reverse_reverse]
  intro x hx
  rw [List.head?_reverse] at hx
  exact hl x hx

theorem toNat_ofNat_small (n : Nat) (h : n < 55296) : (Char.ofNat n).toNat = n := by
  have hv : n.isValidChar := Or.inl h
  simp [Char.ofNat, hv, Char.toNat, Char.ofNatAux, UInt32.toNat]

theorem ToLower_ascii (lower : unicode.CaseTable) (c : Char) (h : c.toNat ≤ 127) :
    unicode.ToLower lower c = c ∨
      (65 ≤ c.toNat ∧ c.toNat ≤ 90 ∧ unicode.ToLower lower c = Char.ofNat (c.toNat + 32)) := by
  unfold unicode.ToLower
  rw [if_pos h]
  by_cases hc : 'A' ≤ c ∧ c ≤ 'Z'
  · rw [if_pos hc]
    right
    have h1 : 'A'.toNat ≤ c.toNat := hc.1
    have h2 : c.toNat ≤ 'Z'.toNat := hc.2
    exact ⟨h1, h2, rfl⟩
  · rw [if_neg hc]
    exact Or.inl rfl

theorem ToLower_ascii_idem (lower : unicode.CaseTable) (c : Char) (h : c.toNat ≤ 127) :
    unicode.ToLower lower (unicode.ToLower lower c) = unicode.ToLower lower c := by
  rcases ToLower_ascii lower c h with e | ⟨h1, h2, e⟩
  · rw [e, e]
  · rw [e]
    have hn : (Char.ofNat (c.toNat + 32)).toNat = c.toNat + 32 :=
      toNat_ofNat_small _ (by omega)
    unfold unicode.ToLower
    rw [if_pos (by omega)]
    have hc : ¬ ('A' ≤ Char.ofNat (c.toNat + 32) ∧ Char.ofNat (c.toNat + 32) ≤ 'Z') := by
      intro hc
      have h3 : (Char.ofNat (c.toNat + 32)).toNat ≤ 'Z'.toNat := hc.2
      have h4 : 'Z'.toNat = 90 := rfl
      omega
    rw [if_neg hc]

theorem ToLower_ascii_space (lower : unicode.CaseTable) (c : Char) (h : c.toNat ≤ 127)
    (hs : unicode.IsSpace c = false) : unicode.IsSpace (unicode.ToLower lower c) = false := by
  rcases ToLower_ascii lower c h with e | ⟨h1, h2, e⟩
  · rw [e]; exact hs
  · rw [e]
    have hn : (Char.ofNat (c.toNat + 32)).toNat = c.toNat + 32 :=
      toNat_ofNat_small _ (by omega)
    unfold unicode.IsSpace
    rw [hn]
    simp only [decide_eq_false_iff_not]
    omega

theorem ToLower_high (lower : unicode.CaseTable) (c : Char) (h : 127 < c.toNat) :
    unicode.ToLower lower c = lower c := by
  unfold unicode.ToLower
  rw [if_neg (by omega)]

/-- Trimming and lowering once more changes nothing, when the case table of the library is
idempotent on the runes of the text above ASCII and lowers none of them to white space. -/
theorem lower_trim_fixed (lower : unicode.CaseTable) (s : String)
    (hidem : ∀ c ∈ s.toList, 127 < c.toNat → unicode.ToLower lower (lower c) = lower c)
    (hspace : ∀ c ∈ s.toList, 127 < c.toNat → unicode.IsSpace c = false →
      unicode.IsSpace (lower c) = false) :
    strings.ToLower lower (strings.TrimSpace (strings.ToLower lower (strings.TrimSpace s))) =
      strings.ToLower lower (strings.TrimSpace s) := by
  have hsp : ∀ c ∈ s.toList, unicode.IsSpace c = false →
      unicode.IsSpace (unicode.ToLower lower c) = false := by
    intro c hc hs
    by_cases h : c.toNat ≤ 127
    · exact ToLower_ascii_space lower c h hs
    · rw [ToLower_high lower c (by omega)]
      exact hspace c hc (by omega) hs
  have hid : ∀ c ∈ s.toList,
      unicode.ToLower lower (unicode.ToLower lower c) = unicode.ToLower lower c := by
    intro c hc
    by_cases h : c.toNat ≤ 127
    · exact ToLower_ascii_idem lower c h
    · rw [ToLower_high lower c (by omega)]
      exact hidem c hc (by omega)
  have hfix : (strings.TrimSpace (strings.ToLower lower (strings.TrimSpace s))).toList =
      (strings.ToLower lower (strings.TrimSpace s)).toList := by
    rw [TrimSpace_toList]
    apply trim_fixed
    · intro x hx
      change ((strings.TrimSpace s).toList.map (unicode.ToLower lower)).head? = some x at hx
      rw [List.head?_map, TrimSpace_toList] at hx
      cases ht : (((s.toList.dropWhile unicode.IsSpace).reverse.dropWhile
          unicode.IsSpace).reverse).head? with
      | none => rw [ht] at hx; cases hx
      | some y =>
        rw [ht] at hx
        simp only [Option.map_some', Option.some.injEq] at hx
        subst hx
        exact hsp y (trim_mem _ _ (List.mem_of_mem_head? ht)) (trim_head _ _ ht)
    · intro x hx
      change ((strings.TrimSpace s).toList.map (unicode.ToLower lower)).getLast? = some x at hx
      rw [List.getLast?_map, TrimSpace_toList] at hx
      cases ht : (((s.toList.dropWhile unicode.IsSpace).reverse.dropWhile
          unicode.IsSpace).reverse).getLast? with
      | none => rw [ht] at hx; cases hx
      | some y =>
        rw [ht] at hx
        simp only [Option.map_some', Option.some.injEq] at hx
        subst hx
        exact hsp y (trim_mem _ _ (List.mem_of_mem_getLast? ht)) (trim_last _ _ ht)
  unfold strings.ToLower at hfix ⊢
  rw [hfix]
  change String.mk (((strings.TrimSpace s).toList.map (unicode.ToLower lower)).map
    (unicode.ToLower lower)) = _
  rw [List.map_map]
  congr 1
  apply List.map_congr_left
  intro c hc
  rw [TrimSpace_toList] at hc
  exact hid c (trim_mem _ _ hc)

/-- C14: resolver closure. For every string `s`, `symbolToCoinID(s)` equals
`symbolToCoinID(lowercase(trim(s)))`, and two symbols with the same `lowercase(trim(_))`,
which is the case when they differ only in letter case or surrounding white space, resolve
to the same id. Lower-casing of the runes above ASCII is the case table of the Go library:
the closure is stated for a table that is idempotent on such runes of `s` and lowers none
of them to white space; a text of ASCII runes asks nothing of the table. -/
theorem resolver_closure (lower : unicode.CaseTable) (s : String)
    (hidem : ∀ c ∈ s.toList, 127 < c.toNat → unicode.ToLower lower (lower c) = lower c)
    (hspace : ∀ c ∈ s.toList, 127 < c.toNat → unicode.IsSpace c = false →
      unicode.IsSpace (lower c) = false) :
    webapi.symbolToCoinID lower s =
      webapi.symbolToCoinID lower (strings.ToLower lower (strings.TrimSpace s)) ∧
    ∀ t, strings.ToLower lower (strings.TrimSpace t) =
        strings.ToLower lower (strings.TrimSpace s) →
      webapi.symbolToCoinID lower t = webapi.symbolToCoinID lower s := by
  constructor
  · simp only [webapi.symbolToCoinID, lower_trim_fixed lower s hidem hspace]
  · intro t h
    simp only [webapi.symbolToCoinID, h]

/-- Witness of C14: the text `"  Btc "` and a case table that lowers U+00C9 to U+00E9. -/
theorem resolver_closure_witness :
    webapi.symbolToCoinID (fun c => if c = Char.ofNat 201 then Char.ofNat 233 else c) "  Btc " =
      webapi.symbolToCoinID (fun c => if c = Char.ofNat 201 then Char.ofNat 233 else c)
        (strings.ToLower (fun c => if c = Char.ofNat 201 then Char.ofNat 233 else c)
          (strings.TrimSpace "  Btc ")) ∧
    webapi.symbolToCoinID (fun c => if c = Char.ofNat 201 then Char.ofNat 233 else c) "BTC" =
      webapi.symbolToCoinID (fun c => if c = Char.ofNat 201 then Char.ofNat 233 else c)
        "  Btc " :=
  ⟨(resolver_closure (fun c => if c = Char.ofNat 201 then Char.ofNat 233 else c) "  Btc "
      (by decide) (by decide)).1,
   (resolver_closure (fun c => if c = Char.ofNat 201 then Char.ofNat 233 else c) "  Btc "
      (by decide) (by decide)).2 "BTC" (by decide)⟩

/-! ## The retry loop of `GetCurrentPrice` -/

theorem cancelled_mono (ctx : webapi.Context) (t u : Int) (h : ctx.cancelled u = false)
    (htu : t ≤ u) : ctx.cancelled t = false := by
  unfold webapi.Context.cancelled at h ⊢
  cases hc : ctx.cancelAt with
  | none => rfl
  | some c =>
    rw [hc] at h
    simp only [decide_eq_false_iff_not, not_le] at h ⊢
    omega

/-- An attempt made when the context is cancelled: the request is refused and the call
returns the context's error; `w1` is the world after the backoff of the attempt. -/
theorem attempt_refused (ctx : webapi.Context) (coinSymbol coinID : String)
    (remaining attempt : Nat) (w w1 : World)
    (hw1 : w1 = if 0 < attempt then webapi.sleep (2 * time.Second * 2 ^ (attempt - 1)) w else w)
    (hc : ctx.cancelled w1.clock = true) :
    webapi.attemptLoop ctx coinSymbol coinID 3 (2 * time.Second) (remaining + 1) attempt w =
      ((Float64.zero, some (webapi.Error.transport webapi.Cause.canceled)),
       { w1 with trace := w1.trace ++ [webapi.Event.refused] }) := by
  rw [webapi.attemptLoop, ← hw1]
  simp [webapi.get, hc]

/-- An attempt whose request is answered 429 while a retry is left: the loop goes on in the
world after the request. -/
theorem attempt_retry (ctx : webapi.Context) (coinSymbol coinID : String)
    (remaining attempt : Nat) (w w1 : World)
    (hw1 : w1 = if 0 < attempt then webapi.sleep (2 * time.Second * 2 ^ (attempt - 1)) w else w)
    (hc : ctx.cancelled w1.clock = false)
    (herr : (w1.oracle w1.requests).err = none)
    (hst : (w1.oracle w1.requests).status = 429) (hlt : attempt < 3) :
    webapi.attemptLoop ctx coinSymbol coinID 3 (2 * time.Second) (remaining + 1) attempt w =
      webapi.attemptLoop ctx coinSymbol coinID 3 (2 * time.Second) remaining (attempt + 1)
        { w1 with requests := w1.requests + 1,
                  trace := w1.trace ++ [webapi.Event.request coinID] } := by
  rw [webapi.attemptLoop, ← hw1]
  simp [webapi.get, hc, herr, hst, hlt]

/-- An attempt whose request is answered and ends the call. -/
theorem attempt_final (ctx : webapi.Context) (coinSymbol coinID : String)
    (remaining attempt : Nat) (w w1 : World)
    (hw1 : w1 = if 0 < attempt then webapi.sleep (2 * time.Second * 2 ^ (attempt - 1)) w else w)
    (hc : ctx.cancelled w1.clock = false)
    (hfin : ¬ ((w1.oracle w1.requests).err = none ∧ (w1.oracle w1.requests).status = 429 ∧
      attempt < 3)) :
    (∀ cause, (w1.oracle w1.requests).err = some cause →
      (webapi.attemptLoop ctx coinSymbol coinID 3 (2 * time.Second) (remaining + 1) attempt w).1
        = (Float64.zero, some (webapi.Error.transport cause))) ∧
    ((w1.oracle w1.requests).err = none → (w1.oracle w1.requests).status = 429 →
      (webapi.attemptLoop ctx coinSymbol coinID 3 (2 * time.Second) (remaining + 1) attempt w).1
        = (Float64.zero, some (webapi.Error.rateLimit 3))) ∧
    ((w1.oracle w1.requests).err = none → (w1.oracle w1.requests).status ≠ 429 →
      399 < (w1.oracle w1.requests).status →
      (webapi.attemptLoop ctx coinSymbol coinID 3 (2 * time.Second) (remaining + 1) attempt w).1
        = (Float64.zero, some (webapi.Error.api (w1.oracle w1.requests).status))) ∧
    ((w1.oracle w1.requests).err = none → (w1.oracle w1.requests).status ≤ 399 →
      ∀ price, (w1.oracle w1.requests).price coinID = some price →
      (webapi.attemptLoop ctx coinSymbol coinID 3 (2 * time.Second) (remaining + 1) attempt w).1
        = (price, none)) ∧
    ((w1.oracle w1.requests).err = none → (w1.oracle w1.requests).status ≤ 399 →
      (w1.oracle w1.requests).price coinID = none →
      (webapi.attemptLoop ctx coinSymbol coinID 3 (2 * time.Second) (remaining + 1) attempt w).1
        = (Float64.zero, some (webapi.Error.notFound coinSymbol coinID))) ∧
    (webapi.attemptLoop ctx coinSymbol coinID 3 (2 * time.Second) (remaining + 1) attempt w).2 =
      (if (webapi.attemptLoop ctx coinSymbol coinID 3 (2 * time.Second) (remaining + 1)
          attempt w).1.2 = none then
        { w1 with requests := w1.requests + 1,
                  clock := w1.clock + 1 * time.Second,
                  trace := w1.trace ++ [webapi.Event.request coinID,
                    webapi.Event.sleep (1 * time.Second)] }
       else
        { w1 with requests := w1.requests + 1,
                  trace := w1.trace ++ [webapi.Event.request coinID] }) := by
  rw [webapi.attemptLoop, ← hw1]
  simp only [webapi.get, hc, Bool.false_eq_true, if_false]
  generalize w1.oracle w1.requests = resp at hfin ⊢
  cases herr : resp.err with
  | some cause => simp
  | none =>
    simp only [herr, true_and] at hfin
    by_cases hst : resp.status = 429
    · have hlt : ¬ attempt < 3 := fun hlt => hfin ⟨hst, hlt⟩
      simp [hst, hlt]
    · by_cases hs : 399 < resp.status
      · simp [hst, hs]
      · have h2 : (200 ≤ resp.status ∧ resp.status ≤ 299) ∨
            ¬ (200 ≤ resp.status ∧ resp.status ≤ 299) := Classical.em _
        rcases h2 with h2 | h2
        · cases h3 : List.lookup coinID resp.result with
          | none => simp [hst, hs, h2, h3, webapi.Response.price]
          | some priceData =>
            cases h4 : List.lookup "usd" priceData with
            | none => simp [hst, hs, h2, h3, h4, webapi.Response.price]
            | some price =>
              simp [hst, hs, h2, h3, h4, webapi.Response.price, webapi.sleep]
        · simp [hst, hs, h2, webapi.Response.price]

/-- The loop entered at attempt `a` ends at this attempt when the context is cancelled by
the time of its request or the answer does not lead to a retry. -/
theorem loop_ends_now (ctx : webapi.Context) (coinSymbol coinID : String)
    (remaining a : Nat) (w w1 : World) (ha : a ≤ 3)
    (hw1 : w1 = if 0 < a then webapi.sleep (2 * time.Second * 2 ^ (a - 1)) w else w)
    (h : ctx.cancelled w1.clock = true ∨
      ¬ ((w1.oracle w1.requests).err = none ∧ (w1.oracle w1.requests).status = 429 ∧ a < 3)) :
    webapi.Outcome ctx coinSymbol coinID (reference.schedule coinID) w a a
      (webapi.attemptLoop ctx coinSymbol coinID 3 (2 * time.Second) (remaining + 1) a w) := by
  have hS : time.Second = 1000000000 := rfl
  have ho : w1.oracle = w.oracle := by rw [hw1]; split <;> rfl
  have hq : w1.requests = w.requests := by rw [hw1]; split <;> rfl
  have hl : w1.ledger = w.ledger := by rw [hw1]; split <;> rfl
  have hg : w1.logged = w.logged := by rw [hw1]; split <;> rfl
  have hk : w1.clock =
      w.clock + ((2 : Int) ^ (a + 1) - (if a = 0 then 2 else 2 ^ a)) * time.Second := by
    rw [hw1, hS]
    interval_cases a <;> simp [webapi.sleep]
  have ht : w1.trace =
      w.trace ++ (((reference.schedule coinID).take (2 * a)).drop (2 * a - 1)) := by
    rw [hw1, hS]
    interval_cases a <;> simp [webapi.sleep, reference.schedule, hS]
  unfold webapi.Outcome
  rw [Nat.sub_self, Nat.add_zero, ← hk, ← ho, ← hq]
  by_cases hc : ctx.cancelled w1.clock = true
  · rw [attempt_refused ctx coinSymbol coinID remaining a w w1 hw1 hc]
    refine ⟨rfl, hl, hg, Or.inl ⟨hc, rfl, rfl, rfl, ?_⟩⟩
    simp only [ht, List.append_assoc]
  · have hc2 : ctx.cancelled w1.clock = false := by simpa using hc
    have hfin := h.resolve_left hc
    obtain ⟨f1, f2, f3, f4, f5, f6⟩ :=
      attempt_final ctx coinSymbol coinID remaining a w w1 hw1 hc2 hfin
    refine ⟨?_, ?_, ?_, Or.inr ⟨hc2, hfin, ?_, f1, f2, f3, f4, f5, ?_, ?_⟩⟩
    · rw [f6]; split <;> rfl
    · rw [f6]; split <;> exact hl
    · rw [f6]; split <;> exact hg
    · rw [f6]; split <;> rfl
    · intro hn
      rw [f6, if_pos hn]
      exact ⟨rfl, by simp only [ht, List.append_assoc]⟩
    · intro hn
      rw [f6, if_neg hn]
      exact ⟨rfl, by simp only [ht, List.append_assoc]⟩

theorem off_step (a n : Nat) (h : a < n) (hn : n ≤ 3) :
    (if 0 < a then 2 * time.Second * 2 ^ (a - 1) else 0) +
        ((2 : Int) ^ (n + 1) - (if a + 1 = 0 then 2 else 2 ^ (a + 1))) * time.Second =
      ((2 : Int) ^ (n + 1) - (if a = 0 then 2 else 2 ^ a)) * time.Second := by
  have hS : time.Second = 1000000000 := rfl
  rw [hS]
  interval_cases n <;> interval_cases a <;> simp

theorem off_now (a : Nat) (ha : a ≤ 3) :
    (if 0 < a then 2 * time.Second * 2 ^ (a - 1) else 0) =
      ((2 : Int) ^ (a + 1) - (if a = 0 then 2 else 2 ^ a)) * time.Second := by
  have hS : time.Second = 1000000000 := rfl
  rw [hS]
  interval_cases a <;> simp

theorem tr_step (coinID : String) (a n : Nat) (h : a < n) (hn : n ≤ 3) :
    (if 0 < a then [webapi.Event.sleep (2 * time.Second * 2 ^ (a - 1))] else []) ++
        webapi.Event.request coinID ::
          ((reference.schedule coinID).take (2 * n)).drop (2 * (a + 1) - 1) =
      ((reference.schedule coinID).take (2 * n)).drop (2 * a - 1) := by
  have hS : time.Second = 1000000000 := rfl
  interval_cases n <;> interval_cases a <;> simp [reference.schedule, hS]

/-- The retry loop entered at attempt `a` with `3 - a` retries left: it ends at some attempt
`n` from `a` to 3; every earlier attempt was answered 429, without error, at an instant when
the context was not cancelled; and the last attempt decides the result. -/
theorem loop_spec (ctx : webapi.Context) (coinSymbol coinID : String) :
    ∀ (remaining a : Nat) (w : World), a + remaining = 3 →
    ∃ n, a ≤ n ∧ n ≤ 3 ∧
      (∀ i, a ≤ i → i < n →
        (w.oracle (w.requests + (i - a))).err = none ∧
        (w.oracle (w.requests + (i - a))).status = 429 ∧
        ctx.cancelled
          (w.clock + ((2 : Int) ^ (i + 1) - (if a = 0 then 2 else 2 ^ a)) * time.Second)
          = false) ∧
      webapi.Outcome ctx coinSymbol coinID (reference.schedule coinID) w a n
        (webapi.attemptLoop ctx coinSymbol coinID 3 (2 * time.Second) (remaining + 1) a w) := by
  intro remaining
  induction remaining with
  | zero =>
    intro a w h
    refine ⟨a, le_refl a, by omega, fun i h1 h2 => absurd h1 (by omega), ?_⟩
    exact loop_ends_now ctx coinSymbol coinID 0 a w _ (by omega) rfl
      (Or.inr (fun hh => by omega))
  | succ remaining ih =>
    intro a w h
    by_cases hend : ctx.cancelled
          (if 0 < a then webapi.sleep (2 * time.Second * 2 ^ (a - 1)) w else w).clock = true ∨
        ¬ (((if 0 < a then webapi.sleep (2 * time.Second * 2 ^ (a - 1)) w else w).oracle
              (if 0 < a then webapi.sleep (2 * time.Second * 2 ^ (a - 1)) w else w).requests).err
              = none ∧
           ((if 0 < a then webapi.sleep (2 * time.Second * 2 ^ (a - 1)) w else w).oracle
              (if 0 < a then webapi.sleep (2 * time.Second * 2 ^ (a - 1)) w else w).requests).status
              = 429 ∧ a < 3)
    · exact ⟨a, le_refl a, by omega, fun i h1 h2 => absurd h1 (by omega),
        loop_ends_now ctx coinSymbol coinID (remaining + 1) a w _ (by omega) rfl hend⟩
    · generalize hw1 : (if 0 < a then webapi.sleep (2 * time.Second * 2 ^ (a - 1)) w else w)
        = w1 at hend
      have hw1 := hw1.symm
      have ho : w1.oracle = w.oracle := by rw [hw1]; split <;> rfl
      have hq : w1.requests = w.requests := by rw [hw1]; split <;> rfl
      have hl : w1.ledger = w.ledger := by rw [hw1]; split <;> rfl
      have hg : w1.logged = w.logged := by rw [hw1]; split <;> rfl
      have hk : w1.clock = w.clock + (if 0 < a then 2 * time.Second * 2 ^ (a - 1) else 0) := by
        rw [hw1]; split <;> simp [webapi.sleep]
      have ht : w1.trace = w.trace ++
          (if 0 < a then [webapi.Event.sleep (2 * time.Second * 2 ^ (a - 1))] else []) := by
        rw [hw1]; split <;> simp [webapi.sleep]
      rw [not_or, not_not] at hend
      obtain ⟨hc, herr, hst, hlt⟩ := hend
      have hc2 : ctx.cancelled w1.clock = false := by simpa using hc
      rw [attempt_retry ctx coinSymbol coinID (remaining + 1) a w w1 hw1 hc2 herr hst hlt]
      obtain ⟨n, hn1, hn2, hM, hO⟩ := ih (a + 1)
        { w1 with requests := w1.requests + 1,
                  trace := w1.trace ++ [webapi.Event.request coinID] } (by omega)
      have e1 : w1.requests + 1 + (n - (a + 1)) = w.requests + (n - a) := by omega
      have e2 : w1.clock + ((2 : Int) ^ (n + 1) - (if a + 1 = 0 then 2 else 2 ^ (a + 1)))
          * time.Second =
          w.clock + ((2 : Int) ^ (n + 1) - (if a = 0 then 2 else 2 ^ a)) * time.Second := by
        rw [hk, add_assoc, off_step a n (by omega) hn2]
      have e3 : w1.trace ++ [webapi.Event.request coinID] ++
          ((reference.schedule coinID).take (2 * n)).drop (2 * (a + 1) - 1) =
          w.trace ++ ((reference.schedule coinID).take (2 * n)).drop (2 * a - 1) := by
        rw [ht, List.append_assoc, List.append_assoc, List.singleton_append,
          tr_step coinID a n (by omega) hn2]
      refine ⟨n, by omega, hn2, ?_, ?_⟩
      · intro i h1 h2
        by_cases hi : i = a
        · subst hi
          rw [Nat.sub_self, Nat.add_zero, ← hq, ← ho, ← off_now i (by omega), ← hk]
          exact ⟨herr, hst, hc2⟩
        · have := hM i (by omega) h2
          simp only [] at this
          have e4 : w1.requests + 1 + (i - (a + 1)) = w.requests + (i - a) := by omega
          have e5 : w1.clock + ((2 : Int) ^ (i + 1) - (if a + 1 = 0 then 2 else 2 ^ (a + 1)))
              * time.Second =
              w.clock + ((2 : Int) ^ (i + 1) - (if a = 0 then 2 else 2 ^ a)) * time.Second := by
            rw [hk, add_assoc, off_step a i (by omega) (by omega)]
          rw [e4, e5, ho] at this
          exact this
      · unfold webapi.Outcome at hO ⊢
        simp only [] at hO
        rw [e1, e2, e3] at hO
        simp only [ho, hl, hg] at hO ⊢
        exact hO

/-- The call `GetCurrentPrice`: it ends at some attempt `n` from 0 to 3, which happens
`2^(n+1) - 2` seconds after the start; every earlier attempt was answered 429, without error,
at an instant when the context was not cancelled; and the last attempt decides the result. -/
theorem GetCurrentPrice_spec (table : unicode.CaseTable) (ctx : webapi.Context) (s : String)
    (w : World) :
    ∃ n, n ≤ 3 ∧
      (∀ i, i < n →
        (w.oracle (w.requests + i)).err = none ∧ (w.oracle (w.requests + i)).status = 429 ∧
        ctx.cancelled (w.clock + ((2 : Int) ^ (i + 1) - 2) * time.Second) = false) ∧
      webapi.Outcome ctx s (webapi.symbolToCoinID table s)
        (reference.schedule (webapi.symbolToCoinID table s)) w 0 n
        (webapi.GetCurrentPrice table ctx s w) := by
  obtain ⟨n, _, hn, hM, hO⟩ := loop_spec ctx s (webapi.symbolToCoinID table s) 3 0 w rfl
  refine ⟨n, hn, ?_, hO⟩
  intro i hi
  have := hM i (Nat.zero_le i) hi
  simpa using this

/-! ## C15: the retry schedule -/

/-- C15: the retry schedule of `GetCurrentPrice`. The call makes at most 4 requests; a
request is followed by a further one only when it was answered with status 429; the steps of
the call are a prefix of the schedule request, sleep 2 s, request, sleep 4 s, request,
sleep 8 s, request (so that the k-th retry comes after a sleep of 2^k seconds), ended by the
last attempt and, after a success, the pace of one second; and when the oracle answers 429
four times (the context not being cancelled in these 14 seconds) the call has made exactly
4 requests, slept 2 + 4 + 8 = 14 seconds in total, and returns the rate-limit error with
price 0. -/
theorem retry_schedule (table : unicode.CaseTable) (ctx : webapi.Context) (s : String)
    (w : World) :
    (webapi.GetCurrentPrice table ctx s w).2.requests ≤ w.requests + 4 ∧
    (∀ j, w.requests + j + 1 < (webapi.GetCurrentPrice table ctx s w).2.requests →
      (w.oracle (w.requests + j)).status = 429) ∧
    (∃ n, n ≤ 3 ∧
      ∃ last, last ∈ [webapi.Event.request (webapi.symbolToCoinID table s),
          webapi.Event.refused] ∧
      ∃ pace, pace ∈ [[], [webapi.Event.sleep (1 * time.Second)]] ∧
      (webapi.GetCurrentPrice table ctx s w).2.trace =
        w.trace ++ (reference.schedule (webapi.symbolToCoinID table s)).take (2 * n) ++
          [last] ++ pace) ∧
    (ctx.cancelled (w.clock + 14 * time.Second) = false →
      (∀ j, j < 4 → (w.oracle (w.requests + j)).err = none ∧
        (w.oracle (w.requests + j)).status = 429) →
      (webapi.GetCurrentPrice table ctx s w).1 =
        (Float64.zero, some (webapi.Error.rateLimit 3)) ∧
      (webapi.GetCurrentPrice table ctx s w).2.requests = w.requests + 4 ∧
      (webapi.GetCurrentPrice table ctx s w).2.clock = w.clock + 14 * time.Second ∧
      (webapi.GetCurrentPrice table ctx s w).2.trace =
        w.trace ++ reference.schedule (webapi.symbolToCoinID table s) ∧
      reference.slept (reference.schedule (webapi.symbolToCoinID table s)) =
        14 * time.Second ∧
      reference.requestCount (reference.schedule (webapi.symbolToCoinID table s)) = 4) := by
  obtain ⟨n, hn, hM, hO⟩ := GetCurrentPrice_spec table ctx s w
  unfold webapi.Outcome at hO
  simp only [if_pos, Nat.sub_zero, Nat.mul_zero, Nat.zero_sub, List.drop_zero] at hO
  obtain ⟨-, -, -, hO⟩ := hO
  have hS : time.Second = 1000000000 := rfl
  refine ⟨?_, ?_, ?_, ?_⟩
  · rcases hO with ⟨-, -, hq, -⟩ | ⟨-, -, hq, -⟩ <;> omega
  · intro j hj
    have hjn : j < n := by
      rcases hO with ⟨-, -, hq, -⟩ | ⟨-, -, hq, -⟩ <;> omega
    exact (hM j hjn).2.1
  · refine ⟨n, hn, ?_⟩
    rcases hO with ⟨-, -, -, -, ht⟩ | ⟨-, -, -, -, -, -, -, -, h1, h2⟩
    · exact ⟨webapi.Event.refused, by simp, [], by simp, by rw [ht]; simp⟩
    · by_cases hr : (webapi.GetCurrentPrice table ctx s w).1.2 = none
      · exact ⟨_, List.mem_cons_self _ _, [webapi.Event.sleep (1 * time.Second)], by simp,
          by rw [(h1 hr).2]; simp⟩
      · exact ⟨_, List.mem_cons_self _ _, [], by simp, by rw [(h2 hr).2]; simp⟩
  · intro hc h429
    have hn3 : n = 3 := by
      by_contra hne
      have hlt : n < 3 := by omega
      rcases hO with ⟨hcn, -⟩ | ⟨-, hfin, -⟩
      · have := cancelled_mono ctx
          (w.clock + ((2 : Int) ^ (n + 1) - 2) * time.Second) _ hc
          (by rw [hS]; interval_cases n <;> simp)
        rw [this] at hcn
        cases hcn
      · exact hfin ⟨(h429 n (by omega)).1, (h429 n (by omega)).2, hlt⟩
    subst hn3
    have hc3 : ctx.cancelled (w.clock + ((2 : Int) ^ (3 + 1) - 2) * time.Second) = false := by
      have e : ((2 : Int) ^ (3 + 1) - 2) = 14 := by norm_num
      rw [e]
      exact hc
    rcases hO with ⟨hcn, -⟩ | ⟨-, -, hq, -, o2, -, -, -, -, h2⟩
    · rw [hc3] at hcn
      cases hcn
    · have hr := o2 (h429 3 (by omega)).1 (h429 3 (by omega)).2
      have hne : (webapi.GetCurrentPrice table ctx s w).1.2 ≠ none := by rw [hr]; simp
      refine ⟨hr, hq, ?_, ?_, rfl, rfl⟩
      · rw [(h2 hne).1]
        norm_num
      · rw [(h2 hne).2]
        simp [reference.schedule]

/-- Witness of C15, scenario S4: the oracle answers 429 to every request for the price of
BTC. -/
theorem retry_schedule_witness :
    (webapi.GetCurrentPrice (fun c => c) background "BTC" (freshWorld (oracleAfter 4 respPrice))).1
      = (Float64.zero, some (webapi.Error.rateLimit 3)) ∧
    (webapi.GetCurrentPrice (fun c => c) background "BTC"
      (freshWorld (oracleAfter 4 respPrice))).2.requests = 4 ∧
    (webapi.GetCurrentPrice (fun c => c) background "BTC"
      (freshWorld (oracleAfter 4 respPrice))).2.clock = 14 * time.Second :=
  have h := (retry_schedule (fun c => c) background "BTC"
    (freshWorld (oracleAfter 4 respPrice))).2.2.2 (by decide) (by decide)
  ⟨h.1, h.2.1, h.2.2.1.trans (by decide)⟩

/-! ## C16: retry arithmetic -/

/-- C16, counterexample to the claim as stated: the oracle answers the first request with
status 200 and a body without the price. The call returns the price-not-found error after
one request and no sleep at all: the pace of one second is not made. -/
theorem retry_arithmetic_without_price :
    (oracleAfter 0 (respStatus 200) 0).err = none ∧
    (oracleAfter 0 (respStatus 200) 0).status = 200 ∧
    (webapi.GetCurrentPrice (fun c => c) background "BTC"
      (freshWorld (oracleAfter 0 (respStatus 200)))).1 =
        (Float64.zero, some (webapi.Error.notFound "BTC" "bitcoin")) ∧
    (webapi.GetCurrentPrice (fun c => c) background "BTC"
      (freshWorld (oracleAfter 0 (respStatus 200)))).2.requests = 1 ∧
    (webapi.GetCurrentPrice (fun c => c) background "BTC"
      (freshWorld (oracleAfter 0 (respStatus 200)))).2.clock = 0 ∧
    reference.slept (webapi.GetCurrentPrice (fun c => c) background "BTC"
      (freshWorld (oracleAfter 0 (respStatus 200)))).2.trace = 0 := by
  decide

/-- C16, amended: for every k in 0..3, when the oracle answers k consecutive 429 responses
and then a 2xx response that carries the usd price of the requested coin id (the context not
being cancelled by the time of the last request), `GetCurrentPrice` returns that price after
exactly k + 1 requests and a total sleep of 2 + 4 + … + 2^k seconds of backoff plus the pace
of one second, which is 2^(k+1) − 1 seconds. -/
theorem retry_arithmetic (table : unicode.CaseTable) (ctx : webapi.Context) (s : String)
    (w : World) (k : Nat) (price : Float64) (hk : k ≤ 3)
    (h429 : ∀ j, j < k → (w.oracle (w.requests + j)).err = none ∧
      (w.oracle (w.requests + j)).status = 429)
    (herr : (w.oracle (w.requests + k)).err = none)
    (h2xx : 200 ≤ (w.oracle (w.requests + k)).status ∧ (w.oracle (w.requests + k)).status ≤ 299)
    (hprice : (w.oracle (w.requests + k)).price (webapi.symbolToCoinID table s) = some price)
    (hctx : ctx.cancelled (w.clock + ((2 : Int) ^ (k + 1) - 2) * time.Second) = false) :
    (webapi.GetCurrentPrice table ctx s w).1 = (price, none) ∧
    (webapi.GetCurrentPrice table ctx s w).2.requests = w.requests + k + 1 ∧
    (webapi.GetCurrentPrice table ctx s w).2.clock =
      w.clock + ((2 : Int) ^ (k + 1) - 1) * time.Second ∧
    ∃ steps, (webapi.GetCurrentPrice table ctx s w).2.trace = w.trace ++ steps ∧
      reference.slept steps = ((2 : Int) ^ (k + 1) - 1) * time.Second ∧
      reference.requestCount steps = k + 1 := by
  obtain ⟨n, hn, hM, hO⟩ := GetCurrentPrice_spec table ctx s w
  unfold webapi.Outcome at hO
  simp only [if_pos, Nat.sub_zero, Nat.mul_zero, Nat.zero_sub, List.drop_zero] at hO
  obtain ⟨-, -, -, hO⟩ := hO
  have hS : time.Second = 1000000000 := rfl
  have hnk : n = k := by
    rcases Nat.lt_trichotomy n k with hlt | heq | hgt
    · exfalso
      rcases hO with ⟨hcn, -⟩ | ⟨-, hfin, -⟩
      · have := cancelled_mono ctx
          (w.clock + ((2 : Int) ^ (n + 1) - 2) * time.Second) _ hctx
          (by rw [hS]; interval_cases k <;> interval_cases n <;> simp)
        rw [this] at hcn
        cases hcn
      · exact hfin ⟨(h429 n hlt).1, (h429 n hlt).2, by omega⟩
    · exact heq
    · exfalso
      have := (hM k hgt).2.1
      omega
  subst hnk
  rcases hO with ⟨hcn, -⟩ | ⟨-, -, hq, -, -, -, o4, -, h1, -⟩
  · rw [hctx] at hcn
    cases hcn
  · have hr := o4 herr (by omega) price hprice
    have hnone : (webapi.GetCurrentPrice table ctx s w).1.2 = none := by rw [hr]
    refine ⟨hr, hq, ?_, _, (h1 hnone).2.trans (List.append_assoc _ _ _), ?_, ?_⟩
    · rw [(h1 hnone).1]
      ring
    · interval_cases n <;> rfl
    · interval_cases n <;> rfl

/-- Witness of C16, amended: the oracle answers 429 twice and then 200 with the price of
bitcoin; the call returns the price after 3 requests and 2 + 4 + 1 = 7 seconds. -/
theorem retry_arithmetic_witness :
    (webapi.GetCurrentPrice (fun c => c) background "BTC"
      (freshWorld (oracleAfter 2 respPrice))).1 = (f45100, none) ∧
    (webapi.GetCurrentPrice (fun c => c) background "BTC"
      (freshWorld (oracleAfter 2 respPrice))).2.requests = 3 ∧
    (webapi.GetCurrentPrice (fun c => c) background "BTC"
      (freshWorld (oracleAfter 2 respPrice))).2.clock = 7 * time.Second :=
  have h := retry_arithmetic (fun c => c) background "BTC" (freshWorld (oracleAfter 2 respPrice))
    2 f45100 (by decide) (by decide) (by decide) (by decide) (by decide) (by decide)
  ⟨h.1, h.2.1, h.2.2.1.trans (by decide)⟩

/-! ## C17: immediate failure -/

/-- C17, counterexample to the claim as stated: the oracle answers with status 304. The call
fails at once, after one request, but with the price-not-found error, which does not carry
the status code; the error that carries the status is returned only from status 400 on. -/
theorem status_304_error_without_status :
    (webapi.GetCurrentPrice (fun c => c) background "BTC"
      (freshWorld (oracleAfter 0 (respStatus 304)))).1 =
        (Float64.zero, some (webapi.Error.notFound "BTC" "bitcoin")) ∧
    (webapi.GetCurrentPrice (fun c => c) background "BTC"
      (freshWorld (oracleAfter 0 (respStatus 304)))).1.2 ≠ some (webapi.Error.api 304) ∧
    (webapi.GetCurrentPrice (fun c => c) background "BTC"
      (freshWorld (oracleAfter 0 (respStatus 304)))).2.requests = 1 := by
  decide

/-- C17, amended: immediate failure of `GetCurrentPrice`. When a request of the call (the
request number j) meets a transport error, the call returns an error that wraps it and
makes no further request. When a request is answered with a status that is not 2xx and not
429, the call fails at once, without retry: with the error that carries the status code for
a status of 400 or more (4xx, 5xx), and with the price-not-found error, which does not carry
the status, for a status below 400 (1xx, 3xx). -/
theorem immediate_failure (table : unicode.CaseTable) (ctx : webapi.Context) (s : String)
    (w : World) (j : Nat)
    (hj : w.requests + j < (webapi.GetCurrentPrice table ctx s w).2.requests) :
    (∀ cause, (w.oracle (w.requests + j)).err = some cause →
      (webapi.GetCurrentPrice table ctx s w).1 =
        (Float64.zero, some (webapi.Error.transport cause)) ∧
      (webapi.GetCurrentPrice table ctx s w).2.requests = w.requests + j + 1) ∧
    ((w.oracle (w.requests + j)).err = none →
      (w.oracle (w.requests + j)).status ≠ 429 →
      ¬ (200 ≤ (w.oracle (w.requests + j)).status ∧ (w.oracle (w.requests + j)).status ≤ 299) →
      (webapi.GetCurrentPrice table ctx s w).2.requests = w.requests + j + 1 ∧
      (400 ≤ (w.oracle (w.requests + j)).status →
        (webapi.GetCurrentPrice table ctx s w).1 =
          (Float64.zero, some (webapi.Error.api (w.oracle (w.requests + j)).status))) ∧
      ((w.oracle (w.requests + j)).status < 400 →
        (webapi.GetCurrentPrice table ctx s w).1 =
          (Float64.zero,
           some (webapi.Error.notFound s (webapi.symbolToCoinID table s))))) := by
  obtain ⟨n, hn, hM, hO⟩ := GetCurrentPrice_spec table ctx s w
  unfold webapi.Outcome at hO
  simp only [if_pos, Nat.sub_zero, Nat.mul_zero, Nat.zero_sub, List.drop_zero] at hO
  obtain ⟨-, -, -, hO⟩ := hO
  have hcase : j < n ∨ (j = n ∧
      (webapi.GetCurrentPrice table ctx s w).2.requests = w.requests + n + 1) := by
    rcases hO with ⟨-, -, hq, -⟩ | ⟨-, -, hq, -⟩
    · left; omega
    · by_cases h : j < n
      · exact Or.inl h
      · right; exact ⟨by omega, hq⟩
  constructor
  · intro cause hc
    rcases hcase with hlt | ⟨rfl, hq⟩
    · have := (hM j hlt).1
      rw [hc] at this
      cases this
    · rcases hO with ⟨-, -, hq2, -⟩ | ⟨-, -, -, o1, -⟩
      · omega
      · exact ⟨o1 cause hc, hq⟩
  · intro herr hst h2xx
    rcases hcase with hlt | ⟨rfl, hq⟩
    · exact absurd (hM j hlt).2.1 hst
    · rcases hO with ⟨-, -, hq2, -⟩ | ⟨-, -, -, -, -, o3, -, o5, -⟩
      · omega
      · refine ⟨hq, fun h4 => o3 herr hst (by omega), fun h4 => o5 herr (by omega) ?_⟩
        unfold webapi.Response.price
        rw [if_neg h2xx]

/-- Witness of C17, amended: a transport error on the first request, and the statuses 503
and 304 after one 429. -/
theorem immediate_failure_witness :
    (webapi.GetCurrentPrice (fun c => c) background "BTC" (freshWorld (oracleAfter 0 respDown))).1
      = (Float64.zero,
         some (webapi.Error.transport (webapi.Cause.other "connection refused"))) ∧
    (webapi.GetCurrentPrice (fun c => c) background "BTC"
      (freshWorld (oracleAfter 0 respDown))).2.requests = 1 ∧
    (webapi.GetCurrentPrice (fun c => c) background "BTC"
      (freshWorld (oracleAfter 1 (respStatus 503)))).1 =
        (Float64.zero, some (webapi.Error.api 503)) ∧
    (webapi.GetCurrentPrice (fun c => c) background "BTC"
      (freshWorld (oracleAfter 1 (respStatus 304)))).2.requests = 2 :=
  ⟨((immediate_failure (fun c => c) background "BTC" (freshWorld (oracleAfter 0 respDown)) 0
      (by decide)).1 (webapi.Cause.other "connection refused") (by decide)).1,
   ((immediate_failure (fun c => c) background "BTC" (freshWorld (oracleAfter 0 respDown)) 0
      (by decide)).1 (webapi.Cause.other "connection refused") (by decide)).2,
   ((immediate_failure (fun c => c) background "BTC"
      (freshWorld (oracleAfter 1 (respStatus 503))) 1
      (by decide)).2 (by decide) (by decide) (by decide)).2.1 (by decide),
   ((immediate_failure (fun c => c) background "BTC"
      (freshWorld (oracleAfter 1 (respStatus 304))) 1
      (by decide)).2 (by decide) (by decide) (by decide)).1⟩

/-! ## C18: cancellation -/

/-- C18, counterexample to the claim as stated. First call: the oracle answers 429 and the
context is cancelled one second later, during the backoff of 2 seconds; the backoff runs to
completion, and only then the next attempt is refused with the context's error. Second
call: the oracle answers with the price and the context is cancelled half a second later,
during the pace; the pace runs to completion and the call returns the price with no
error. -/
theorem sleep_not_cancellable :
    (webapi.GetCurrentPrice (fun c => c) ⟨some 1000000000⟩ "BTC"
      (freshWorld (oracleAfter 1 respPrice))).2.trace =
        [webapi.Event.request "bitcoin", webapi.Event.sleep (2 * time.Second),
         webapi.Event.refused] ∧
    (webapi.GetCurrentPrice (fun c => c) ⟨some 1000000000⟩ "BTC"
      (freshWorld (oracleAfter 1 respPrice))).2.clock = 2 * time.Second ∧
    (webapi.GetCurrentPrice (fun c => c) ⟨some 500000000⟩ "BTC"
      (freshWorld (oracleAfter 0 respPrice))).1 = (f45100, none) ∧
    (webapi.GetCurrentPrice (fun c => c) ⟨some 500000000⟩ "BTC"
      (freshWorld (oracleAfter 0 respPrice))).2.trace =
        [webapi.Event.request "bitcoin", webapi.Event.sleep (1 * time.Second)] ∧
    (webapi.GetCurrentPrice (fun c => c) ⟨some 500000000⟩ "BTC"
      (freshWorld (oracleAfter 0 respPrice))).2.clock = 1 * time.Second := by
  decide

/-- C18, amended: cancellation of `GetCurrentPrice`. No request is sent once the context is
cancelled: the request number j of a call is sent `2^(j+1) - 2` seconds after the start, at
an instant when the context is not cancelled. The attempt that follows the cancellation is
refused and the call returns the error that wraps the context's error: when the attempts
before attempt n were answered 429 and the context is cancelled by the time of attempt n,
the call returns that error after n requests; the backoffs before attempt n have run to
completion. A call that starts with a cancelled context returns the error at once, without
sleep and without request. The sleeps are not interrupted. -/
theorem cancellation (table : unicode.CaseTable) (ctx : webapi.Context) (s : String)
    (w : World) :
    (∀ j, w.requests + j < (webapi.GetCurrentPrice table ctx s w).2.requests →
      ctx.cancelled (w.clock + ((2 : Int) ^ (j + 1) - 2) * time.Second) = false) ∧
    (∀ n, n ≤ 3 →
      (∀ i, i < n → (w.oracle (w.requests + i)).err = none ∧
        (w.oracle (w.requests + i)).status = 429 ∧
        ctx.cancelled (w.clock + ((2 : Int) ^ (i + 1) - 2) * time.Second) = false) →
      ctx.cancelled (w.clock + ((2 : Int) ^ (n + 1) - 2) * time.Second) = true →
      (webapi.GetCurrentPrice table ctx s w).1 =
        (Float64.zero, some (webapi.Error.transport webapi.Cause.canceled)) ∧
      (webapi.GetCurrentPrice table ctx s w).2.requests = w.requests + n ∧
      (webapi.GetCurrentPrice table ctx s w).2.clock =
        w.clock + ((2 : Int) ^ (n + 1) - 2) * time.Second ∧
      (webapi.GetCurrentPrice table ctx s w).2.trace =
        w.trace ++ (reference.schedule (webapi.symbolToCoinID table s)).take (2 * n) ++
          [webapi.Event.refused]) ∧
    (ctx.cancelled w.clock = true →
      (webapi.GetCurrentPrice table ctx s w).1 =
        (Float64.zero, some (webapi.Error.transport webapi.Cause.canceled)) ∧
      (webapi.GetCurrentPrice table ctx s w).2.requests = w.requests ∧
      (webapi.GetCurrentPrice table ctx s w).2.clock = w.clock ∧
      (webapi.GetCurrentPrice table ctx s w).2.trace = w.trace ++ [webapi.Event.refused]) := by
  obtain ⟨n, hn, hM, hO⟩ := GetCurrentPrice_spec table ctx s w
  unfold webapi.Outcome at hO
  simp only [if_pos, Nat.sub_zero, Nat.mul_zero, Nat.zero_sub, List.drop_zero] at hO
  obtain ⟨-, -, -, hO⟩ := hO
  have hC : ∀ m, m ≤ 3 →
      (∀ i, i < m → (w.oracle (w.requests + i)).err = none ∧
        (w.oracle (w.requests + i)).status = 429 ∧
        ctx.cancelled (w.clock + ((2 : Int) ^ (i + 1) - 2) * time.Second) = false) →
      ctx.cancelled (w.clock + ((2 : Int) ^ (m + 1) - 2) * time.Second) = true →
      (webapi.GetCurrentPrice table ctx s w).1 =
        (Float64.zero, some (webapi.Error.transport webapi.Cause.canceled)) ∧
      (webapi.GetCurrentPrice table ctx s w).2.requests = w.requests + m ∧
      (webapi.GetCurrentPrice table ctx s w).2.clock =
        w.clock + ((2 : Int) ^ (m + 1) - 2) * time.Second ∧
      (webapi.GetCurrentPrice table ctx s w).2.trace =
        w.trace ++ (reference.schedule (webapi.symbolToCoinID table s)).take (2 * m) ++
          [webapi.Event.refused] := by
    intro m hm h429 hc
    have hnm : n = m := by
      rcases Nat.lt_trichotomy n m with hlt | heq | hgt
      · exfalso
        rcases hO with ⟨hcn, -⟩ | ⟨-, hfin, -⟩
        · rw [(h429 n hlt).2.2] at hcn
          cases hcn
        · exact hfin ⟨(h429 n hlt).1, (h429 n hlt).2.1, by omega⟩
      · exact heq
      · exfalso
        have := (hM m hgt).2.2
        rw [hc] at this
        cases this
    subst hnm
    rcases hO with ⟨-, hr, hq, hk, ht⟩ | ⟨hcn, -⟩
    · exact ⟨hr, hq, hk, ht⟩
    · rw [hc] at hcn
      cases hcn
  refine ⟨?_, hC, ?_⟩
  · intro j hj
    rcases hO with ⟨-, -, hq, -⟩ | ⟨hcn, -, hq, -⟩
    · exact (hM j (by omega)).2.2
    · by_cases h : j < n
      · exact (hM j h).2.2
      · have : j = n := by omega
        subst this
        exact hcn
  · intro hc
    have h0 := hC 0 (by omega) (fun i hi => absurd hi (by omega)) (by simpa using hc)
    simpa using h0

/-- Witness of C18, amended: the oracle answers 429 and the context is cancelled one second
later; the second attempt, 2 seconds after the start, is refused and the call returns the
context's error after one request. -/
theorem cancellation_witness :
    (webapi.GetCurrentPrice (fun c => c) ⟨some 1000000000⟩ "BTC"
      (freshWorld (oracleAfter 1 respPrice))).1 =
        (Float64.zero, some (webapi.Error.transport webapi.Cause.canceled)) ∧
    (webapi.GetCurrentPrice (fun c => c) ⟨some 1000000000⟩ "BTC"
      (freshWorld (oracleAfter 1 respPrice))).2.requests = 1 :=
  have h := (cancellation (fun c => c) ⟨some 1000000000⟩ "BTC"
    (freshWorld (oracleAfter 1 respPrice))).2.1 1 (by decide) (by decide) (by decide)
  ⟨h.1, h.2.1⟩

/-! ## The orchestrator: facts about the parse loop, the fill and the write-back -/

theorem parseRows_records : ∀ (data : List (List Cell)) (i : Nat),
    (usecase.parseRows i data).1 = reference.decoded data
  | [], _ => rfl
  | row :: rest, i => by
    unfold usecase.parseRows reference.decoded
    rw [List.filterMap_cons]
    cases h : ParseFromRow row with
    | error err => exact parseRows_records rest (i + 1)
    | ok record =>
      simp only
      rw [parseRows_records rest (i + 1)]
      rfl

theorem parseRows_messages : ∀ (data : List (List Cell)) (i : Nat),
    (usecase.parseRows i data).2 =
      (data.enumFrom i).filterMap (fun p =>
        match ParseFromRow p.2 with
        | Except.ok _ => none
        | Except.error err =>
          some ("Row " ++ usecase.itoa (p.1 + 2) ++ ": parse error: " ++ err))
  | [], _ => rfl
  | row :: rest, i => by
    unfold usecase.parseRows
    rw [List.enumFrom_cons, List.filterMap_cons]
    cases h : ParseFromRow row with
    | error err =>
      simp only
      rw [parseRows_messages rest (i + 1)]
    | ok record =>
      simp only
      rw [parseRows_messages rest (i + 1)]

theorem failures_enumFrom : ∀ (data : List (List Cell)) (i : Nat),
    (data.enumFrom i).filterMap (fun p =>
        match ParseFromRow p.2 with
        | Except.ok _ => none
        | Except.error err =>
          some ("Row " ++ usecase.itoa (p.1 + 2) ++ ": parse error: " ++ err)) =
      ((data.enumFrom i).filterMap (fun p =>
        match ParseFromRow p.2 with
        | Except.ok _ => none
        | Except.error err => some (p.1, err))).map
        (fun f => "Row " ++ usecase.itoa (f.1 + 2) ++ ": parse error: " ++ f.2)
  | [], _ => rfl
  | row :: rest, i => by
    rw [List.enumFrom_cons, List.filterMap_cons, List.filterMap_cons]
    cases h : ParseFromRow row with
    | error err =>
      simp only [List.map_cons]
      rw [failures_enumFrom rest (i + 1)]
    | ok record =>
      simp only
      rw [failures_enumFrom rest (i + 1)]

theorem decoded_failures_length : ∀ (data : List (List Cell)) (i : Nat),
    (reference.decoded data).length +
      ((data.enumFrom i).filterMap (fun p =>
        match ParseFromRow p.2 with
        | Except.ok _ => none
        | Except.error err => some (p.1, err))).length = data.length
  | [], _ => rfl
  | row :: rest, i => by
    unfold reference.decoded
    rw [List.enumFrom_cons, List.filterMap_cons, List.filterMap_cons]
    have ih := decoded_failures_length rest (i + 1)
    unfold reference.decoded at ih
    cases h : ParseFromRow row with
    | error err =>
      simp only [List.length_cons]
      omega
    | ok record =>
      simp only [List.length_cons]
      omega

theorem GetCurrentPrice_keeps (table : unicode.CaseTable) (ctx : webapi.Context) (s : String)
    (w : World) :
    (webapi.GetCurrentPrice table ctx s w).2.ledger = w.ledger ∧
    (webapi.GetCurrentPrice table ctx s w).2.logged = w.logged := by
  obtain ⟨n, -, -, hO⟩ := GetCurrentPrice_spec table ctx s w
  exact ⟨hO.2.1, hO.2.2.1⟩

theorem store_sameEvent (r : CoinPriceRecord) (p : PriceRef) (v : Float64) :
    reference.sameEvent r (r.store p v) := by
  cases p <;> exact ⟨rfl, rfl, rfl, rfl, rfl⟩

theorem fillField_keeps (u : usecase.Process) (ctx : webapi.Context) (now : time.Time)
    (acc : CoinPriceRecord × World) (field : PriceField) :
    reference.sameEvent acc.1 (usecase.fillField u ctx now acc field).1 ∧
    (usecase.fillField u ctx now acc field).2.ledger = acc.2.ledger ∧
    (usecase.fillField u ctx now acc field).2.logged = acc.2.logged := by
  have hk := GetCurrentPrice_keeps u.coinGecko ctx acc.1.Coin acc.2
  unfold usecase.fillField
  rcases h : acc.1.ShouldFetchPrice field now with ⟨shouldFetch, err⟩
  cases err with
  | some e => exact ⟨⟨rfl, rfl, rfl, rfl, rfl⟩, rfl, rfl⟩
  | none =>
    cases shouldFetch with
    | false => exact ⟨⟨rfl, rfl, rfl, rfl, rfl⟩, rfl, rfl⟩
    | true =>
      simp only [if_true]
      cases h2 : (webapi.GetCurrentPrice u.coinGecko ctx acc.1.Coin acc.2).1.2 with
      | some e => exact ⟨⟨rfl, rfl, rfl, rfl, rfl⟩, hk.1, hk.2⟩
      | none => exact ⟨store_sameEvent _ _ _, hk.1, hk.2⟩

theorem sameEvent_trans (a b c : CoinPriceRecord) (h1 : reference.sameEvent a b)
    (h2 : reference.sameEvent b c) : reference.sameEvent a c :=
  ⟨h1.1.trans h2.1, h1.2.1.trans h2.2.1, h1.2.2.1.trans h2.2.2.1,
   h1.2.2.2.1.trans h2.2.2.2.1, h1.2.2.2.2.trans h2.2.2.2.2⟩

theorem foldl_fillField_keeps (u : usecase.Process) (ctx : webapi.Context) (now : time.Time) :
    ∀ (fields : List PriceField) (acc : CoinPriceRecord × World),
    reference.sameEvent acc.1 (fields.foldl (usecase.fillField u ctx now) acc).1 ∧
    (fields.foldl (usecase.fillField u ctx now) acc).2.ledger = acc.2.ledger ∧
    (fields.foldl (usecase.fillField u ctx now) acc).2.logged = acc.2.logged
  | [], acc => ⟨⟨rfl, rfl, rfl, rfl, rfl⟩, rfl, rfl⟩
  | field :: rest, acc => by
    rw [List.foldl_cons]
    have h1 := fillField_keeps u ctx now acc field
    have h2 := foldl_fillField_keeps u ctx now rest (usecase.fillField u ctx now acc field)
    exact ⟨sameEvent_trans _ _ _ h1.1 h2.1, h2.2.1.trans h1.2.1, h2.2.2.trans h1.2.2⟩

theorem fillRecord_keeps (u : usecase.Process) (ctx : webapi.Context) (now : time.Time)
    (record : CoinPriceRecord) (w : World) :
    reference.sameEvent record (usecase.fillRecord u ctx now record w).1 ∧
    (usecase.fillRecord u ctx now record w).2.ledger = w.ledger ∧
    (usecase.fillRecord u ctx now record w).2.logged = w.logged := by
  have hk := GetCurrentPrice_keeps u.coinGecko ctx record.Coin w
  unfold usecase.fillRecord
  by_cases hcoin : record.Coin = ""
  · rw [if_pos hcoin]
    exact ⟨⟨rfl, rfl, rfl, rfl, rfl⟩, rfl, rfl⟩
  · rw [if_neg hcoin]
    simp only
    generalize hacc : (if record.BybitPrice.isZero = true then
        match (webapi.GetCurrentPrice u.coinGecko ctx record.Coin w).1.2 with
        | some _ => (record, (webapi.GetCurrentPrice u.coinGecko ctx record.Coin w).2)
        | none =>
          ({ record with BybitPrice := (webapi.GetCurrentPrice u.coinGecko ctx record.Coin w).1.1 },
           (webapi.GetCurrentPrice u.coinGecko ctx record.Coin w).2)
      else (record, w)) = acc
    have hacc2 : reference.sameEvent record acc.1 ∧ acc.2.ledger = w.ledger ∧
        acc.2.logged = w.logged := by
      rw [← hacc]
      by_cases hz : record.BybitPrice.isZero = true
      · rw [if_pos hz]
        cases (webapi.GetCurrentPrice u.coinGecko ctx record.Coin w).1.2 with
        | some e => exact ⟨⟨rfl, rfl, rfl, rfl, rfl⟩, hk.1, hk.2⟩
        | none => exact ⟨⟨rfl, rfl, rfl, rfl, rfl⟩, hk.1, hk.2⟩
      · rw [if_neg hz]
        exact ⟨⟨rfl, rfl, rfl, rfl, rfl⟩, rfl, rfl⟩
    have h2 := foldl_fillField_keeps u ctx now acc.1.GetPriceFields acc
    exact ⟨sameEvent_trans _ _ _ hacc2.1 h2.1, h2.2.1.trans hacc2.2.1,
      h2.2.2.trans hacc2.2.2⟩

theorem fillRecords_keeps (u : usecase.Process) (ctx : webapi.Context) (now : time.Time) :
    ∀ (records : List CoinPriceRecord) (w : World),
    List.Forall₂ reference.sameEvent records (usecase.fillRecords u ctx now records w).1 ∧
    (usecase.fillRecords u ctx now records w).2.ledger = w.ledger ∧
    (usecase.fillRecords u ctx now records w).2.logged = w.logged
  | [], w => ⟨List.Forall₂.nil, rfl, rfl⟩
  | record :: rest, w => by
    unfold usecase.fillRecords
    have h1 := fillRecord_keeps u ctx now record w
    have h2 := fillRecords_keeps u ctx now rest (usecase.fillRecord u ctx now record w).2
    exact ⟨List.Forall₂.cons h1.1 h2.1, h2.2.1.trans h1.2.1, h2.2.2.trans h1.2.2⟩

/-- The price fill returns no error, keeps the order and the identity of the records, and
leaves the ledger and the log alone. -/
theorem fillMissingPrices_keeps (u : usecase.Process) (ctx : webapi.Context)
    (records : List CoinPriceRecord) (w : World) :
    (u.fillMissingPrices ctx records w).1 = none ∧
    List.Forall₂ reference.sameEvent records (u.fillMissingPrices ctx records w).2.1 ∧
    (u.fillMissingPrices ctx records w).2.2.ledger = w.ledger ∧
    (u.fillMissingPrices ctx records w).2.2.logged = w.logged := by
  have h := fillRecords_keeps u ctx ⟨w.clock⟩ records w
  exact ⟨rfl, h.1, h.2.1, h.2.2⟩

theorem range_strings (S : String) (n : Nat) :
    S ++ "!A" ++ usecase.itoa 2 ++ ":R" ++ usecase.itoa n = S ++ "!A2:R" ++ usecase.itoa n ∧
    S ++ "!A" ++ usecase.itoa 2 ++ ":R" = S ++ "!A2:R" := by
  have h : S ++ "!A" ++ usecase.itoa 2 ++ ":R" = S ++ "!A2:R" := by
    rw [String.append_assoc, String.append_assoc]
    rfl
  exact ⟨by rw [h], h⟩

/-- The write-back for at least one record: the clear of the open-ended range, then the
write of the rows, whatever the clear returns. -/
theorem updateGoogleSheets_writes (u : usecase.Process) (gs : webapi.GoogleSheets)
    (spreadsheet : sheets.Spreadsheet) (records : List CoinPriceRecord) (readRange : String)
    (w : World) (hgs : u.googleSheets = some gs) (hn : records ≠ []) :
    (u.updateGoogleSheets spreadsheet records readRange w).2 =
      { w with ledger := w.ledger ++
        [LedgerOp.clear (usecase.sheetNameOf spreadsheet readRange ++ "!A2:R"),
         LedgerOp.update (usecase.sheetNameOf spreadsheet readRange ++ "!A2:R" ++
            usecase.itoa (records.length + 1)) (records.map CoinPriceRecord.ToRow)] } ∧
    (u.updateGoogleSheets spreadsheet records readRange w).1 =
      (gs.service.ValuesUpdate u.config.GoogleSheetID
        (usecase.sheetNameOf spreadsheet readRange ++ "!A2:R" ++
          usecase.itoa (records.length + 1)) (records.map CoinPriceRecord.ToRow)).map
        (fun err => "failed to write data: " ++ ("unable to update data in sheet: " ++ err)) := by
  have hlen : records.length ≠ 0 := by
    intro h
    exact hn (List.length_eq_zero.mp h)
  have hlast : 2 + (records.map CoinPriceRecord.ToRow).length - 1 = records.length + 1 := by
    rw [List.length_map]
    omega
  unfold usecase.Process.updateGoogleSheets
  rw [hgs]
  simp only [if_neg hlen, hlast, (range_strings _ _).1, (range_strings _ _).2]
  unfold webapi.GoogleSheets.UpdateSpreadsheet webapi.GoogleSheets.ClearSpreadsheet
  cases gs.service.ValuesUpdate u.config.GoogleSheetID
    (usecase.sheetNameOf spreadsheet readRange ++ "!A2:R" ++
      usecase.itoa (records.length + 1)) (records.map CoinPriceRecord.ToRow) with
  | none =>
    simp
    exact (range_strings _ 0).2
  | some err =>
    simp
    exact (range_strings _ 0).2

/-! ## C19: row-drop conservation and order -/

theorem updateGoogleSheets_nil (u : usecase.Process) (spreadsheet : sheets.Spreadsheet)
    (readRange : String) (w : World) :
    u.updateGoogleSheets spreadsheet [] readRange w = (none, w) := by
  unfold usecase.Process.updateGoogleSheets
  cases u.googleSheets <;> rfl

/-- The run of `Process` on a sheet with a header row: the world after the run is the world
after the write-back of the filled records. -/
theorem Process_world (u : usecase.Process) (gs : webapi.GoogleSheets) (ctx : webapi.Context)
    (w : World) (spreadsheet : sheets.Spreadsheet) (readRange : String)
    (header : List Cell) (data : List (List Cell))
    (hgs : u.googleSheets = some gs)
    (hinfo : gs.service.Get u.config.GoogleSheetID = Except.ok spreadsheet)
    (hrange : (if u.config.GoogleSheetRange ≠ "" then some u.config.GoogleSheetRange
      else spreadsheet.Sheets.head?) = some readRange)
    (hread : gs.service.ValuesGet u.config.GoogleSheetID readRange = Except.ok (header :: data)) :
    (u.Process ctx w).2 =
      (u.updateGoogleSheets spreadsheet
        (u.fillMissingPrices ctx (reference.decoded data)
          { w with logged := w.logged ++ (usecase.parseRows 0 data).2 }).2.1
        readRange
        (u.fillMissingPrices ctx (reference.decoded data)
          { w with logged := w.logged ++ (usecase.parseRows 0 data).2 }).2.2).2 := by
  unfold usecase.Process.Process
  rw [hgs]
  simp only
  unfold webapi.GoogleSheets.GetSpreadsheetInfo
  rw [hinfo]
  simp only [hrange]
  unfold webapi.GoogleSheets.ReadSpreadsheet
  rw [hread]
  cases data with
  | nil =>
    simp only
    have h0 : reference.decoded [] = [] := rfl
    have h1 : (usecase.parseRows 0 []).2 = [] := rfl
    have h2 : ∀ v : World, (u.fillMissingPrices ctx [] v) = (none, [], v) := fun v => rfl
    rw [h0, h1, h2, updateGoogleSheets_nil]
    simp
  | cons row rows =>
    simp only
    rw [parseRows_records]
    have hf := (fillMissingPrices_keeps u ctx (reference.decoded (row :: rows))
      { w with logged := w.logged ++ (usecase.parseRows 0 (row :: rows)).2 }).1
    rw [hf]
    simp only
    split <;> rename_i h <;> rw [h]

/-! ## C20: the write-back ranges -/

theorem takeWhile_until (p : Char → Bool) (x : Char) (hx : p x = false) :
    ∀ (l r : List Char), (∀ c ∈ l, p c = true) → (l ++ x :: r).takeWhile p = l
  | [], r, _ => by simp [List.takeWhile, hx]
  | c :: l, r, h => by
    have hc : p c = true := h c (List.mem_cons_self _ _)
    rw [List.cons_append, List.takeWhile_cons_of_pos hc,
      takeWhile_until p x hx l r (fun d hd => h d (List.mem_cons_of_mem _ hd))]

/-- The sheet name taken from a range `S!…`: the text before the first `!`. -/
theorem sheetNameOf_prefix (spreadsheet : sheets.Spreadsheet) (S rest : String)
    (hS : S ≠ "") (hbang : '!' ∉ S.toList) :
    usecase.sheetNameOf spreadsheet (S ++ "!" ++ rest) = S := by
  have hl : (S ++ "!" ++ rest).toList = S.toList ++ '!' :: rest.toList := by
    simp [String.toList, String.data_append]
  have htake : String.mk ((S ++ "!" ++ rest).toList.takeWhile (fun ch => ch != '!')) = S := by
    have ht := takeWhile_until (fun ch => ch != '!') '!' (by decide) S.toList rest.toList
      (by
        intro c hc
        have : c ≠ '!' := fun h => hbang (h ▸ hc)
        simpa using this)
    rw [hl, ht]
    cases S
    rfl
  have hcont : (S ++ "!" ++ rest).toList.contains '!' = true := by
    rw [hl]
    simp
  have hne : S ≠ S ++ "!" ++ rest := by
    intro h
    have := congrArg String.length h
    simp only [String.length_append] at this
    have h1 : "!".length = 1 := rfl
    omega
  unfold usecase.sheetNameOf
  simp only [hcont, if_true, htake]
  rw [if_neg (by rintro (h | h); exact hS h; exact hne h)]

/-- C20: write-back ranges. For n ≥ 1 surviving records and the target sheet name S,
`updateGoogleSheets` first clears the open-ended range `S!A2:R` and then writes exactly the
n encoded rows to `S!A2:R<n+1>` (first row 2, last row 2 + n − 1), and does nothing else on
the ledger; the result of the clear does not matter, the run fails exactly when the write
fails. The sheet name S is the text before the first `!` of the read range. -/
theorem write_back_ranges (u : usecase.Process) (gs : webapi.GoogleSheets)
    (spreadsheet : sheets.Spreadsheet) (records : List CoinPriceRecord) (readRange : String)
    (w : World) (hgs : u.googleSheets = some gs) (hn : 1 ≤ records.length) :
    (u.updateGoogleSheets spreadsheet records readRange w).2.ledger = w.ledger ++
      [LedgerOp.clear (usecase.sheetNameOf spreadsheet readRange ++ "!A2:R"),
       LedgerOp.update (usecase.sheetNameOf spreadsheet readRange ++ "!A2:R" ++
          usecase.itoa (2 + records.length - 1)) (records.map CoinPriceRecord.ToRow)] ∧
    (records.map CoinPriceRecord.ToRow).length = records.length ∧
    2 + records.length - 1 = records.length + 1 ∧
    (gs.service.ValuesUpdate u.config.GoogleSheetID
        (usecase.sheetNameOf spreadsheet readRange ++ "!A2:R" ++
          usecase.itoa (2 + records.length - 1)) (records.map CoinPriceRecord.ToRow) = none →
      (u.updateGoogleSheets spreadsheet records readRange w).1 = none) ∧
    (∀ err, gs.service.ValuesUpdate u.config.GoogleSheetID
        (usecase.sheetNameOf spreadsheet readRange ++ "!A2:R" ++
          usecase.itoa (2 + records.length - 1)) (records.map CoinPriceRecord.ToRow) = some err →
      (u.updateGoogleSheets spreadsheet records readRange w).1 =
        some ("failed to write data: unable to update data in sheet: " ++ err)) ∧
    (∀ S rest, S ≠ "" → '!' ∉ S.toList → readRange = S ++ "!" ++ rest →
      usecase.sheetNameOf spreadsheet readRange = S) := by
  have hne : records ≠ [] := by
    intro h
    rw [h] at hn
    cases hn
  have hlast : 2 + records.length - 1 = records.length + 1 := by omega
  obtain ⟨h1, h2⟩ := updateGoogleSheets_writes u gs spreadsheet records readRange w hgs hne
  rw [hlast]
  refine ⟨by rw [h1], List.length_map _ _, rfl, ?_, ?_, ?_⟩
  · intro h
    rw [h2, h]
    rfl
  · intro err h
    rw [h2, h]
    rfl
  · intro S rest hS hbang hr
    rw [hr]
    exact sheetNameOf_prefix spreadsheet S rest hS hbang

/-- Witness of C20, scenario S6: four surviving records on the sheet Sheet1, read by the
range `Sheet1!A1:R6`, with a ledger whose clear call fails. The clear of `Sheet1!A2:R` is
followed by the write of the four rows to `Sheet1!A2:R5`, and the run does not fail. -/
theorem write_back_ranges_witness :
    ((processOver serviceClearFails).updateGoogleSheets ⟨"Ledger", ["Sheet1"]⟩
      [recordOf "BTC", recordOf "ETH", recordOf "SOL", recordOf "XRP"] "Sheet1!A1:R6"
      (freshWorld (oracleAfter 0 respPrice))).2.ledger =
      [LedgerOp.clear "Sheet1!A2:R",
       LedgerOp.update "Sheet1!A2:R5"
         ([recordOf "BTC", recordOf "ETH", recordOf "SOL", recordOf "XRP"].map
           CoinPriceRecord.ToRow)] ∧
    ((processOver serviceClearFails).updateGoogleSheets ⟨"Ledger", ["Sheet1"]⟩
      [recordOf "BTC", recordOf "ETH", recordOf "SOL", recordOf "XRP"] "Sheet1!A1:R6"
      (freshWorld (oracleAfter 0 respPrice))).1 = none ∧
    ((processOver serviceUpdateFails).updateGoogleSheets ⟨"Ledger", ["Sheet1"]⟩
      [recordOf "BTC", recordOf "ETH", recordOf "SOL", recordOf "XRP"] "Sheet1!A1:R6"
      (freshWorld (oracleAfter 0 respPrice))).1 =
      some "failed to write data: unable to update data in sheet: quota exceeded" :=
  ⟨(write_back_ranges (processOver serviceClearFails) ⟨serviceClearFails⟩ ⟨"Ledger", ["Sheet1"]⟩
      [recordOf "BTC", recordOf "ETH", recordOf "SOL", recordOf "XRP"] "Sheet1!A1:R6"
      (freshWorld (oracleAfter 0 respPrice)) rfl (by decide)).1.trans (by decide),
   (write_back_ranges (processOver serviceClearFails) ⟨serviceClearFails⟩ ⟨"Ledger", ["Sheet1"]⟩
      [recordOf "BTC", recordOf "ETH", recordOf "SOL", recordOf "XRP"] "Sheet1!A1:R6"
      (freshWorld (oracleAfter 0 respPrice)) rfl (by decide)).2.2.2.1 rfl,
   (write_back_ranges (processOver serviceUpdateFails) ⟨serviceUpdateFails⟩
      ⟨"Ledger", ["Sheet1"]⟩
      [recordOf "BTC", recordOf "ETH", recordOf "SOL", recordOf "XRP"] "Sheet1!A1:R6"
      (freshWorld (oracleAfter 0 respPrice)) rfl (by decide)).2.2.2.2.1 "quota exceeded" rfl⟩

/-! ## C12: `TryParseDateTime` on the written forms -/

namespace time

theorem isDigit_digitChar (d : Nat) (h : d < 10) : isDigit (strconv.digitChar d) = true := by
  interval_cases d <;> rfl

theorem toNat_digitChar (d : Nat) (h : d < 10) : (strconv.digitChar d).toNat - 48 = d := by
  interval_cases d <;> rfl

theorem digitChar_ne_lit (d : Nat) (h : d < 10) (c : Char) (hc : isDigit c = false) :
    strconv.digitChar d ≠ c := by
  intro e
  rw [← e, isDigit_digitChar d h] at hc
  cases hc

theorem getnum_digits (a b : Nat) (ha : a < 10) (hb : b < 10) (rest : List Char)
    (fixed : Bool) :
    getnum (strconv.digitChar a :: strconv.digitChar b :: rest) fixed =
      some (a * 10 + b, rest) := by
  simp [getnum, isDigit_digitChar, toNat_digitChar, ha, hb]

theorem getnum_pad2 (n : Nat) (h : n < 100) (rest : List Char) (fixed : Bool) :
    getnum (strconv.digitChar (n / 10 % 10) :: strconv.digitChar (n % 10) :: rest) fixed =
      some (n, rest) := by
  rw [getnum_digits _ _ (Nat.mod_lt _ (by decide)) (Nat.mod_lt _ (by decide))]
  congr 2
  omega

theorem digitsVal_pad4 (y : Nat) (h : y < 10000) :
    digitsVal [strconv.digitChar (y / 1000 % 10), strconv.digitChar (y / 100 % 10),
      strconv.digitChar (y / 10 % 10), strconv.digitChar (y % 10)] = y := by
  simp only [digitsVal, List.foldl]
  rw [toNat_digitChar _ (Nat.mod_lt _ (by decide)), toNat_digitChar _ (Nat.mod_lt _ (by decide)),
    toNat_digitChar _ (Nat.mod_lt _ (by decide)), toNat_digitChar _ (Nat.mod_lt _ (by decide))]
  omega

theorem cutspace_digit (d : Nat) (h : d < 10) (rest : List Char) :
    cutspace (strconv.digitChar d :: rest) = strconv.digitChar d :: rest := by
  rw [cutspace, if_neg (digitChar_ne_lit d h ' ' (by decide))]

theorem parseStd_day (n : Nat) (h : n < 100) (rest : List Char) (f : Fields) :
    parseStd .stdZeroDay
      (strconv.digitChar (n / 10 % 10) :: strconv.digitChar (n % 10) :: rest) f =
      some ({ f with day := n }, rest) := by
  simp only [parseStd, getnum_pad2 n h]

theorem parseStd_month (n : Nat) (h1 : 1 ≤ n) (h2 : n ≤ 12) (rest : List Char) (f : Fields) :
    parseStd .stdZeroMonth
      (strconv.digitChar (n / 10 % 10) :: strconv.digitChar (n % 10) :: rest) f =
      some ({ f with month := n }, rest) := by
  simp only [parseStd, getnum_pad2 n (by omega)]
  rw [if_neg (by omega)]

theorem parseStd_year (y : Nat) (h : y < 10000) (rest : List Char) (f : Fields) :
    parseStd .stdLongYear
      (strconv.digitChar (y / 1000 % 10) :: strconv.digitChar (y / 100 % 10) ::
        strconv.digitChar (y / 10 % 10) :: strconv.digitChar (y % 10) :: rest) f =
      some ({ f with year := y }, rest) := by
  simp only [parseStd, isDigit_digitChar _ (Nat.mod_lt _ (show 0 < 10 by decide)),
    Bool.and_self, if_true, digitsVal_pad4 y h]

theorem parseStd_hour (n : Nat) (h : n < 24) (rest : List Char) (f : Fields) :
    parseStd .stdHour
      (strconv.digitChar (n / 10 % 10) :: strconv.digitChar (n % 10) :: rest) f =
      some ({ f with hour := n }, rest) := by
  simp only [parseStd, getnum_pad2 n (by omega)]
  rw [if_neg (by omega)]

theorem parseStd_minute (n : Nat) (h : n < 60) (rest : List Char) (f : Fields) :
    parseStd .stdZeroMinute
      (strconv.digitChar (n / 10 % 10) :: strconv.digitChar (n % 10) :: rest) f =
      some ({ f with min := n }, rest) := by
  simp only [parseStd, getnum_pad2 n (by omega)]
  rw [if_neg (by omega)]

theorem parseStd_second (n : Nat) (h : n < 60) (f : Fields) :
    parseStd .stdZeroSecond
      [strconv.digitChar (n / 10 % 10), strconv.digitChar (n % 10)] f =
      some ({ f with sec := n }, []) := by
  simp only [parseStd, getnum_pad2 n (by omega)]
  rw [if_neg (by omega)]

end time

namespace time

theorem skip_nil (value : List Char) (b : Bool) : skip value [] b = some value := by
  cases value <;> rfl

theorem skip_dot (vs : List Char) : skip ('.' :: vs) ['.'] false = some vs := by
  simp [skip]

theorem skip_dash (vs : List Char) : skip ('-' :: vs) ['-'] false = some vs := by
  simp [skip]

theorem skip_colon (vs : List Char) : skip (':' :: vs) [':'] false = some vs := by
  simp [skip]

theorem skip_space_digit (d : Nat) (h : d < 10) (rest : List Char) :
    skip (' ' :: strconv.digitChar d :: rest) [' '] false =
      some (strconv.digitChar d :: rest) := by
  have hne : ¬ strconv.digitChar d = ' ' := digitChar_ne_lit d h ' ' (by decide)
  simp [skip, cutspace, hne]

theorem skip_digit_dot (d : Nat) (h : d < 10) (rest : List Char) :
    skip (strconv.digitChar d :: rest) ['.'] false = none := by
  have hne : ¬ strconv.digitChar d = '.' := digitChar_ne_lit d h '.' (by decide)
  simp [skip, hne]

theorem skip_end_colon : skip [] [':'] false = none := by
  simp [skip]

theorem dotted_hms_chars (y mo d h mi s : Nat) :
    (reference.dotted y mo d ++ " " ++ reference.clockHMS h mi s).toList =
      strconv.digitChar (d / 10 % 10) :: strconv.digitChar (d % 10) :: '.' ::
      strconv.digitChar (mo / 10 % 10) :: strconv.digitChar (mo % 10) :: '.' ::
      strconv.digitChar (y / 1000 % 10) :: strconv.digitChar (y / 100 % 10) ::
      strconv.digitChar (y / 10 % 10) :: strconv.digitChar (y % 10) :: ' ' ::
      strconv.digitChar (h / 10 % 10) :: strconv.digitChar (h % 10) :: ':' ::
      strconv.digitChar (mi / 10 % 10) :: strconv.digitChar (mi % 10) :: ':' ::
      [strconv.digitChar (s / 10 % 10), strconv.digitChar (s % 10)] := by
  simp [reference.dotted, reference.clockHMS, reference.pad2, reference.pad4, String.toList,
    String.data_append]

theorem dotted_hm_chars (y mo d h mi : Nat) :
    (reference.dotted y mo d ++ " " ++ reference.clockHM h mi).toList =
      strconv.digitChar (d / 10 % 10) :: strconv.digitChar (d % 10) :: '.' ::
      strconv.digitChar (mo / 10 % 10) :: strconv.digitChar (mo % 10) :: '.' ::
      strconv.digitChar (y / 1000 % 10) :: strconv.digitChar (y / 100 % 10) ::
      strconv.digitChar (y / 10 % 10) :: strconv.digitChar (y % 10) :: ' ' ::
      strconv.digitChar (h / 10 % 10) :: strconv.digitChar (h % 10) :: ':' ::
      [strconv.digitChar (mi / 10 % 10), strconv.digitChar (mi % 10)] := by
  simp [reference.dotted, reference.clockHM, reference.pad2, reference.pad4, String.toList,
    String.data_append]

theorem dashed_hms_chars (y mo d h mi s : Nat) :
    (reference.dashed y mo d ++ " " ++ reference.clockHMS h mi s).toList =
      strconv.digitChar (y / 1000 % 10) :: strconv.digitChar (y / 100 % 10) ::
      strconv.digitChar (y / 10 % 10) :: strconv.digitChar (y % 10) :: '-' ::
      strconv.digitChar (mo / 10 % 10) :: strconv.digitChar (mo % 10) :: '-' ::
      strconv.digitChar (d / 10 % 10) :: strconv.digitChar (d % 10) :: ' ' ::
      strconv.digitChar (h / 10 % 10) :: strconv.digitChar (h % 10) :: ':' ::
      strconv.digitChar (mi / 10 % 10) :: strconv.digitChar (mi % 10) :: ':' ::
      [strconv.digitChar (s / 10 % 10), strconv.digitChar (s % 10)] := by
  simp [reference.dashed, reference.clockHMS, reference.pad2, reference.pad4, String.toList,
    String.data_append]

theorem dashed_hm_chars (y mo d h mi : Nat) :
    (reference.dashed y mo d ++ " " ++ reference.clockHM h mi).toList =
      strconv.digitChar (y / 1000 % 10) :: strconv.digitChar (y / 100 % 10) ::
      strconv.digitChar (y / 10 % 10) :: strconv.digitChar (y % 10) :: '-' ::
      strconv.digitChar (mo / 10 % 10) :: strconv.digitChar (mo % 10) :: '-' ::
      strconv.digitChar (d / 10 % 10) :: strconv.digitChar (d % 10) :: ' ' ::
      strconv.digitChar (h / 10 % 10) :: strconv.digitChar (h % 10) :: ':' ::
      [strconv.digitChar (mi / 10 % 10), strconv.digitChar (mi % 10)] := by
  simp [reference.dashed, reference.clockHM, reference.pad2, reference.pad4, String.toList,
    String.data_append]

theorem layout_dotted_hms : layoutChunks "02.01.2006 15:04:05".toList 0 [] =
    ([⟨[], .stdZeroDay⟩, ⟨['.'], .stdZeroMonth⟩, ⟨['.'], .stdLongYear⟩, ⟨[' '], .stdHour⟩,
      ⟨[':'], .stdZeroMinute⟩, ⟨[':'], .stdZeroSecond⟩], []) := by decide

theorem layout_dotted_hm : layoutChunks "02.01.2006 15:04".toList 0 [] =
    ([⟨[], .stdZeroDay⟩, ⟨['.'], .stdZeroMonth⟩, ⟨['.'], .stdLongYear⟩, ⟨[' '], .stdHour⟩,
      ⟨[':'], .stdZeroMinute⟩], []) := by decide

theorem layout_dashed_hms : layoutChunks "2006-01-02 15:04:05".toList 0 [] =
    ([⟨[], .stdLongYear⟩, ⟨['-'], .stdZeroMonth⟩, ⟨['-'], .stdZeroDay⟩, ⟨[' '], .stdHour⟩,
      ⟨[':'], .stdZeroMinute⟩, ⟨[':'], .stdZeroSecond⟩], []) := by decide

theorem layout_dashed_hm : layoutChunks "2006-01-02 15:04".toList 0 [] =
    ([⟨[], .stdLongYear⟩, ⟨['-'], .stdZeroMonth⟩, ⟨['-'], .stdZeroDay⟩, ⟨[' '], .stdHour⟩,
      ⟨[':'], .stdZeroMinute⟩], []) := by decide

theorem day_lt_100 (y mo d : Nat) (h : d ≤ daysIn mo y) : d < 100 := by
  have : daysIn mo y ≤ 31 := by unfold daysIn; split_ifs <;> omega
  omega

theorem mod10 (n : Nat) : n % 10 < 10 := Nat.mod_lt _ (by decide)

theorem parse_dotted_hms (y mo d h mi s : Nat) (offset : Int)
    (hv : reference.validCivil y mo d h mi s) :
    ParseInLocation "02.01.2006 15:04:05"
      (reference.dotted y mo d ++ " " ++ reference.clockHMS h mi s) offset =
      some (Date y mo d h mi s 0 offset) := by
  obtain ⟨hy, hm1, hm2, hd1, hd2, hh, hmi, hs⟩ := hv
  unfold ParseInLocation
  rw [layout_dotted_hms, dotted_hms_chars]
  simp only [parseChunks, skip_nil, skip_dot, skip_colon, skip_space_digit _ (mod10 _),
    parseStd_day d (day_lt_100 y mo d hd2), parseStd_month mo hm1 hm2,
    parseStd_year y hy, parseStd_hour h hh, parseStd_minute mi hmi, parseStd_second s hs]
  rw [if_neg (by simp), if_neg (by omega)]
  simp [Date]

theorem parse_dotted_hm (y mo d h mi : Nat) (offset : Int)
    (hv : reference.validCivil y mo d h mi 0) :
    ParseInLocation "02.01.2006 15:04:05"
      (reference.dotted y mo d ++ " " ++ reference.clockHM h mi) offset = none ∧
    ParseInLocation "02.01.2006 15:04"
      (reference.dotted y mo d ++ " " ++ reference.clockHM h mi) offset =
      some (Date y mo d h mi 0 0 offset) := by
  obtain ⟨hy, hm1, hm2, hd1, hd2, hh, hmi, hs⟩ := hv
  constructor
  · unfold ParseInLocation
    rw [layout_dotted_hms, dotted_hm_chars]
    simp only [parseChunks, skip_nil, skip_dot, skip_colon, skip_space_digit _ (mod10 _),
      parseStd_day d (day_lt_100 y mo d hd2), parseStd_month mo hm1 hm2,
      parseStd_year y hy, parseStd_hour h hh, parseStd_minute mi hmi, skip_end_colon]
  · unfold ParseInLocation
    rw [layout_dotted_hm, dotted_hm_chars]
    simp only [parseChunks, skip_nil, skip_dot, skip_colon, skip_space_digit _ (mod10 _),
      parseStd_day d (day_lt_100 y mo d hd2), parseStd_month mo hm1 hm2,
      parseStd_year y hy, parseStd_hour h hh, parseStd_minute mi hmi]
    rw [if_neg (by simp), if_neg (by omega)]
    simp [Date]

/-- The dotted layouts reject a text that starts with four digits. -/
theorem parse_dotted_four_digits (layout : String) (cs : List Chunk) (tail : List Char)
    (hl : layoutChunks layout.toList 0 [] =
      (⟨[], .stdZeroDay⟩ :: ⟨['.'], .stdZeroMonth⟩ :: cs, tail))
    (a b c : Nat) (ha : a < 10) (hb : b < 10) (hc : c < 10) (rest : List Char) (value : String)
    (hvalue : value.toList =
      strconv.digitChar a :: strconv.digitChar b :: strconv.digitChar c :: rest)
    (offset : Int) :
    ParseInLocation layout value offset = none := by
  unfold ParseInLocation
  rw [hl, hvalue]
  simp only [parseChunks, skip_nil, parseStd, getnum_digits a b ha hb, skip_digit_dot c hc]

theorem parse_dashed_hms (y mo d h mi s : Nat) (offset : Int)
    (hv : reference.validCivil y mo d h mi s) :
    ParseInLocation "2006-01-02 15:04:05"
      (reference.dashed y mo d ++ " " ++ reference.clockHMS h mi s) offset =
      some (Date y mo d h mi s 0 offset) := by
  obtain ⟨hy, hm1, hm2, hd1, hd2, hh, hmi, hs⟩ := hv
  unfold ParseInLocation
  rw [layout_dashed_hms, dashed_hms_chars]
  simp only [parseChunks, skip_nil, skip_dash, skip_colon, skip_space_digit _ (mod10 _),
    parseStd_day d (day_lt_100 y mo d hd2), parseStd_month mo hm1 hm2,
    parseStd_year y hy, parseStd_hour h hh, parseStd_minute mi hmi, parseStd_second s hs]
  rw [if_neg (by simp), if_neg (by omega)]
  simp [Date]

theorem parse_dashed_hm (y mo d h mi : Nat) (offset : Int)
    (hv : reference.validCivil y mo d h mi 0) :
    ParseInLocation "2006-01-02 15:04:05"
      (reference.dashed y mo d ++ " " ++ reference.clockHM h mi) offset = none ∧
    ParseInLocation "2006-01-02 15:04"
      (reference.dashed y mo d ++ " " ++ reference.clockHM h mi) offset =
      some (Date y mo d h mi 0 0 offset) := by
  obtain ⟨hy, hm1, hm2, hd1, hd2, hh, hmi, hs⟩ := hv
  constructor
  · unfold ParseInLocation
    rw [layout_dashed_hms, dashed_hm_chars]
    simp only [parseChunks, skip_nil, skip_dash, skip_colon, skip_space_digit _ (mod10 _),
      parseStd_day d (day_lt_100 y mo d hd2), parseStd_month mo hm1 hm2,
      parseStd_year y hy, parseStd_hour h hh, parseStd_minute mi hmi, skip_end_colon]
  · unfold ParseInLocation
    rw [layout_dashed_hm, dashed_hm_chars]
    simp only [parseChunks, skip_nil, skip_dash, skip_colon, skip_space_digit _ (mod10 _),
      parseStd_day d (day_lt_100 y mo d hd2), parseStd_month mo hm1 hm2,
      parseStd_year y hy, parseStd_hour h hh, parseStd_minute mi hmi]
    rw [if_neg (by simp), if_neg (by omega)]
    simp [Date]

end time

theorem validCivil_zero_sec (y mo d h mi s : Nat) (hv : reference.validCivil y mo d h mi s) :
    reference.validCivil y mo d h mi 0 :=
  ⟨hv.1, hv.2.1, hv.2.2.1, hv.2.2.2.1, hv.2.2.2.2.1, hv.2.2.2.2.2.1, hv.2.2.2.2.2.2.1,
   by decide⟩

theorem TryParseDateTime_dotted_hms (r : CoinPriceRecord) (y mo d h mi s : Nat)
    (hv : reference.validCivil y mo d h mi s)
    (hd : r.Date = reference.dotted y mo d) (ht : r.Time = reference.clockHMS h mi s) :
    r.TryParseDateTime = Except.ok (time.Date y mo d h mi s 0 (7 * 60 * 60)) := by
  simp only [CoinPriceRecord.TryParseDateTime, CoinPriceRecord.GetDateTime, hd, ht, formats,
    tryFormats, time.parse_dotted_hms y mo d h mi s _ hv]

theorem TryParseDateTime_dotted_hm (r : CoinPriceRecord) (y mo d h mi : Nat)
    (hv : reference.validCivil y mo d h mi 0)
    (hd : r.Date = reference.dotted y mo d) (ht : r.Time = reference.clockHM h mi) :
    r.TryParseDateTime = Except.ok (time.Date y mo d h mi 0 0 (7 * 60 * 60)) := by
  simp only [CoinPriceRecord.TryParseDateTime, CoinPriceRecord.GetDateTime, hd, ht, formats,
    tryFormats, (time.parse_dotted_hm y mo d h mi _ hv).1,
    (time.parse_dotted_hm y mo d h mi _ hv).2]

theorem TryParseDateTime_dashed_hms (r : CoinPriceRecord) (y mo d h mi s : Nat)
    (hv : reference.validCivil y mo d h mi s)
    (hd : r.Date = reference.dashed y mo d) (ht : r.Time = reference.clockHMS h mi s) :
    r.TryParseDateTime = Except.ok (time.Date y mo d h mi s 0 (7 * 60 * 60)) := by
  have h1 := time.parse_dotted_four_digits "02.01.2006 15:04:05" _ _ time.layout_dotted_hms
    _ _ _ (time.mod10 _) (time.mod10 _) (time.mod10 _) _
    (reference.dashed y mo d ++ " " ++ reference.clockHMS h mi s)
    (time.dashed_hms_chars y mo d h mi s) (7 * 60 * 60)
  have h2 := time.parse_dotted_four_digits "02.01.2006 15:04" _ _ time.layout_dotted_hm
    _ _ _ (time.mod10 _) (time.mod10 _) (time.mod10 _) _
    (reference.dashed y mo d ++ " " ++ reference.clockHMS h mi s)
    (time.dashed_hms_chars y mo d h mi s) (7 * 60 * 60)
  simp only [CoinPriceRecord.TryParseDateTime, CoinPriceRecord.GetDateTime, hd, ht, formats,
    tryFormats, h1, h2, time.parse_dashed_hms y mo d h mi s _ hv]

theorem TryParseDateTime_dashed_hm (r : CoinPriceRecord) (y mo d h mi : Nat)
    (hv : reference.validCivil y mo d h mi 0)
    (hd : r.Date = reference.dashed y mo d) (ht : r.Time = reference.clockHM h mi) :
    r.TryParseDateTime = Except.ok (time.Date y mo d h mi 0 0 (7 * 60 * 60)) := by
  have h1 := time.parse_dotted_four_digits "02.01.2006 15:04:05" _ _ time.layout_dotted_hms
    _ _ _ (time.mod10 _) (time.mod10 _) (time.mod10 _) _
    (reference.dashed y mo d ++ " " ++ reference.clockHM h mi)
    (time.dashed_hm_chars y mo d h mi) (7 * 60 * 60)
  have h2 := time.parse_dotted_four_digits "02.01.2006 15:04" _ _ time.layout_dotted_hm
    _ _ _ (time.mod10 _) (time.mod10 _) (time.mod10 _) _
    (reference.dashed y mo d ++ " " ++ reference.clockHM h mi)
    (time.dashed_hm_chars y mo d h mi) (7 * 60 * 60)
  simp only [CoinPriceRecord.TryParseDateTime, CoinPriceRecord.GetDateTime, hd, ht, formats,
    tryFormats, h1, h2, (time.parse_dashed_hm y mo d h mi _ hv).1,
    (time.parse_dashed_hm y mo d h mi _ hv).2]

theorem hasForm_written (y mo d h mi s : Nat) :
    reference.hasForm "DD.MM.YYYY HH:MM:SS".toList
      (reference.dotted y mo d ++ " " ++ reference.clockHMS h mi s).toList = true ∧
    reference.hasForm "DD.MM.YYYY HH:MM".toList
      (reference.dotted y mo d ++ " " ++ reference.clockHM h mi).toList = true ∧
    reference.hasForm "YYYY-MM-DD HH:MM:SS".toList
      (reference.dashed y mo d ++ " " ++ reference.clockHMS h mi s).toList = true ∧
    reference.hasForm "YYYY-MM-DD HH:MM".toList
      (reference.dashed y mo d ++ " " ++ reference.clockHM h mi).toList = true := by
  have hD : ∀ n, time.isDigit (strconv.digitChar (n % 10)) = true :=
    fun n => time.isDigit_digitChar _ (time.mod10 n)
  rw [time.dotted_hms_chars, time.dotted_hm_chars, time.dashed_hms_chars, time.dashed_hm_chars]
  refine ⟨?_, ?_, ?_, ?_⟩ <;>
    simp [reference.hasForm, hD, Char.isAlpha, Char.isUpper, Char.isLower]

/-- C12, counterexample to the claim as stated: the text `29.12.2025 9:30:00`, with an hour
of one digit, has none of the four written forms, and `TryParseDateTime` returns no error
for it but the instant of 09:30:00 on that day in the zone UTC+07:00. -/
theorem one_digit_hour_parses :
    (recordAt "29.12.2025" "9:30:00" Float64.zero).GetDateTime = "29.12.2025 9:30:00" ∧
    reference.forms.all
      (fun form => !reference.hasForm form.toList "29.12.2025 9:30:00".toList) = true ∧
    (recordAt "29.12.2025" "9:30:00" Float64.zero).TryParseDateTime =
      Except.ok (time.Date 2025 12 29 9 30 0 0 (7 * 60 * 60)) := by
  decide

/-- C12, amended: `TryParseDateTime` parses `Date + " " + Time` against the ordered layouts
of DD.MM.YYYY HH:MM:SS, DD.MM.YYYY HH:MM, YYYY-MM-DD HH:MM:SS and YYYY-MM-DD HH:MM, the first
match winning. For every valid calendar date and time of day written in any of the four
forms it succeeds and returns that civil date-time in the zone UTC+07:00, which is the
instant 7 hours before the same civil time in UTC, with seconds 0 when they are omitted; the
dotted and the dashed form of the same date-time give the same instant; and a text that the
parser of the Go library matches against none of the four layouts returns an error. (The
parser accepts more than the written forms, such as an hour of one digit.) -/
theorem TryParseDateTime_forms (y mo d h mi s : Nat)
    (hv : reference.validCivil y mo d h mi s) :
    (∀ r : CoinPriceRecord, r.Date = reference.dotted y mo d →
      r.Time = reference.clockHMS h mi s →
      r.TryParseDateTime = Except.ok (time.Date y mo d h mi s 0 (7 * 60 * 60))) ∧
    (∀ r : CoinPriceRecord, r.Date = reference.dotted y mo d →
      r.Time = reference.clockHM h mi →
      r.TryParseDateTime = Except.ok (time.Date y mo d h mi 0 0 (7 * 60 * 60))) ∧
    (∀ r : CoinPriceRecord, r.Date = reference.dashed y mo d →
      r.Time = reference.clockHMS h mi s →
      r.TryParseDateTime = Except.ok (time.Date y mo d h mi s 0 (7 * 60 * 60))) ∧
    (∀ r : CoinPriceRecord, r.Date = reference.dashed y mo d →
      r.Time = reference.clockHM h mi →
      r.TryParseDateTime = Except.ok (time.Date y mo d h mi 0 0 (7 * 60 * 60))) ∧
    time.Date y mo d h mi s 0 (7 * 60 * 60) =
      (time.Date y mo d h mi s 0 time.UTC).Add (-(7 * time.Hour)) ∧
    (∀ r1 r2 : CoinPriceRecord, r1.Date = reference.dotted y mo d →
      r2.Date = reference.dashed y mo d → r1.Time = r2.Time →
      (r1.Time = reference.clockHMS h mi s ∨ r1.Time = reference.clockHM h mi) →
      r1.TryParseDateTime = r2.TryParseDateTime) ∧
    (∀ r : CoinPriceRecord,
      (∀ format ∈ formats, time.ParseInLocation format r.GetDateTime (7 * 60 * 60) = none) →
      r.TryParseDateTime = Except.error ("unable to parse date/time: " ++ r.GetDateTime)) ∧
    reference.hasForm "DD.MM.YYYY HH:MM:SS".toList
      (reference.dotted y mo d ++ " " ++ reference.clockHMS h mi s).toList = true ∧
    reference.hasForm "DD.MM.YYYY HH:MM".toList
      (reference.dotted y mo d ++ " " ++ reference.clockHM h mi).toList = true ∧
    reference.hasForm "YYYY-MM-DD HH:MM:SS".toList
      (reference.dashed y mo d ++ " " ++ reference.clockHMS h mi s).toList = true ∧
    reference.hasForm "YYYY-MM-DD HH:MM".toList
      (reference.dashed y mo d ++ " " ++ reference.clockHM h mi).toList = true := by
  have hv0 := validCivil_zero_sec y mo d h mi s hv
  refine ⟨fun r hd ht => TryParseDateTime_dotted_hms r y mo d h mi s hv hd ht,
    fun r hd ht => TryParseDateTime_dotted_hm r y mo d h mi hv0 hd ht,
    fun r hd ht => TryParseDateTime_dashed_hms r y mo d h mi s hv hd ht,
    fun r hd ht => TryParseDateTime_dashed_hm r y mo d h mi hv0 hd ht, ?_, ?_, ?_,
    hasForm_written y mo d h mi s⟩
  · simp only [time.Date, time.Time.Add, time.UTC, time.Hour, time.Minute, time.Second]
    congr 1
    ring
  · intro r1 r2 hd1 hd2 ht hcases
    rcases hcases with h1 | h1
    · rw [TryParseDateTime_dotted_hms r1 y mo d h mi s hv hd1 h1,
        TryParseDateTime_dashed_hms r2 y mo d h mi s hv hd2 (ht ▸ h1)]
    · rw [TryParseDateTime_dotted_hm r1 y mo d h mi hv0 hd1 h1,
        TryParseDateTime_dashed_hm r2 y mo d h mi hv0 hd2 (ht ▸ h1)]
  · intro r hfmt
    simp only [CoinPriceRecord.TryParseDateTime, tryFormats_none _ _ hfmt]

/-- Witness of C12, amended: 29 December 2025, 10:30:00, in the four forms; the instant is
03:30:00 UTC of that day. -/
theorem TryParseDateTime_forms_witness :
    (recordAt "29.12.2025" "10:30:00" Float64.zero).TryParseDateTime =
      Except.ok ⟨1766979000000000000⟩ ∧
    (recordAt "29.12.2025" "10:30" Float64.zero).TryParseDateTime =
      Except.ok ⟨1766979000000000000⟩ ∧
    (recordAt "2025-12-29" "10:30:00" Float64.zero).TryParseDateTime =
      Except.ok ⟨1766979000000000000⟩ ∧
    (recordAt "2025-12-29" "10:30" Float64.zero).TryParseDateTime =
      Except.ok ⟨1766979000000000000⟩ ∧
    (recordAt "invalid" "date" Float64.zero).TryParseDateTime =
      Except.error "unable to parse date/time: invalid date" :=
  have hv : reference.validCivil 2025 12 29 10 30 0 :=
    ⟨by decide, by decide, by decide, by decide, by decide, by decide, by decide, by decide⟩
  have h := TryParseDateTime_forms 2025 12 29 10 30 0 hv
  ⟨h.1 _ (by decide) (by decide), h.2.1 _ (by decide) (by decide),
   h.2.2.1 _ (by decide) (by decide), h.2.2.2.1 _ (by decide) (by decide),
   h.2.2.2.2.2.2.1 _ (by decide)⟩

/-! ## C28: the offset pointers and the column layout -/

/-- C28: the offset indirection table agrees with the column layout. For every record r,
every i in 0..10 and every non-zero value v, assigning v through the pointer
`GetPriceFields()[i].Value` changes cell 7 + i of `r.ToRow()` to the number v and leaves the
other 17 cells as they were. -/
theorem offset_pointer_column (r : CoinPriceRecord) (i : Nat) (hi : i < 11) (v : Float64)
    (hv : v.isZero = false) :
    ∃ field, r.GetPriceFields[i]? = some field ∧
      (r.store field.Value v).ToRow = r.ToRow.set (7 + i) (Cell.num v) ∧
      (r.store field.Value v).ToRow[7 + i]? = some (Cell.num v) ∧
      (r.store field.Value v).ToRow.length = 18 ∧
      ∀ j, j ≠ 7 + i → (r.store field.Value v).ToRow[j]? = r.ToRow[j]? := by
  have hf : floatToInterface v = Cell.num v := floatToInterface_nonzero v hv
  have key : ∃ field, r.GetPriceFields[i]? = some field ∧
      (r.store field.Value v).ToRow = r.ToRow.set (7 + i) (Cell.num v) := by
    interval_cases i <;> refine ⟨_, rfl, ?_⟩ <;>
      simp [CoinPriceRecord.GetPriceFields, CoinPriceRecord.store, CoinPriceRecord.ToRow, hf]
  obtain ⟨field, h1, h2⟩ := key
  refine ⟨field, h1, h2, ?_, ?_, ?_⟩
  · rw [h2, List.getElem?_set_self]
    simp [CoinPriceRecord.ToRow]
    omega
  · rw [h2, List.length_set]
    rfl
  · intro j hj
    rw [h2, List.getElem?_set_ne (Ne.symm hj)]

/-- Witness of C28: the `+1h` field, index 2, of the record of scenario S1 is set to 45100;
cell 9 of the row becomes that number. -/
theorem offset_pointer_column_witness :
    ∃ field, recordS1.GetPriceFields[2]? = some field ∧
      (recordS1.store field.Value f45100).ToRow = recordS1.ToRow.set 9 (Cell.num f45100) ∧
      (recordS1.store field.Value f45100).ToRow[9]? = some (Cell.num f45100) :=
  match offset_pointer_column recordS1 2 (by decide) f45100 (by decide) with
  | ⟨field, h1, h2, h3, _, _⟩ => ⟨field, h1, h2, h3⟩

/-! ## C27: the resolver is idempotent -/

theorem lookup_some_mem (k v : String) : ∀ l : List (String × String),
    l.lookup k = some v → (k, v) ∈ l
  | [], h => by cases h
  | (a, b) :: l, h => by
    by_cases e : k = a
    · subst e
      simp [List.lookup] at h
      subst h
      exact List.mem_cons_self _ _
    · have hb : (k == a) = false := by simpa using e
      rw [List.lookup, hb] at h
      exact List.mem_cons_of_mem _ (lookup_some_mem k v l h)

/-- Every id of the table resolves to itself, whatever the case table of the library is. -/
theorem mapping_ids_fixed (lower : unicode.CaseTable) :
    ∀ p ∈ webapi.mapping, webapi.symbolToCoinID lower p.2 = p.2 := by
  have h : webapi.mapping.map (fun p => webapi.symbolToCoinID lower p.2) =
      webapi.mapping.map Prod.snd := rfl
  intro p hp
  have := List.map_inj_left.mp h p hp
  exact this

/-- C27: the symbol resolver is idempotent. For every string s,
`symbolToCoinID(symbolToCoinID(s)) = symbolToCoinID(s)`: every id of the table resolves to
itself (no id is a symbol bound to a different id), and the lower-cased, trimmed form of an
unknown symbol stays unknown. Lower-casing of the runes above ASCII is the case table of
the Go library: the statement is for a table that is idempotent on such runes of s and
lowers none of them to white space; a text of ASCII runes asks nothing of the table. -/
theorem resolver_idempotent (lower : unicode.CaseTable) (s : String)
    (hidem : ∀ c ∈ s.toList, 127 < c.toNat → unicode.ToLower lower (lower c) = lower c)
    (hspace : ∀ c ∈ s.toList, 127 < c.toNat → unicode.IsSpace c = false →
      unicode.IsSpace (lower c) = false) :
    webapi.symbolToCoinID lower (webapi.symbolToCoinID lower s) = webapi.symbolToCoinID lower s ∧
    (∀ p ∈ webapi.mapping, webapi.symbolToCoinID lower p.2 = p.2) ∧
    (webapi.mapping.lookup (strings.ToLower lower (strings.TrimSpace s)) = none →
      webapi.mapping.lookup (strings.ToLower lower (strings.TrimSpace
        (strings.ToLower lower (strings.TrimSpace s)))) = none) := by
  have hfix := lower_trim_fixed lower s hidem hspace
  refine ⟨?_, mapping_ids_fixed lower, ?_⟩
  · cases h : webapi.mapping.lookup (strings.ToLower lower (strings.TrimSpace s)) with
    | some id =>
      have e : webapi.symbolToCoinID lower s = id := by
        simp only [webapi.symbolToCoinID, h]
      rw [e]
      exact mapping_ids_fixed lower (_, id) (lookup_some_mem _ _ _ h)
    | none =>
      have e : webapi.symbolToCoinID lower s = strings.ToLower lower (strings.TrimSpace s) := by
        simp only [webapi.symbolToCoinID, h]
      rw [e]
      simp only [webapi.symbolToCoinID, hfix, h]
  · intro h
    rw [hfix]
    exact h

/-- Witness of C27: the symbol ` Near `, whose id `near` is itself a symbol of the table, and
the unknown symbol `WIF`, with a case table that lowers U+00C9 to U+00E9. -/
theorem resolver_idempotent_witness :
    webapi.symbolToCoinID (fun c => if c = Char.ofNat 201 then Char.ofNat 233 else c)
      (webapi.symbolToCoinID (fun c => if c = Char.ofNat 201 then Char.ofNat 233 else c)
        " Near ") =
      webapi.symbolToCoinID (fun c => if c = Char.ofNat 201 then Char.ofNat 233 else c)
        " Near " ∧
    webapi.symbolToCoinID (fun c => if c = Char.ofNat 201 then Char.ofNat 233 else c)
      (webapi.symbolToCoinID (fun c => if c = Char.ofNat 201 then Char.ofNat 233 else c)
        "WIF") =
      webapi.symbolToCoinID (fun c => if c = Char.ofNat 201 then Char.ofNat 233 else c) "WIF" :=
  ⟨(resolver_idempotent (fun c => if c = Char.ofNat 201 then Char.ofNat 233 else c) " Near "
      (by decide) (by decide)).1,
   (resolver_idempotent (fun c => if c = Char.ofNat 201 then Char.ofNat 233 else c) "WIF"
      (by decide) (by decide)).1⟩

/-! ## C29: nothing to write -/

theorem decoded_none (data : List (List Cell))
    (h : ∀ row ∈ data, ∃ err, ParseFromRow row = Except.error err) :
    reference.decoded data = [] := by
  induction data with
  | nil => rfl
  | cons row rest ih =>
    obtain ⟨err, h1⟩ := h row (List.mem_cons_self _ _)
    have h2 := ih (fun r hr => h r (List.mem_cons_of_mem _ hr))
    unfold reference.decoded at h2 ⊢
    rw [List.filterMap_cons]
    simp only [h1]
    exact h2

/-- C29: the ledger is not touched when there is nothing to write. When the read range is
empty, holds the header row only, or holds data rows none of which decodes, the run of `Process` makes neither a clear nor a write call on the ledger and
returns no error; in the last case the rows that do not decode stay in the sheet. -/
theorem nothing_to_write (u : usecase.Process) (gs : webapi.GoogleSheets)
    (ctx : webapi.Context) (w : World) (spreadsheet : sheets.Spreadsheet) (readRange : String)
    (values : List (List Cell))
    (hgs : u.googleSheets = some gs)
    (hinfo : gs.service.Get u.config.GoogleSheetID = Except.ok spreadsheet)
    (hrange : (if u.config.GoogleSheetRange ≠ "" then some u.config.GoogleSheetRange
      else spreadsheet.Sheets.head?) = some readRange)
    (hread : gs.service.ValuesGet u.config.GoogleSheetID readRange = Except.ok values)
    (hnothing : values = [] ∨ (∃ header, values = [header]) ∨
      (∃ header data, values = header :: data ∧
        ∀ row ∈ data, ∃ err, ParseFromRow row = Except.error err)) :
    (u.Process ctx w).1 = none ∧ (u.Process ctx w).2.ledger = w.ledger ∧
    (u.Process ctx w).2.oracle = w.oracle ∧ (u.Process ctx w).2.requests = w.requests ∧
    (u.Process ctx w).2.trace = w.trace := by
  have hmain : ∀ header data, values = header :: data →
      (∀ row ∈ data, ∃ err, ParseFromRow row = Except.error err) →
      (u.Process ctx w).1 = none ∧ (u.Process ctx w).2.ledger = w.ledger ∧
      (u.Process ctx w).2.oracle = w.oracle ∧ (u.Process ctx w).2.requests = w.requests ∧
      (u.Process ctx w).2.trace = w.trace := by
    intro header data hv hshort
    subst hv
    have hd := decoded_none data hshort
    unfold usecase.Process.Process
    rw [hgs]
    simp only
    unfold webapi.GoogleSheets.GetSpreadsheetInfo
    rw [hinfo]
    simp only [hrange]
    unfold webapi.GoogleSheets.ReadSpreadsheet
    rw [hread]
    cases data with
    | nil => exact ⟨rfl, rfl, rfl, rfl, rfl⟩
    | cons row rows =>
      simp only
      rw [parseRows_records, hd]
      have h2 : ∀ v : World, (u.fillMissingPrices ctx [] v) = (none, [], v) := fun v => rfl
      rw [h2]
      simp [updateGoogleSheets_nil]
  rcases hnothing with h | ⟨header, h⟩ | ⟨header, data, h, hshort⟩
  · subst h
    unfold usecase.Process.Process
    rw [hgs]
    simp only
    unfold webapi.GoogleSheets.GetSpreadsheetInfo
    rw [hinfo]
    simp only [hrange]
    unfold webapi.GoogleSheets.ReadSpreadsheet
    rw [hread]
    exact ⟨rfl, rfl, rfl, rfl, rfl⟩
  · exact hmain header [] h (fun row hr => by cases hr)
  · exact hmain header data h hshort

/-- Witness of C29: a sheet with the header row and two rows of two cells. -/
theorem nothing_to_write_witness :
    ((processOver { serviceS6 with ValuesGet := fun _ _ => Except.ok sheetUndecodable }).Process
      background (freshWorld (oracleAfter 0 respPrice))).1 = none ∧
    ((processOver { serviceS6 with ValuesGet := fun _ _ => Except.ok sheetUndecodable }).Process
      background (freshWorld (oracleAfter 0 respPrice))).2.ledger = [] :=
  have h := nothing_to_write
    (processOver { serviceS6 with ValuesGet := fun _ _ => Except.ok sheetUndecodable })
    ⟨{ serviceS6 with ValuesGet := fun _ _ => Except.ok sheetUndecodable }⟩
    background (freshWorld (oracleAfter 0 respPrice)) ⟨"Ledger", ["Sheet1"]⟩ "Sheet1"
    sheetUndecodable rfl rfl rfl rfl
    (Or.inr (Or.inr ⟨_, _, rfl, by
      intro row hrow
      simp only [List.mem_cons, List.mem_singleton, List.not_mem_nil, or_false] at hrow
      rcases hrow with h | h <;> subst h <;> exact ⟨_, rfl⟩⟩))
  ⟨h.1, h.2.1⟩

/-! ## C21: the target sheet of the write-back -/

set_option maxRecDepth 100000 in
/-- C21, counterexample to the claim as stated: a ledger with the sheets Sheet1 and Sheet2
and the range `Sheet2` configured. The read range has no `!` and equals the title of a
sheet, and the rows are read from the range `Sheet2`; the sheet name computed for the
write-back is not that read range but `Sheet1`, the title of the first sheet, and the clear
and the write of the run go to `Sheet1`. -/
theorem bare_title_writes_first_sheet :
    '!' ∉ "Sheet2".toList ∧
    "Sheet2" ∈ ({ Title := "Ledger", Sheets := ["Sheet1", "Sheet2"] } : sheets.Spreadsheet).Sheets ∧
    usecase.sheetNameOf { Title := "Ledger", Sheets := ["Sheet1", "Sheet2"] } "Sheet2" ≠ "Sheet2" ∧
    usecase.sheetNameOf { Title := "Ledger", Sheets := ["Sheet1", "Sheet2"] } "Sheet2" = "Sheet1" ∧
    serviceTwoSheets.Get "sheet-id" =
      Except.ok { Title := "Ledger", Sheets := ["Sheet1", "Sheet2"] } ∧
    serviceTwoSheets.ValuesGet "sheet-id" "Sheet2" =
      Except.ok [[.str "Date", .str "Time", .str "Source", .str "Coin", .str "Direction"],
        rowOf "XRP"] ∧
    ((processRange serviceTwoSheets "Sheet2").Process background
      (freshWorld (oracleAfter 0 respPrice))).1 = none ∧
    ((processRange serviceTwoSheets "Sheet2").Process background
      (freshWorld (oracleAfter 0 respPrice))).2.ledger =
      [LedgerOp.clear "Sheet1!A2:R",
       LedgerOp.update "Sheet1!A2:R2" [(recordOf "XRP").ToRow]] := by
  decide

/-! ## The fill phase: one oracle call per wanted slot -/

theorem load_store_ne (r : CoinPriceRecord) (p q : PriceRef) (v : Float64) (h : p ≠ q) :
    (r.store p v).load q = r.load q := by
  cases p <;> cases q <;> first | rfl | exact absurd rfl h

theorem store_fields (r : CoinPriceRecord) (p : PriceRef) (v : Float64) :
    (r.store p v).Date = r.Date ∧ (r.store p v).Time = r.Time ∧
    (r.store p v).Source = r.Source ∧ (r.store p v).Coin = r.Coin ∧
    (r.store p v).Direction = r.Direction ∧ (r.store p v).SourcePrice = r.SourcePrice ∧
    (r.store p v).BybitPrice = r.BybitPrice := by
  cases p <;> exact ⟨rfl, rfl, rfl, rfl, rfl, rfl, rfl⟩

theorem TryParseDateTime_congr (c r : CoinPriceRecord) (hd : c.Date = r.Date)
    (ht : c.Time = r.Time) : c.TryParseDateTime = r.TryParseDateTime := by
  simp only [CoinPriceRecord.TryParseDateTime, CoinPriceRecord.GetDateTime, hd, ht]

/-- The check of the code and the condition of the specification agree on an offset. -/
theorem ShouldFetchPrice_wanted (r : CoinPriceRecord) (field : PriceField) (now : time.Time) :
    (r.ShouldFetchPrice field now).1 = reference.wanted r now (reference.Slot.offset field) ∧
    ((r.ShouldFetchPrice field now).1 = true → (r.ShouldFetchPrice field now).2 = none) := by
  unfold reference.wanted
  cases h0 : (r.load field.Value).isZero with
  | false =>
    rw [ShouldFetchPrice_filled r field now h0]
    simp [h0]
  | true =>
    cases hT : r.TryParseDateTime with
    | error err =>
      simp [CoinPriceRecord.ShouldFetchPrice, h0, hT]
    | ok T =>
      rw [ShouldFetchPrice_due r field now T hT h0]
      simp [h0]

theorem wanted_iff_due (r : CoinPriceRecord) (field : PriceField) (now : time.Time) :
    reference.wanted r now (reference.Slot.offset field) = true ↔
      r.ShouldFetchPrice field now = (true, none) := by
  obtain ⟨h1, h2⟩ := ShouldFetchPrice_wanted r field now
  constructor
  · intro h
    rw [← h1] at h
    exact Prod.ext h (h2 h)
  · intro h
    rw [← h1, h]

theorem wanted_congr (c r : CoinPriceRecord) (now : time.Time) (s : reference.Slot)
    (hd : c.Date = r.Date) (ht : c.Time = r.Time)
    (hs : reference.read c s = reference.read r s) :
    reference.wanted c now s = reference.wanted r now s := by
  cases s with
  | bybit =>
    simp only [reference.read] at hs
    simp only [reference.wanted, hs]
  | offset field =>
    simp only [reference.read] at hs
    simp only [reference.wanted, hs, TryParseDateTime_congr c r hd ht]

/-- One iteration of the inner loop is one oracle call when the field is wanted, and nothing
otherwise. -/
theorem fillField_eq (u : usecase.Process) (ctx : webapi.Context) (now : time.Time)
    (acc : CoinPriceRecord × World) (field : PriceField) :
    usecase.fillField u ctx now acc field =
      if reference.wanted acc.1 now (reference.Slot.offset field) = true then
        reference.call u.coinGecko ctx acc (reference.Slot.offset field)
      else acc := by
  obtain ⟨h1, h2⟩ := ShouldFetchPrice_wanted acc.1 field now
  unfold usecase.fillField reference.call
  rw [← h1]
  rcases h : acc.1.ShouldFetchPrice field now with ⟨shouldFetch, err⟩
  rw [h] at h2
  cases shouldFetch with
  | true =>
    have : err = none := h2 rfl
    subst this
    simp only [if_true]
    cases (webapi.GetCurrentPrice u.coinGecko ctx acc.1.Coin acc.2).1.2 <;> rfl
  | false =>
    cases err <;> simp

theorem write_fields (r : CoinPriceRecord) (s : reference.Slot) (v : Float64) :
    (reference.write r s v).Date = r.Date ∧ (reference.write r s v).Time = r.Time ∧
    (reference.write r s v).Source = r.Source ∧ (reference.write r s v).Coin = r.Coin ∧
    (reference.write r s v).Direction = r.Direction ∧
    (reference.write r s v).SourcePrice = r.SourcePrice := by
  cases s with
  | bybit => exact ⟨rfl, rfl, rfl, rfl, rfl, rfl⟩
  | offset field =>
    have h := store_fields r field.Value v
    exact ⟨h.1, h.2.1, h.2.2.1, h.2.2.2.1, h.2.2.2.2.1, h.2.2.2.2.2.1⟩

theorem read_write_self (r : CoinPriceRecord) (s : reference.Slot) (v : Float64) :
    reference.read (reference.write r s v) s = v := by
  cases s with
  | bybit => rfl
  | offset field => exact load_store r field.Value v

theorem read_write_other (r : CoinPriceRecord) (s t : reference.Slot) (v : Float64)
    (h : reference.cell t ≠ reference.cell s) :
    reference.read (reference.write r s v) t = reference.read r t := by
  cases s with
  | bybit =>
    cases t with
    | bybit => exact absurd rfl h
    | offset g => cases g.Value <;> rfl
  | offset f =>
    cases t with
    | bybit => exact (store_fields r f.Value v).2.2.2.2.2.2
    | offset g =>
      apply load_store_ne
      intro e
      apply h
      simp only [reference.cell, e]

/-- What one oracle call for a slot does to the record and the world. -/
theorem call_effects (lower : unicode.CaseTable) (ctx : webapi.Context)
    (acc : CoinPriceRecord × World) (s : reference.Slot) :
    (reference.call lower ctx acc s).2 = (webapi.GetCurrentPrice lower ctx acc.1.Coin acc.2).2 ∧
    (reference.call lower ctx acc s).1.Date = acc.1.Date ∧
    (reference.call lower ctx acc s).1.Time = acc.1.Time ∧
    (reference.call lower ctx acc s).1.Source = acc.1.Source ∧
    (reference.call lower ctx acc s).1.Coin = acc.1.Coin ∧
    (reference.call lower ctx acc s).1.Direction = acc.1.Direction ∧
    (reference.call lower ctx acc s).1.SourcePrice = acc.1.SourcePrice ∧
    (∀ t, reference.cell t ≠ reference.cell s →
      reference.read (reference.call lower ctx acc s).1 t = reference.read acc.1 t) ∧
    reference.read (reference.call lower ctx acc s).1 s =
      (if (webapi.GetCurrentPrice lower ctx acc.1.Coin acc.2).1.2 = none then
        (webapi.GetCurrentPrice lower ctx acc.1.Coin acc.2).1.1
       else reference.read acc.1 s) := by
  unfold reference.call
  cases h : (webapi.GetCurrentPrice lower ctx acc.1.Coin acc.2).1.2 with
  | some e => simp
  | none =>
    have hw := write_fields acc.1 s (webapi.GetCurrentPrice lower ctx acc.1.Coin acc.2).1.1
    simp only [true_and, if_true]
    exact ⟨hw.1, hw.2.1, hw.2.2.1, hw.2.2.2.1, hw.2.2.2.2.1, hw.2.2.2.2.2,
      fun t ht => read_write_other _ _ _ _ ht, read_write_self _ _ _⟩

/-- The inner loop over a list of fields with distinct pointers is the sequence of the
oracle calls for the fields that are wanted on the record `r` the loop started from. -/
theorem foldl_fillField_calls (u : usecase.Process) (ctx : webapi.Context) (now : time.Time)
    (r : CoinPriceRecord) : ∀ (fields : List PriceField) (acc : CoinPriceRecord × World),
    (fields.map PriceField.Value).Nodup → acc.1.Date = r.Date → acc.1.Time = r.Time →
    (∀ f ∈ fields, acc.1.load f.Value = r.load f.Value) →
    fields.foldl (usecase.fillField u ctx now) acc =
      ((fields.map reference.Slot.offset).filter (reference.wanted r now)).foldl
        (reference.call u.coinGecko ctx) acc
  | [], _, _, _, _, _ => rfl
  | f :: fields, acc, hn, hd, ht, hl => by
    rw [List.map_cons, List.nodup_cons] at hn
    have hw : reference.wanted acc.1 now (reference.Slot.offset f) =
        reference.wanted r now (reference.Slot.offset f) :=
      wanted_congr acc.1 r now _ hd ht (hl f (List.mem_cons_self _ _))
    rw [List.foldl_cons, fillField_eq, hw, List.map_cons, List.filter_cons]
    by_cases hwant : reference.wanted r now (reference.Slot.offset f) = true
    · rw [if_pos hwant, if_pos hwant, List.foldl_cons]
      have he := call_effects u.coinGecko ctx acc (reference.Slot.offset f)
      apply foldl_fillField_calls u ctx now r fields _ hn.2 (he.2.1.trans hd)
        (he.2.2.1.trans ht)
      intro g hg
      have hne : reference.cell (reference.Slot.offset g) ≠
          reference.cell (reference.Slot.offset f) := by
        intro e
        simp only [reference.cell, Option.some.injEq] at e
        exact hn.1 (e ▸ List.mem_map_of_mem PriceField.Value hg)
      have := he.2.2.2.2.2.2.2.1 (reference.Slot.offset g) hne
      simp only [reference.read] at this
      rw [this]
      exact hl g (List.mem_cons_of_mem _ hg)
    · rw [if_neg hwant, if_neg hwant]
      exact foldl_fillField_calls u ctx now r fields acc hn.2 hd ht
        (fun g hg => hl g (List.mem_cons_of_mem _ hg))

theorem GetPriceFields_nodup (r : CoinPriceRecord) :
    (r.GetPriceFields.map PriceField.Value).Nodup := by
  simp only [CoinPriceRecord.GetPriceFields, List.map]
  decide

/-- The body of the outer loop for one record is the sequence of the oracle calls of the
specification for that record. -/
theorem fillRecord_calls (u : usecase.Process) (ctx : webapi.Context) (now : time.Time)
    (r : CoinPriceRecord) (w : World) :
    usecase.fillRecord u ctx now r w =
      (reference.calls r now).foldl (reference.call u.coinGecko ctx) (r, w) := by
  unfold usecase.fillRecord reference.calls
  by_cases hcoin : r.Coin = ""
  · rw [if_pos hcoin, if_pos hcoin]
    rfl
  · rw [if_neg hcoin, if_neg hcoin]
    simp only [reference.slotOrder, List.filter_cons]
    by_cases hz : r.BybitPrice.isZero = true
    · have hwant : reference.wanted r now reference.Slot.bybit = true := hz
      rw [if_pos hz, if_pos hwant, List.foldl_cons]
      have key : ∀ acc0 : CoinPriceRecord × World,
          acc0 = reference.call u.coinGecko ctx (r, w) reference.Slot.bybit →
          List.foldl (usecase.fillField u ctx now) acc0 acc0.1.GetPriceFields =
            List.foldl (reference.call u.coinGecko ctx)
              (reference.call u.coinGecko ctx (r, w) reference.Slot.bybit)
              (List.filter (reference.wanted r now)
                (List.map reference.Slot.offset r.GetPriceFields)) := by
        intro acc0 h0
        subst h0
        have he := call_effects u.coinGecko ctx (r, w) reference.Slot.bybit
        apply foldl_fillField_calls u ctx now r _ _ (GetPriceFields_nodup _) he.2.1 he.2.2.1
        intro g _
        have := he.2.2.2.2.2.2.2.1 (reference.Slot.offset g) (by simp [reference.cell])
        simpa only [reference.read] using this
      apply key
      unfold reference.call
      cases (webapi.GetCurrentPrice u.coinGecko ctx r.Coin w).1.2 <;> rfl
    · have hwant : ¬ reference.wanted r now reference.Slot.bybit = true := hz
      rw [if_neg hz, if_neg hwant]
      exact foldl_fillField_calls u ctx now r _ _ (GetPriceFields_nodup _) rfl rfl
        (fun _ _ => rfl)

theorem GetCurrentPrice_world (table : unicode.CaseTable) (ctx : webapi.Context) (s : String)
    (w : World) :
    (webapi.GetCurrentPrice table ctx s w).2.oracle = w.oracle ∧
    w.requests ≤ (webapi.GetCurrentPrice table ctx s w).2.requests ∧
    (webapi.GetCurrentPrice table ctx s w).2.requests ≤ w.requests + 4 := by
  obtain ⟨n, hn, -, hO⟩ := GetCurrentPrice_spec table ctx s w
  unfold webapi.Outcome at hO
  simp only [Nat.sub_zero] at hO
  obtain ⟨ho, -, -, hO⟩ := hO
  refine ⟨ho, ?_, ?_⟩ <;>
    rcases hO with ⟨-, -, hq, -⟩ | ⟨-, -, hq, -⟩ <;> omega

/-- A call whose first request is answered with a 2xx response that carries the price
returns the price. -/
theorem GetCurrentPrice_good (table : unicode.CaseTable) (ctx : webapi.Context) (s : String)
    (w : World) (p : Float64) (hc : ctx.cancelled w.clock = false)
    (herr : (w.oracle w.requests).err = none)
    (hst : (w.oracle w.requests).status ≤ 299)
    (hp : (w.oracle w.requests).price (webapi.symbolToCoinID table s) = some p) :
    (webapi.GetCurrentPrice table ctx s w).1 = (p, none) := by
  have hne : (w.oracle w.requests).status ≠ 429 := by omega
  have h := attempt_final ctx s (webapi.symbolToCoinID table s) 3 0 w w rfl hc
    (fun hh => hne hh.2.1)
  exact h.2.2.2.1 herr (by omega) p hp

theorem foldl_call_effects (lower : unicode.CaseTable) (ctx : webapi.Context) :
    ∀ (ss : List reference.Slot) (acc : CoinPriceRecord × World),
    (ss.foldl (reference.call lower ctx) acc).1.Date = acc.1.Date ∧
    (ss.foldl (reference.call lower ctx) acc).1.Time = acc.1.Time ∧
    (ss.foldl (reference.call lower ctx) acc).1.Source = acc.1.Source ∧
    (ss.foldl (reference.call lower ctx) acc).1.Coin = acc.1.Coin ∧
    (ss.foldl (reference.call lower ctx) acc).1.Direction = acc.1.Direction ∧
    (ss.foldl (reference.call lower ctx) acc).1.SourcePrice = acc.1.SourcePrice ∧
    (∀ t, (∀ s ∈ ss, reference.cell t ≠ reference.cell s) →
      reference.read (ss.foldl (reference.call lower ctx) acc).1 t = reference.read acc.1 t) ∧
    (ss.foldl (reference.call lower ctx) acc).2.oracle = acc.2.oracle ∧
    acc.2.requests ≤ (ss.foldl (reference.call lower ctx) acc).2.requests ∧
    (ss.foldl (reference.call lower ctx) acc).2.requests ≤ acc.2.requests + 4 * ss.length
  | [], acc => ⟨rfl, rfl, rfl, rfl, rfl, rfl, fun _ _ => rfl, rfl, le_refl _, le_refl _⟩
  | s :: ss, acc => by
    rw [List.foldl_cons]
    have he := call_effects lower ctx acc s
    have hw := GetCurrentPrice_world lower ctx acc.1.Coin acc.2
    have ih := foldl_call_effects lower ctx ss (reference.call lower ctx acc s)
    rw [he.1] at ih
    refine ⟨ih.1.trans he.2.1, ih.2.1.trans he.2.2.1, ih.2.2.1.trans he.2.2.2.1,
      ih.2.2.2.1.trans he.2.2.2.2.1, ih.2.2.2.2.1.trans he.2.2.2.2.2.1,
      ih.2.2.2.2.2.1.trans he.2.2.2.2.2.2.1, ?_, ih.2.2.2.2.2.2.2.1.trans hw.1, ?_, ?_⟩
    · intro t ht
      rw [ih.2.2.2.2.2.2.1 t (fun x hx => ht x (List.mem_cons_of_mem _ hx))]
      exact he.2.2.2.2.2.2.2.1 t (ht s (List.mem_cons_self _ _))
    · exact le_trans hw.2.1 ih.2.2.2.2.2.2.2.2.1
    · have := ih.2.2.2.2.2.2.2.2.2
      rw [List.length_cons]
      omega

theorem slotOrder_nodup (r : CoinPriceRecord) :
    ((reference.slotOrder r).map reference.cell).Nodup := by
  simp only [reference.slotOrder, CoinPriceRecord.GetPriceFields, List.map, reference.cell]
  decide

theorem calls_sublist (r : CoinPriceRecord) (now : time.Time) :
    (reference.calls r now).Sublist (reference.slotOrder r) := by
  unfold reference.calls
  split
  · exact List.nil_sublist _
  · exact List.filter_sublist _

theorem calls_nodup (r : CoinPriceRecord) (now : time.Time) :
    ((reference.calls r now).map reference.cell).Nodup :=
  ((calls_sublist r now).map reference.cell).nodup (slotOrder_nodup r)

theorem calls_wanted (r : CoinPriceRecord) (now : time.Time) (s : reference.Slot)
    (h : s ∈ reference.calls r now) :
    r.Coin ≠ "" ∧ s ∈ reference.slotOrder r ∧ reference.wanted r now s = true ∧
    (reference.read r s).isZero = true := by
  unfold reference.calls at h
  by_cases hcoin : r.Coin = ""
  · rw [if_pos hcoin] at h
    cases h
  · rw [if_neg hcoin, List.mem_filter] at h
    refine ⟨hcoin, h.1, h.2, ?_⟩
    have hw := h.2
    cases s with
    | bybit => exact hw
    | offset field =>
      simp only [reference.wanted, Bool.and_eq_true] at hw
      exact hw.1

/-- The value that the fill leaves in a slot for which it makes an oracle call: the price
returned by that call, made in the world after the calls before it, or the zero the slot
had when the call fails. -/
theorem fillRecord_slot (u : usecase.Process) (ctx : webapi.Context) (now : time.Time)
    (r : CoinPriceRecord) (w : World) (pre post : List reference.Slot) (s : reference.Slot)
    (h : reference.calls r now = pre ++ s :: post) :
    reference.read (usecase.fillRecord u ctx now r w).1 s =
      (if (webapi.GetCurrentPrice u.coinGecko ctx r.Coin
            (pre.foldl (reference.call u.coinGecko ctx) (r, w)).2).1.2 = none then
        (webapi.GetCurrentPrice u.coinGecko ctx r.Coin
            (pre.foldl (reference.call u.coinGecko ctx) (r, w)).2).1.1
       else reference.read r s) ∧
    (reference.read r s).isZero = true ∧
    (pre.foldl (reference.call u.coinGecko ctx) (r, w)).2.oracle = w.oracle := by
  have hn := calls_nodup r now
  rw [h, List.map_append, List.map_cons, List.nodup_append] at hn
  obtain ⟨-, hn2, hdisj⟩ := hn
  rw [List.nodup_cons] at hn2
  have hpre : ∀ x ∈ pre, reference.cell s ≠ reference.cell x := by
    intro x hx e
    exact hdisj (List.mem_map_of_mem _ hx) (e ▸ List.mem_cons_self _ _)
  have hpost : ∀ x ∈ post, reference.cell s ≠ reference.cell x := by
    intro x hx e
    exact hn2.1 (e ▸ List.mem_map_of_mem _ hx)
  have ha := foldl_call_effects u.coinGecko ctx pre (r, w)
  have hb := foldl_call_effects u.coinGecko ctx post
    (reference.call u.coinGecko ctx (pre.foldl (reference.call u.coinGecko ctx) (r, w)) s)
  have he := call_effects u.coinGecko ctx (pre.foldl (reference.call u.coinGecko ctx) (r, w)) s
  refine ⟨?_, (calls_wanted r now s (h ▸ List.mem_append_right _ (List.mem_cons_self _ _))).2.2.2,
    ha.2.2.2.2.2.2.2.1⟩
  rw [fillRecord_calls, h, List.foldl_append, List.foldl_cons, hb.2.2.2.2.2.2.1 s hpost,
    he.2.2.2.2.2.2.2.2, ha.2.2.2.1, ha.2.2.2.2.2.2.1 s hpre]

/-! ## C23: the fill phase fills zero cells only -/

theorem Frame_refl (a : CoinPriceRecord) : reference.Frame a a :=
  ⟨rfl, rfl, rfl, rfl, rfl, rfl, fun _ => rfl, fun _ _ => rfl⟩

theorem Frame_trans (a b c : CoinPriceRecord) (h1 : reference.Frame a b)
    (h2 : reference.Frame b c) : reference.Frame a c := by
  obtain ⟨a1, a2, a3, a4, a5, a6, a7, a8⟩ := h1
  obtain ⟨b1, b2, b3, b4, b5, b6, b7, b8⟩ := h2
  refine ⟨a1.trans b1, a2.trans b2, a3.trans b3, a4.trans b4, a5.trans b5, a6.trans b6, ?_, ?_⟩
  · intro hz
    have e := a7 hz
    rw [b7 (by rw [e]; exact hz), e]
  · intro p hz
    have e := a8 p hz
    rw [b8 p (by rw [e]; exact hz), e]

/-- An assignment to a slot that is zero is within the frame. -/
theorem Frame_write (r : CoinPriceRecord) (s : reference.Slot) (v : Float64)
    (hz : (reference.read r s).isZero = true) : reference.Frame r (reference.write r s v) := by
  have hw := write_fields r s v
  refine ⟨hw.1.symm, hw.2.1.symm, hw.2.2.1.symm, hw.2.2.2.1.symm, hw.2.2.2.2.1.symm,
    hw.2.2.2.2.2.symm, ?_, ?_⟩
  · intro hb
    cases s with
    | bybit =>
      simp only [reference.read] at hz
      rw [hz] at hb
      cases hb
    | offset field => exact (store_fields r field.Value v).2.2.2.2.2.2
  · intro p hp
    cases s with
    | bybit => cases p <;> rfl
    | offset field =>
      simp only [reference.read] at hz
      apply load_store_ne
      intro e
      rw [e, hp] at hz
      cases hz

theorem Frame_call (lower : unicode.CaseTable) (ctx : webapi.Context)
    (acc : CoinPriceRecord × World) (s : reference.Slot)
    (hz : (reference.read acc.1 s).isZero = true) :
    reference.Frame acc.1 (reference.call lower ctx acc s).1 := by
  unfold reference.call
  cases (webapi.GetCurrentPrice lower ctx acc.1.Coin acc.2).1.2 with
  | some e => exact Frame_refl _
  | none => exact Frame_write _ _ _ hz

theorem fillField_frame (u : usecase.Process) (ctx : webapi.Context) (now : time.Time)
    (acc : CoinPriceRecord × World) (field : PriceField) :
    reference.Frame acc.1 (usecase.fillField u ctx now acc field).1 := by
  rw [fillField_eq]
  by_cases hw : reference.wanted acc.1 now (reference.Slot.offset field) = true
  · rw [if_pos hw]
    apply Frame_call
    simp only [reference.wanted, Bool.and_eq_true] at hw
    exact hw.1
  · rw [if_neg hw]
    exact Frame_refl _

theorem foldl_fillField_frame (u : usecase.Process) (ctx : webapi.Context) (now : time.Time) :
    ∀ (fields : List PriceField) (acc : CoinPriceRecord × World),
    reference.Frame acc.1 (fields.foldl (usecase.fillField u ctx now) acc).1
  | [], acc => Frame_refl _
  | field :: fields, acc => by
    rw [List.foldl_cons]
    exact Frame_trans _ _ _ (fillField_frame u ctx now acc field)
      (foldl_fillField_frame u ctx now fields _)

theorem fillRecord_frame (u : usecase.Process) (ctx : webapi.Context) (now : time.Time)
    (r : CoinPriceRecord) (w : World) :
    reference.Frame r (usecase.fillRecord u ctx now r w).1 := by
  unfold usecase.fillRecord
  by_cases hcoin : r.Coin = ""
  · rw [if_pos hcoin]
    exact Frame_refl _
  · rw [if_neg hcoin]
    simp only
    refine Frame_trans _ _ _ ?_ (foldl_fillField_frame u ctx now _ _)
    by_cases hz : r.BybitPrice.isZero = true
    · rw [if_pos hz]
      cases (webapi.GetCurrentPrice u.coinGecko ctx r.Coin w).1.2 with
      | some e => exact Frame_refl _
      | none => exact Frame_write r reference.Slot.bybit _ hz
    · rw [if_neg hz]
      exact Frame_refl _

theorem fillRecords_frame (u : usecase.Process) (ctx : webapi.Context) (now : time.Time) :
    ∀ (records : List CoinPriceRecord) (w : World),
    List.Forall₂ reference.Frame records (usecase.fillRecords u ctx now records w).1
  | [], _ => List.Forall₂.nil
  | r :: rest, w => by
    unfold usecase.fillRecords
    exact List.Forall₂.cons (fillRecord_frame u ctx now r w)
      (fillRecords_frame u ctx now rest _)

/-- C23: the fill phase only fills price cells that were zero. For every list of records,
every oracle and every instant `now`, after the fill the records correspond one to one, in
order, to the records before, and each record has the date, time, source, coin, direction
and source price it had, and every Bybit or offset price that was not zero before is
unchanged. -/
theorem fill_frame (u : usecase.Process) (ctx : webapi.Context)
    (records : List CoinPriceRecord) (w : World) :
    List.Forall₂ (fun a b =>
        a.Date = b.Date ∧ a.Time = b.Time ∧ a.Source = b.Source ∧ a.Coin = b.Coin ∧
        a.Direction = b.Direction ∧ a.SourcePrice = b.SourcePrice ∧
        (a.BybitPrice.isZero = false → b.BybitPrice = a.BybitPrice) ∧
        ∀ field ∈ a.GetPriceFields, (a.load field.Value).isZero = false →
          b.load field.Value = a.load field.Value)
      records (u.fillMissingPrices ctx records w).2.1 ∧
    (u.fillMissingPrices ctx records w).2.1.length = records.length ∧
    ∀ now : time.Time,
      List.Forall₂ reference.Frame records (usecase.fillRecords u ctx now records w).1 := by
  have h := fillRecords_frame u ctx ⟨w.clock⟩ records w
  refine ⟨?_, h.length_eq.symm, fun now => fillRecords_frame u ctx now records w⟩
  refine List.Forall₂.imp ?_ h
  intro a b hab
  exact ⟨hab.1, hab.2.1, hab.2.2.1, hab.2.2.2.1, hab.2.2.2.2.1, hab.2.2.2.2.2.1,
    hab.2.2.2.2.2.2.1, fun field _ hz => hab.2.2.2.2.2.2.2 field.Value hz⟩

/-! ## C22: ties -/

set_option maxRecDepth 100000 in
/-- C22, counterexample to the claim as stated: a record of BTC of 10:00:00 on 29 December
2025 with its Bybit price filled, a run at 10:45:00, when the offsets +10m and +30m are both
due, and an oracle whose fetches both succeed, with the price 45100 for the first request
and 45000.5 for the second. The fill sets +10m to 45100 and +30m to 45000.5. -/
theorem ties_with_changing_price :
    (recordDue "29.12.2025" "10:00:00" f45010).GetPriceFields.filter
        (fun field => decide ((recordDue "29.12.2025" "10:00:00" f45010).ShouldFetchPrice field
          ⟨clockS2plus45⟩ = (true, none))) =
      [{ Name := "Price10Min", Duration := 10 * time.Minute, Value := .Price10Min },
       { Name := "Price30Min", Duration := 30 * time.Minute, Value := .Price30Min }] ∧
    ((processOver serviceS6).fillMissingPrices background
      [recordDue "29.12.2025" "10:00:00" f45010]
      (worldAt clockS2plus45 (oracleThen respPrice respPriceOther))).2.1 =
      [{ recordDue "29.12.2025" "10:00:00" f45010 with
          Price10Min := f45100, Price30Min := f45000_5 }] ∧
    f45100 ≠ f45000_5 := by
  decide

theorem price_status (resp : webapi.Response) (coinID : String) (p : Float64)
    (h : resp.price coinID = some p) : 200 ≤ resp.status ∧ resp.status ≤ 299 := by
  unfold webapi.Response.price at h
  by_cases hs : 200 ≤ resp.status ∧ resp.status ≤ 299
  · exact hs
  · rw [if_neg hs] at h
    cases h

/-! ## C24: order and number of the oracle calls -/

/-- C24: oracle call order and count. The fill of one record is the sequence of the oracle
calls of the specification, each of them one call of `GetCurrentPrice` for the coin of the
record: none for a record whose coin is the empty string, which is left unchanged, and
otherwise one call per slot that is zero and, for an offset, due, in the order Bybit, +10m,
+30m, +1h, +2h, +6h, +12h, +24h, +3d, +5d, +7d, +1M; so a record causes at most 12 calls
(at most 4 requests each). The records are filled in their order, each in the world left by
the fill of the records before it. -/
theorem oracle_call_order (u : usecase.Process) (ctx : webapi.Context) (now : time.Time)
    (r : CoinPriceRecord) (w : World) :
    usecase.fillRecord u ctx now r w =
      (reference.calls r now).foldl (reference.call u.coinGecko ctx) (r, w) ∧
    (reference.calls r now).Sublist (reference.slotOrder r) ∧
    reference.slotOrder r =
      reference.Slot.bybit :: r.GetPriceFields.map reference.Slot.offset ∧
    r.GetPriceFields.map PriceField.Name =
      ["Price10Min", "Price30Min", "Price1Hour", "Price2Hours", "Price6Hours",
       "Price12Hours", "Price24Hours", "Price3Days", "Price5Days", "Price7Days",
       "Price1Month"] ∧
    (reference.calls r now).length ≤ 12 ∧
    (reference.Slot.bybit ∈ reference.calls r now ↔
      r.Coin ≠ "" ∧ r.BybitPrice.isZero = true) ∧
    (∀ field, reference.Slot.offset field ∈ reference.calls r now ↔
      r.Coin ≠ "" ∧ field ∈ r.GetPriceFields ∧ (r.load field.Value).isZero = true ∧
      r.ShouldFetchPrice field now = (true, none)) ∧
    (r.Coin = "" → usecase.fillRecord u ctx now r w = (r, w)) ∧
    (usecase.fillRecord u ctx now r w).2.requests ≤
      w.requests + 4 * (reference.calls r now).length ∧
    (∀ rest, usecase.fillRecords u ctx now (r :: rest) w =
      ((usecase.fillRecord u ctx now r w).1 ::
        (usecase.fillRecords u ctx now rest (usecase.fillRecord u ctx now r w).2).1,
       (usecase.fillRecords u ctx now rest (usecase.fillRecord u ctx now r w).2).2)) ∧
    (∀ records, u.fillMissingPrices ctx records w =
      (none, (usecase.fillRecords u ctx ⟨w.clock⟩ records w).1,
        (usecase.fillRecords u ctx ⟨w.clock⟩ records w).2)) := by
  have hsub := calls_sublist r now
  have hcalls := fillRecord_calls u ctx now r w
  refine ⟨hcalls, hsub, rfl, rfl, ?_, ?_, ?_, ?_, ?_, fun _ => rfl, fun _ => rfl⟩
  · have := hsub.length_le
    have h12 : (reference.slotOrder r).length = 12 := rfl
    omega
  · constructor
    · intro h
      have := calls_wanted r now _ h
      exact ⟨this.1, this.2.2.1⟩
    · intro h
      unfold reference.calls
      rw [if_neg h.1, List.mem_filter]
      exact ⟨List.mem_cons_self _ _, h.2⟩
  · intro field
    constructor
    · intro h
      have hw := calls_wanted r now _ h
      have hmem : field ∈ r.GetPriceFields := by
        have := hw.2.1
        simp only [reference.slotOrder, List.mem_cons, List.mem_map,
          reference.Slot.offset.injEq, exists_eq_right] at this
        rcases this with h0 | h0
        · cases h0
        · exact h0
      exact ⟨hw.1, hmem, hw.2.2.2, (wanted_iff_due r field now).mp hw.2.2.1⟩
    · intro h
      unfold reference.calls
      rw [if_neg h.1, List.mem_filter]
      exact ⟨List.mem_cons_of_mem _ (List.mem_map_of_mem _ h.2.1),
        (wanted_iff_due r field now).mpr h.2.2.2⟩
  · intro hcoin
    rw [hcalls]
    unfold reference.calls
    rw [if_pos hcoin]
    rfl
  · rw [hcalls]
    exact (foldl_call_effects u.coinGecko ctx (reference.calls r now) (r, w)).2.2.2.2.2.2.2.2.2

set_option maxRecDepth 100000 in
/-- Witness of C24: the record of BTC of 10:00:00 with no Bybit price, filled at 10:45:00 with
an oracle that answers every request with a price. The calls are those for Bybit, +10m and
+30m, in this order, one request each; a record without coin causes no request. -/
theorem oracle_call_order_witness :
    reference.calls (recordDue "29.12.2025" "10:00:00" Float64.zero) ⟨clockS2plus45⟩ =
      [reference.Slot.bybit,
       reference.Slot.offset
         { Name := "Price10Min", Duration := 10 * time.Minute, Value := .Price10Min },
       reference.Slot.offset
         { Name := "Price30Min", Duration := 30 * time.Minute, Value := .Price30Min }] ∧
    (usecase.fillRecord (processOver serviceS6) background ⟨clockS2plus45⟩
      (recordDue "29.12.2025" "10:00:00" Float64.zero)
      (worldAt clockS2plus45 (oracleAfter 0 respPrice))).2.requests = 3 ∧
    usecase.fillRecord (processOver serviceS6) background ⟨clockS2plus45⟩
      (recordAt "29.12.2025" "10:00:00" Float64.zero)
      (worldAt clockS2plus45 (oracleAfter 0 respPrice)) =
      (recordAt "29.12.2025" "10:00:00" Float64.zero,
       worldAt clockS2plus45 (oracleAfter 0 respPrice)) :=
  ⟨by decide,
   by
     rw [(oracle_call_order (processOver serviceS6) background ⟨clockS2plus45⟩
       (recordDue "29.12.2025" "10:00:00" Float64.zero)
       (worldAt clockS2plus45 (oracleAfter 0 respPrice))).1]
     decide,
   (oracle_call_order (processOver serviceS6) background ⟨clockS2plus45⟩
     (recordAt "29.12.2025" "10:00:00" Float64.zero)
     (worldAt clockS2plus45 (oracleAfter 0 respPrice))).2.2.2.2.2.2.2.1 rfl⟩

/-! ## C25: oracle failures are not fatal -/

/-- C25: oracle failures are never fatal. For every list of records and every oracle,
`fillMissingPrices` returns no error and as many records as it was given. For every record
and every slot for which a fetch is made, the fetch is made, in the world left by the
fetches before it, whether or not these failed: when it succeeds the slot holds the fetched
price, and when it fails the slot keeps the zero it had. The fill of a record is followed
by the fill of the records after it. -/
theorem oracle_failures_not_fatal (u : usecase.Process) (ctx : webapi.Context)
    (records : List CoinPriceRecord) (w : World) :
    (u.fillMissingPrices ctx records w).1 = none ∧
    (u.fillMissingPrices ctx records w).2.1.length = records.length ∧
    (∀ (now : time.Time) (r : CoinPriceRecord) (v : World) (pre post : List reference.Slot)
      (s : reference.Slot), reference.calls r now = pre ++ s :: post →
      ((webapi.GetCurrentPrice u.coinGecko ctx r.Coin
          (pre.foldl (reference.call u.coinGecko ctx) (r, v)).2).1.2 = none →
        reference.read (usecase.fillRecord u ctx now r v).1 s =
          (webapi.GetCurrentPrice u.coinGecko ctx r.Coin
            (pre.foldl (reference.call u.coinGecko ctx) (r, v)).2).1.1) ∧
      ((webapi.GetCurrentPrice u.coinGecko ctx r.Coin
          (pre.foldl (reference.call u.coinGecko ctx) (r, v)).2).1.2 ≠ none →
        reference.read (usecase.fillRecord u ctx now r v).1 s = reference.read r s ∧
        (reference.read r s).isZero = true)) ∧
    (∀ (now : time.Time) (r : CoinPriceRecord) (rest : List CoinPriceRecord) (v : World),
      (usecase.fillRecords u ctx now (r :: rest) v).1 =
        (usecase.fillRecord u ctx now r v).1 ::
          (usecase.fillRecords u ctx now rest (usecase.fillRecord u ctx now r v).2).1) := by
  refine ⟨rfl, (fillRecords_frame u ctx ⟨w.clock⟩ records w).length_eq.symm, ?_,
    fun _ _ _ _ => rfl⟩
  intro now r v pre post s h
  obtain ⟨h1, h2, -⟩ := fillRecord_slot u ctx now r v pre post s h
  constructor
  · intro hok
    rw [h1, if_pos hok]
  · intro hfail
    rw [h1, if_neg hfail]
    exact ⟨rfl, h2⟩

set_option maxRecDepth 100000 in
/-- Witness of C25: the record of BTC of 10:00:00 with no Bybit price and a second record,
filled at 10:45:00 with an oracle whose first request fails and whose later requests
succeed. No error is returned; the Bybit price of the first record stays 0, its offsets +10m
and +30m and the Bybit price of the second record are filled. -/
theorem oracle_failures_not_fatal_witness :
    ((processOver serviceS6).fillMissingPrices background
      [recordDue "29.12.2025" "10:00:00" Float64.zero, recordDue "invalid" "date" Float64.zero]
      (worldAt clockS2plus45 (oracleThen respDown respPrice))).1 = none ∧
    ((processOver serviceS6).fillMissingPrices background
      [recordDue "29.12.2025" "10:00:00" Float64.zero, recordDue "invalid" "date" Float64.zero]
      (worldAt clockS2plus45 (oracleThen respDown respPrice))).2.1 =
      [{ recordDue "29.12.2025" "10:00:00" Float64.zero with
          Price10Min := f45100, Price30Min := f45100 },
       recordDue "invalid" "date" f45100] :=
  ⟨(oracle_failures_not_fatal (processOver serviceS6) background
      [recordDue "29.12.2025" "10:00:00" Float64.zero, recordDue "invalid" "date" Float64.zero]
      (worldAt clockS2plus45 (oracleThen respDown respPrice))).1,
   by decide⟩

/-! ## C26: the timestamp does not parse -/

/-- C26: unparsable timestamp in the fill phase. For every record with a coin whose
`Date + " " + Time` matches none of the four layouts, the fill of the record is the oracle
call for the Bybit price when that price is 0, and nothing when it is not: no oracle call is
made for any of the 11 offset fields, which are left as they are, and the Bybit price is
fetched when it is 0 and assigned when the fetch succeeds. -/
theorem unparsable_fill (u : usecase.Process) (ctx : webapi.Context) (now : time.Time)
    (r : CoinPriceRecord) (w : World) (hcoin : r.Coin ≠ "")
    (hfmt : ∀ format ∈ formats, time.ParseInLocation format r.GetDateTime (7 * 60 * 60) = none) :
    (∀ field ∈ r.GetPriceFields,
      (usecase.fillRecord u ctx now r w).1.load field.Value = r.load field.Value) ∧
    (r.BybitPrice.isZero = true →
      (usecase.fillRecord u ctx now r w).2 = (webapi.GetCurrentPrice u.coinGecko ctx r.Coin w).2 ∧
      ((webapi.GetCurrentPrice u.coinGecko ctx r.Coin w).1.2 = none →
        (usecase.fillRecord u ctx now r w).1 =
          { r with BybitPrice := (webapi.GetCurrentPrice u.coinGecko ctx r.Coin w).1.1 }) ∧
      ((webapi.GetCurrentPrice u.coinGecko ctx r.Coin w).1.2 ≠ none →
        (usecase.fillRecord u ctx now r w).1 = r)) ∧
    (r.BybitPrice.isZero = false → usecase.fillRecord u ctx now r w = (r, w)) ∧
    reference.calls r now = (if r.BybitPrice.isZero = true then [reference.Slot.bybit] else []) := by
  have herr : r.TryParseDateTime = Except.error ("unable to parse date/time: " ++ r.GetDateTime) := by
    simp only [CoinPriceRecord.TryParseDateTime, tryFormats_none _ _ hfmt]
  have hnot : ∀ field, reference.wanted r now (reference.Slot.offset field) = false := by
    intro field
    simp only [reference.wanted, herr, Bool.and_false]
  have hcalls : reference.calls r now =
      (if r.BybitPrice.isZero = true then [reference.Slot.bybit] else []) := by
    unfold reference.calls
    rw [if_neg hcoin]
    simp only [reference.slotOrder, List.filter_cons]
    have hrest : List.filter (reference.wanted r now)
        (List.map reference.Slot.offset r.GetPriceFields) = [] := by
      rw [List.filter_eq_nil_iff]
      intro s hs
      rw [List.mem_map] at hs
      obtain ⟨field, -, rfl⟩ := hs
      rw [hnot field]
      simp
    rw [hrest]
    rfl
  have hfill := fillRecord_calls u ctx now r w
  rw [hcalls] at hfill
  refine ⟨?_, ?_, ?_, hcalls⟩
  · intro field _
    rw [hfill]
    by_cases hz : r.BybitPrice.isZero = true
    · rw [if_pos hz, List.foldl_cons, List.foldl_nil]
      have := (call_effects u.coinGecko ctx (r, w) reference.Slot.bybit).2.2.2.2.2.2.2.1
        (reference.Slot.offset field) (by simp [reference.cell])
      simpa only [reference.read] using this
    · rw [if_neg hz, List.foldl_nil]
  · intro hz
    rw [hfill, if_pos hz, List.foldl_cons, List.foldl_nil]
    unfold reference.call
    refine ⟨?_, ?_, ?_⟩
    · cases (webapi.GetCurrentPrice u.coinGecko ctx r.Coin w).1.2 <;> rfl
    · intro hok
      rw [hok]
      rfl
    · intro hfail
      cases h : (webapi.GetCurrentPrice u.coinGecko ctx r.Coin w).1.2 with
      | none => exact absurd h hfail
      | some e => rfl
  · intro hz
    rw [hfill, if_neg (by rw [hz]; simp), List.foldl_nil]

set_option maxRecDepth 100000 in
/-- Witness of C26: a record of BTC with the date `invalid`, the time `date` and no price,
filled at 10:45:00 with an oracle that answers every request with the price 45100. The Bybit
price becomes 45100 after one request, the offsets stay empty. -/
theorem unparsable_fill_witness :
    (usecase.fillRecord (processOver serviceS6) background ⟨clockS2plus45⟩
      (recordDue "invalid" "date" Float64.zero)
      (worldAt clockS2plus45 (oracleAfter 0 respPrice))).1 = recordDue "invalid" "date" f45100 ∧
    (usecase.fillRecord (processOver serviceS6) background ⟨clockS2plus45⟩
      (recordDue "invalid" "date" Float64.zero)
      (worldAt clockS2plus45 (oracleAfter 0 respPrice))).2.requests = 1 :=
  have h := (unparsable_fill (processOver serviceS6) background ⟨clockS2plus45⟩
    (recordDue "invalid" "date" Float64.zero) (worldAt clockS2plus45 (oracleAfter 0 respPrice))
    (by decide) (by decide)).2.1 (by decide)
  ⟨(h.2.1 (by decide)).trans (by decide), by rw [h.1]; decide⟩

/-! ## C22: ties, the amended claim -/

/-- With an oracle every response of which is a 2xx that carries the price p, and a context
that is never cancelled, every fetch of the fill of a record succeeds and returns p. -/
theorem constant_oracle_fetches (u : usecase.Process) (ctx : webapi.Context)
    (r : CoinPriceRecord) (w : World) (p : Float64) (hctx : ctx.cancelAt = none)
    (horacle : ∀ n, (w.oracle n).err = none ∧
      (w.oracle n).price (webapi.symbolToCoinID u.coinGecko r.Coin) = some p)
    (pre : List reference.Slot) :
    (webapi.GetCurrentPrice u.coinGecko ctx r.Coin
      (pre.foldl (reference.call u.coinGecko ctx) (r, w)).2).1 = (p, none) := by
  have h3 := (foldl_call_effects u.coinGecko ctx pre (r, w)).2.2.2.2.2.2.2.1
  have hc : ∀ t, ctx.cancelled t = false := by
    intro t
    unfold webapi.Context.cancelled
    rw [hctx]
  exact GetCurrentPrice_good u.coinGecko ctx r.Coin
    (pre.foldl (reference.call u.coinGecko ctx) (r, w)).2 p (hc _)
    (by rw [h3]; exact (horacle _).1)
    (by rw [h3]; exact (price_status _ _ _ (horacle _).2).2)
    (by rw [h3]; exact (horacle _).2)

/-- C22, amended: ties. The fill of a record is the sequence of its oracle calls, one fetch
per wanted slot, each made in the world left by the calls before it. For every record with
a coin and every oracle, context and world in which each fetch that the fill makes for an
offset field succeeds and returns one and the same price p (after whatever 429 responses
and backoff sleeps the fetch goes through), the fill sets every offset field that is due
to p. Each due field is filled from a fetch of its own. -/
theorem ties_same_price (u : usecase.Process) (ctx : webapi.Context) (now : time.Time)
    (r : CoinPriceRecord) (w : World) (p : Float64)
    (hcoin : r.Coin ≠ "")
    (hfetch : ∀ (pre post : List reference.Slot) (field : PriceField),
      reference.calls r now = pre ++ reference.Slot.offset field :: post →
      (webapi.GetCurrentPrice u.coinGecko ctx r.Coin
        (pre.foldl (reference.call u.coinGecko ctx) (r, w)).2).1 = (p, none)) :
    usecase.fillRecord u ctx now r w =
      (reference.calls r now).foldl (reference.call u.coinGecko ctx) (r, w) ∧
    ∀ field ∈ r.GetPriceFields, r.ShouldFetchPrice field now = (true, none) →
      (usecase.fillRecord u ctx now r w).1.load field.Value = p := by
  refine ⟨fillRecord_calls u ctx now r w, ?_⟩
  intro field hf hdue
  have hmem : reference.Slot.offset field ∈ reference.calls r now := by
    unfold reference.calls
    rw [if_neg hcoin, List.mem_filter]
    exact ⟨List.mem_cons_of_mem _ (List.mem_map_of_mem _ hf), (wanted_iff_due r field now).mpr hdue⟩
  obtain ⟨pre, post, hsplit⟩ := List.append_of_mem hmem
  obtain ⟨h1, -, -⟩ := fillRecord_slot u ctx now r w pre post _ hsplit
  rw [hfetch pre post field hsplit] at h1
  simpa [reference.read] using h1

set_option maxRecDepth 100000 in
/-- Witness of C22, amended: the record of the counterexample with an oracle that answers
its first request with 429 and every later request with the price 45100. The fetch for +10m
is retried once and the fetch for +30m is answered at once; both return 45100, and +10m and
+30m are both set to 45100. -/
theorem ties_same_price_witness :
    (usecase.fillRecord (processOver serviceS6) background ⟨clockS2plus45⟩
      (recordDue "29.12.2025" "10:00:00" f45010)
      (worldAt clockS2plus45 (oracleAfter 1 respPrice))).1.Price10Min = f45100 ∧
    (usecase.fillRecord (processOver serviceS6) background ⟨clockS2plus45⟩
      (recordDue "29.12.2025" "10:00:00" f45010)
      (worldAt clockS2plus45 (oracleAfter 1 respPrice))).1.Price30Min = f45100 ∧
    (usecase.fillRecord (processOver serviceS6) background ⟨clockS2plus45⟩
      (recordDue "29.12.2025" "10:00:00" f45010)
      (worldAt clockS2plus45 (oracleAfter 1 respPrice))).2.trace =
      [webapi.Event.request "bitcoin", webapi.Event.sleep (2 * time.Second),
       webapi.Event.request "bitcoin", webapi.Event.sleep time.Second,
       webapi.Event.request "bitcoin", webapi.Event.sleep time.Second] :=
  have hcalls : reference.calls (recordDue "29.12.2025" "10:00:00" f45010) ⟨clockS2plus45⟩ =
      [reference.Slot.offset
        { Name := "Price10Min", Duration := 10 * time.Minute, Value := .Price10Min },
       reference.Slot.offset
        { Name := "Price30Min", Duration := 30 * time.Minute, Value := .Price30Min }] := by
    decide
  have h := ties_same_price (processOver serviceS6) background ⟨clockS2plus45⟩
    (recordDue "29.12.2025" "10:00:00" f45010) (worldAt clockS2plus45 (oracleAfter 1 respPrice))
    f45100 (by decide)
    (by
      intro pre post field hsplit
      rw [hcalls] at hsplit
      match pre, hsplit with
      | [], _ => decide
      | [_], hs =>
        have h0 := (List.cons.inj hs).1
        subst h0
        decide
      | _ :: _ :: _ :: _, hs =>
        have hl := congrArg List.length hs
        simp at hl)
  ⟨h.2 { Name := "Price10Min", Duration := 10 * time.Minute, Value := .Price10Min } (by decide)
      (by decide),
   h.2 { Name := "Price30Min", Duration := 30 * time.Minute, Value := .Price30Min } (by decide)
      (by decide),
   by decide⟩

/-! ## C21: the target sheet, the amended claim -/

/-- The sheet name taken from a range without `!`: the title of the first sheet, or the
range itself when the spreadsheet has no sheet. -/
theorem sheetNameOf_bare (spreadsheet : sheets.Spreadsheet) (readRange : String)
    (hbang : '!' ∉ readRange.toList) :
    usecase.sheetNameOf spreadsheet readRange = spreadsheet.Sheets.head?.getD readRange := by
  have hcont : readRange.toList.contains '!' = false := by
    simpa using hbang
  unfold usecase.sheetNameOf
  simp only [hcont, Bool.false_eq_true, if_false, or_true, if_true]
  cases spreadsheet.Sheets <;> rfl

/-- The sheet name taken from a range that starts with `!`: the title of the first sheet, or
the empty string when the spreadsheet has no sheet. -/
theorem sheetNameOf_leading_bang (spreadsheet : sheets.Spreadsheet) (rest : String) :
    usecase.sheetNameOf spreadsheet ("!" ++ rest) = spreadsheet.Sheets.head?.getD "" := by
  have hl : ("!" ++ rest).toList = '!' :: rest.toList := by
    simp [String.toList, String.data_append]
  unfold usecase.sheetNameOf
  simp only [hl]
  have hcont : ('!' :: rest.toList).contains '!' = true := by simp
  have htake : ('!' :: rest.toList).takeWhile (fun ch => ch != '!') = [] := by
    simp [List.takeWhile]
  simp only [hcont, if_true, htake]
  have he : String.mk [] = "" := rfl
  rw [he]
  simp only [true_or, if_true]
  cases spreadsheet.Sheets <;> rfl

/-- C21, amended: the target sheet name of the write-back. If the read range contains a `!`
and the text before the first `!` is not empty, the sheet name is that text. In every other
case the sheet name is the title of the first sheet of the spreadsheet: for every read range
without `!`, also when it is the title of a sheet that is not the first, and for a read
range that starts with `!`. Only when the spreadsheet has no sheet is the sheet name the
read range without `!` itself (the empty string for a read range that starts with `!`). -/
theorem target_sheet_name (spreadsheet : sheets.Spreadsheet) (readRange S rest : String) :
    (S ≠ "" → '!' ∉ S.toList → usecase.sheetNameOf spreadsheet (S ++ "!" ++ rest) = S) ∧
    ('!' ∉ readRange.toList →
      ∀ first others, spreadsheet.Sheets = first :: others →
        usecase.sheetNameOf spreadsheet readRange = first) ∧
    ('!' ∉ readRange.toList → readRange ∈ spreadsheet.Sheets →
      spreadsheet.Sheets.head? = some (usecase.sheetNameOf spreadsheet readRange)) ∧
    (∀ first others, spreadsheet.Sheets = first :: others →
      usecase.sheetNameOf spreadsheet ("!" ++ rest) = first) ∧
    ('!' ∉ readRange.toList → spreadsheet.Sheets = [] →
      usecase.sheetNameOf spreadsheet readRange = readRange) ∧
    (spreadsheet.Sheets = [] → usecase.sheetNameOf spreadsheet ("!" ++ rest) = "") := by
  refine ⟨ sheetNameOf_prefix spreadsheet S rest, ?_, ?_, ?_, ?_, ?_⟩
  · intro hbang first others hs
    rw [sheetNameOf_bare spreadsheet readRange hbang, hs]
    rfl
  · intro hbang hmem
    rw [sheetNameOf_bare spreadsheet readRange hbang]
    cases hs : spreadsheet.Sheets with
    | nil =>
      rw [hs] at hmem
      cases hmem
    | cons first others => rfl
  · intro first others hs
    rw [sheetNameOf_leading_bang, hs]
    rfl
  · intro hbang hs
    rw [sheetNameOf_bare spreadsheet readRange hbang, hs]
    rfl
  · intro hs
    rw [sheetNameOf_leading_bang, hs]
    rfl

/-- Witness of C21, amended: the spreadsheet with the sheets Sheet1 and Sheet2. The range
`Sheet2!A1:R9` gives `Sheet2`; the ranges `Sheet2`, `Sheet1`, `Prices` and `!A1:R9` give
`Sheet1`. -/
theorem target_sheet_name_witness :
    usecase.sheetNameOf { Title := "Ledger", Sheets := ["Sheet1", "Sheet2"] } "Sheet2!A1:R9" =
      "Sheet2" ∧
    usecase.sheetNameOf { Title := "Ledger", Sheets := ["Sheet1", "Sheet2"] } "Sheet2" =
      "Sheet1" ∧
    usecase.sheetNameOf { Title := "Ledger", Sheets := ["Sheet1", "Sheet2"] } "Sheet1" =
      "Sheet1" ∧
    usecase.sheetNameOf { Title := "Ledger", Sheets := ["Sheet1", "Sheet2"] } "Prices" =
      "Sheet1" ∧
    usecase.sheetNameOf { Title := "Ledger", Sheets := ["Sheet1", "Sheet2"] } "!A1:R9" =
      "Sheet1" ∧
    usecase.sheetNameOf { Title := "Ledger", Sheets := [] } "Sheet2" = "Sheet2" :=
  ⟨(target_sheet_name ⟨"Ledger", ["Sheet1", "Sheet2"]⟩ "Sheet2" "Sheet2" "A1:R9").1
      (by decide) (by decide),
   (target_sheet_name ⟨"Ledger", ["Sheet1", "Sheet2"]⟩ "Sheet2" "Sheet2" "A1:R9").2.1
      (by decide) "Sheet1" ["Sheet2"] rfl,
   (target_sheet_name ⟨"Ledger", ["Sheet1", "Sheet2"]⟩ "Sheet1" "Sheet2" "A1:R9").2.1
      (by decide) "Sheet1" ["Sheet2"] rfl,
   (target_sheet_name ⟨"Ledger", ["Sheet1", "Sheet2"]⟩ "Prices" "Sheet2" "A1:R9").2.1
      (by decide) "Sheet1" ["Sheet2"] rfl,
   (target_sheet_name ⟨"Ledger", ["Sheet1", "Sheet2"]⟩ "Sheet2" "Sheet2" "A1:R9").2.2.2.1
      "Sheet1" ["Sheet2"] rfl,
   (target_sheet_name ⟨"Ledger", []⟩ "Sheet2" "Sheet2" "A1:R9").2.2.2.2.1 (by decide) rfl⟩

/-! ## C19: the rows handed to the ledger write -/

/-- The fill of a record leaves every slot for which it makes no oracle call as it was. -/
theorem fillRecord_untouched (u : usecase.Process) (ctx : webapi.Context) (now : time.Time)
    (r : CoinPriceRecord) (w : World) (s : reference.Slot) (hs : s ∈ reference.slotOrder r)
    (hn : s ∉ reference.calls r now) :
    reference.read (usecase.fillRecord u ctx now r w).1 s = reference.read r s := by
  rw [fillRecord_calls]
  apply (foldl_call_effects u.coinGecko ctx (reference.calls r now) (r, w)).2.2.2.2.2.2.1
  intro x hx e
  have hxs := (calls_sublist r now).subset hx
  have := List.inj_on_of_nodup_map (slotOrder_nodup r) hs hxs e
  exact hn (this ▸ hx)

/-- The fill of a record for which no oracle call is wanted changes nothing. -/
theorem fillRecord_nocalls (u : usecase.Process) (ctx : webapi.Context) (now : time.Time)
    (r : CoinPriceRecord) (w : World) (h : reference.calls r now = []) :
    usecase.fillRecord u ctx now r w = (r, w) := by
  rw [fillRecord_calls, h]
  rfl

/-- The records after the fill, one by one against the records before it. -/
theorem fillRecords_rows (u : usecase.Process) (ctx : webapi.Context) (now : time.Time) :
    ∀ (records : List CoinPriceRecord) (w : World),
    List.Forall₂ (fun a b => reference.Frame a b ∧
        (∀ s ∈ reference.slotOrder a, s ∉ reference.calls a now →
          reference.read b s = reference.read a s) ∧
        (reference.calls a now = [] → b = a))
      records (usecase.fillRecords u ctx now records w).1
  | [], _ => List.Forall₂.nil
  | r :: rest, w => by
    unfold usecase.fillRecords
    refine List.Forall₂.cons ⟨fillRecord_frame u ctx now r w,
      fun s hs hn => fillRecord_untouched u ctx now r w s hs hn, fun h => ?_⟩
      (fillRecords_rows u ctx now rest _)
    rw [fillRecord_nocalls u ctx now r w h]

theorem forall₂_eq_of_nocalls (now : time.Time) :
    ∀ (records filled : List CoinPriceRecord),
    List.Forall₂ (fun a b => reference.Frame a b ∧
        (∀ s ∈ reference.slotOrder a, s ∉ reference.calls a now →
          reference.read b s = reference.read a s) ∧
        (reference.calls a now = [] → b = a)) records filled →
    (∀ a ∈ records, reference.calls a now = []) → filled = records
  | _, _, List.Forall₂.nil, _ => rfl
  | _, _, List.Forall₂.cons hab hrest, h => by
    rw [hab.2.2 (h _ (List.mem_cons_self _ _)),
      forall₂_eq_of_nocalls now _ _ hrest (fun a ha => h a (List.mem_cons_of_mem _ ha))]

/-- C19: row-drop conservation and order. For a sheet read with a header row and the data
rows `data`, let `filled` be the records that the price fill returns for the records of
exactly those data rows that decoded, in the order of the rows. The run hands to the one
ledger write, after the clear, the encodings of `filled`, in this order, and writes nothing
when no row decodes. Their number is the number of rows read minus 1 minus the number of
decode failures. Record by record, `filled` is the decoded record with nothing changed but
price cells that were zero and for which the fill made an oracle call: date, time, source,
coin, direction and source price are the decoded ones, every price that was not zero and
every cell without oracle call is the decoded one, and a record for which no call is wanted
is the decoded record itself; so when no decoded record wants a call the rows written are
the encodings of the decoded records. The message logged for a failed row at data-row index
i names the spreadsheet row number i + 2. -/
theorem row_drop_conservation (u : usecase.Process) (gs : webapi.GoogleSheets)
    (ctx : webapi.Context) (w : World) (spreadsheet : sheets.Spreadsheet) (readRange : String)
    (header : List Cell) (data : List (List Cell)) (filled : List CoinPriceRecord)
    (hgs : u.googleSheets = some gs)
    (hinfo : gs.service.Get u.config.GoogleSheetID = Except.ok spreadsheet)
    (hrange : (if u.config.GoogleSheetRange ≠ "" then some u.config.GoogleSheetRange
      else spreadsheet.Sheets.head?) = some readRange)
    (hread : gs.service.ValuesGet u.config.GoogleSheetID readRange = Except.ok (header :: data))
    (hfilled : filled = (u.fillMissingPrices ctx (reference.decoded data)
      { w with
        logged := w.logged ++ (reference.failures data).map
          (fun f => "Row " ++ usecase.itoa (f.1 + 2) ++ ": parse error: " ++ f.2) }).2.1) :
    (u.Process ctx w).2.ledger = w.ledger ++
      (if reference.decoded data = [] then []
       else [LedgerOp.clear (usecase.sheetNameOf spreadsheet readRange ++ "!A2:R"),
             LedgerOp.update (usecase.sheetNameOf spreadsheet readRange ++ "!A2:R" ++
               usecase.itoa (filled.length + 1)) (filled.map CoinPriceRecord.ToRow)]) ∧
    (filled.map CoinPriceRecord.ToRow).length =
      (header :: data).length - 1 - (reference.failures data).length ∧
    List.Forall₂ (fun a b => reference.Frame a b ∧
        (∀ s ∈ reference.slotOrder a, s ∉ reference.calls a ⟨w.clock⟩ →
          reference.read b s = reference.read a s) ∧
        (reference.calls a ⟨w.clock⟩ = [] → b = a))
      (reference.decoded data) filled ∧
    ((∀ a ∈ reference.decoded data, reference.calls a ⟨w.clock⟩ = []) →
      filled.map CoinPriceRecord.ToRow = (reference.decoded data).map CoinPriceRecord.ToRow) ∧
    (u.Process ctx w).2.logged = w.logged ++
      (reference.failures data).map
        (fun f => "Row " ++ usecase.itoa (f.1 + 2) ++ ": parse error: " ++ f.2) := by
  have hmsg : (usecase.parseRows 0 data).2 = (reference.failures data).map
      (fun f => "Row " ++ usecase.itoa (f.1 + 2) ++ ": parse error: " ++ f.2) := by
    rw [parseRows_messages, failures_enumFrom]
    rfl
  rw [← hmsg] at hfilled ⊢
  have hk := fillMissingPrices_keeps u ctx (reference.decoded data)
    { w with logged := w.logged ++ (usecase.parseRows 0 data).2 }
  have hrows : List.Forall₂ _ (reference.decoded data) filled :=
    hfilled ▸ fillRecords_rows u ctx ⟨w.clock⟩ (reference.decoded data)
      { w with logged := w.logged ++ (usecase.parseRows 0 data).2 }
  have hw := Process_world u gs ctx w spreadsheet readRange header data hgs hinfo hrange hread
  have hlen := decoded_failures_length data 0
  have hfl : filled.length = (reference.decoded data).length := hrows.length_eq.symm
  have hnil : filled = [] ↔ reference.decoded data = [] := by
    rw [← List.length_eq_zero, ← List.length_eq_zero (l := reference.decoded data), hfl]
  rw [← hfilled] at hw
  generalize (u.fillMissingPrices ctx (reference.decoded data)
    { w with logged := w.logged ++ (usecase.parseRows 0 data).2 }).2.2 = W at hk hw
  have hled : W.ledger = w.ledger := hk.2.2.1
  have hlog : W.logged = w.logged ++ (usecase.parseRows 0 data).2 := hk.2.2.2
  refine ⟨?_, ?_, hrows, ?_, ?_⟩
  · rw [hw]
    by_cases hd : reference.decoded data = []
    · rw [hnil.mpr hd, updateGoogleSheets_nil, if_pos hd, hled]
      simp
    · have hf : filled ≠ [] := fun h => hd (hnil.mp h)
      rw [(updateGoogleSheets_writes u gs spreadsheet _ readRange _ hgs hf).1, if_neg hd]
      simp only [hled]
  · rw [List.length_map, hfl]
    have : (reference.failures data).length =
        ((data.enumFrom 0).filterMap (fun p =>
          match ParseFromRow p.2 with
          | Except.ok _ => none
          | Except.error err => some (p.1, err))).length := rfl
    rw [this, List.length_cons, Nat.add_sub_cancel]
    exact Nat.eq_sub_of_add_eq hlen
  · intro h
    rw [forall₂_eq_of_nocalls ⟨w.clock⟩ _ _ hrows h]
  · rw [hw]
    by_cases hf : filled = []
    · rw [hf, updateGoogleSheets_nil]
      exact hlog
    · rw [(updateGoogleSheets_writes u gs spreadsheet _ readRange _ hgs hf).1]
      exact hlog

set_option maxRecDepth 100000 in
/-- Witness of C19, scenario S6 run at 10:45:00 on 29 December 2025: five data rows of
10:30:00, the third with two cells only, and an oracle that knows the price 45100 of bitcoin
only. Four rows are handed to the write, for BTC, ETH, SOL and XRP in this order: the row of
BTC with its offset +10m, which is due, filled with 45100, the other three as decoded; the
message of the failed row, at data-row index 2, names row 4. -/
theorem row_drop_conservation_witness :
    ((processOver serviceS6).Process background
      (worldAt clockS2plus45 (oracleAfter 0 respPrice))).2.ledger =
      [LedgerOp.clear "Sheet1!A2:R",
       LedgerOp.update "Sheet1!A2:R5"
         ([{ recordOf "BTC" with Price10Min := f45100 }, recordOf "ETH", recordOf "SOL",
           recordOf "XRP"].map CoinPriceRecord.ToRow)] ∧
    ([{ recordOf "BTC" with Price10Min := f45100 }, recordOf "ETH", recordOf "SOL",
      recordOf "XRP"].map CoinPriceRecord.ToRow).length = 6 - 1 - 1 ∧
    ((processOver serviceS6).Process background
      (worldAt clockS2plus45 (oracleAfter 0 respPrice))).2.logged =
      ["Row 4: parse error: invalid row: expected at least 5 columns, got 2"] :=
  have h := row_drop_conservation (processOver serviceS6) ⟨serviceS6⟩ background
    (worldAt clockS2plus45 (oracleAfter 0 respPrice)) ⟨"Ledger", ["Sheet1"]⟩ "Sheet1"
    [.str "Date", .str "Time", .str "Source", .str "Coin", .str "Direction"]
    [rowOf "BTC", rowOf "ETH", [.str "29.12.2025", .str "10:30:00"], rowOf "SOL", rowOf "XRP"]
    [{ recordOf "BTC" with Price10Min := f45100 }, recordOf "ETH", recordOf "SOL",
      recordOf "XRP"]
    rfl rfl rfl rfl (by decide)
  ⟨h.1.trans (by decide), h.2.1.trans (by decide), h.2.2.2.2.trans (by decide)⟩

end TrackMyCoin
